import Mathlib

/-!
Verification of the tableau-tuple core of `sage/combinat/tableau_tuple.py`.

A tableau component is a list of rows of natural-number entries; a tableau
tuple is a list of components.  All definitions below are shallow embeddings
of the corresponding Python functions in the source file; definitions whose
doc comment starts with "Modelled from the spec" embed external collaborators
(single-tableau primitives, partition-tuple shape algebra, residue sequences,
poset linear extensions) that are not part of the excerpted source.
-/

namespace TabTuple

/-- A single tableau component: a list of rows of natural-number entries. -/
abbrev Tab : Type := List (List Nat)

/-- A tableau tuple: an ordered list of tableau components. -/
abbrev TTuple : Type := List Tab

/-- The shape of a tableau tuple: the list of row-length lists of its
components (`TableauTuple.shape`, which builds the `PartitionTuple` of the
component shapes). -/
def shapeOf (t : TTuple) : List (List Nat) :=
  t.map (fun comp => comp.map List.length)

/-- Total number of cells of a tableau tuple (`TableauTuple.size`). -/
def tupleSize (t : TTuple) : Nat :=
  ((shapeOf t).map List.sum).sum

/-- All entries of a tableau tuple in row-reading order
(`TableauTuple.entries`, src lines 794-806). -/
def entriesOf (t : TTuple) : List Nat :=
  (t.map List.flatten).flatten

/- ----------------------------------------------------------------
C10: the `TableauTuple.__classcall_private__` factory (src lines 358-397).
---------------------------------------------------------------- -/

/-- The result of the `TableauTuple` factory: either a bare level-one
tableau or a genuine tuple of tableaux. -/
inductive TTRepr : Type where
  | single (t : Tab)
  | tuple (ts : List Tab)
deriving DecidableEq, Repr

/-- Embedding of `TableauTuple.__classcall_private__` (src lines 358-397) on a
structurally valid list-of-tableaux input: the inputs `[]` and `[[]]` are
special-cased to the empty level-one tableau, a length-one list collapses to
its bare component, and anything else becomes a genuine tuple. -/
def tableauTupleOf (t : List Tab) : TTRepr :=
  if t = [] ∨ t = [[]] then TTRepr.single []
  else if t.length = 1 then TTRepr.single (t.headD [])
  else TTRepr.tuple t

/-- Modelled from the spec: the level of a tableau tuple is the number of
components (glossary); a bare single tableau, produced by the level-one
collapsing of the factory, has one component, so the external
single-tableau primitive reports level 1 for it. -/
def TTRepr.level : TTRepr → Nat
  | TTRepr.single _ => 1
  | TTRepr.tuple ts => ts.length

/- ----------------------------------------------------------------
C9: cell addressing, `TableauTuple.__call__` (src lines 613-645) and
`TableauTuple.entry` (src lines 808-825), with Python list-indexing
semantics (negative indices of magnitude at most the length wrap to
the end of the list, anything else raises IndexError).
---------------------------------------------------------------- -/

/-- Python list indexing: a non-negative index reads from the front and a
negative index `i` with `-len ≤ i` reads position `len + i`; any other
index raises IndexError, modelled as `none`. -/
def pyGet {α : Type} (l : List α) (i : Int) : Option α :=
  if 0 ≤ i then l[i.toNat]?
  else if 0 ≤ i + l.length then l[(i + l.length).toNat]?
  else none

/-- The lookup `self[k][r][c]` performed by both `TableauTuple.entry`
(src line 825) and `TableauTuple.__call__` (src line 643), with Python
indexing semantics; `none` models an uncaught IndexError. -/
def entryLookup (t : TTuple) (k r c : Int) : Option Nat :=
  (pyGet t k).bind fun comp => (pyGet comp r).bind fun row => pyGet row c

/-- Embedding of `TableauTuple.__call__` (src lines 613-645): the same lookup,
but an IndexError is caught and re-raised with a descriptive message. -/
def callCell (t : TTuple) (k r c : Int) : Except String Nat :=
  match entryLookup t k r c with
  | some v => Except.ok v
  | none => Except.error "the cell is not contained in the tableau"

/-- Containment of a non-negative cell address `(k, r, c)` in a tableau
tuple: the component, row and column indices are all in range. -/
def containsCell (t : TTuple) (k r c : Nat) : Prop :=
  k < t.length ∧ r < (t.getD k []).length ∧ c < ((t.getD k []).getD r []).length

instance (t : TTuple) (k r c : Nat) : Decidable (containsCell t k r c) := by
  unfold containsCell; infer_instance

/- ----------------------------------------------------------------
C7: `TableauTuple.content` (src lines 1283-1329).
---------------------------------------------------------------- -/

/-- The scan of one component in `TableauTuple.content`: rows are visited in
order with their index `r`; the first row containing `k` yields
`a - r + row.index(k)` where `a` is the multicharge entry of the component. -/
def contentInComp (a : Int) (k : Nat) : Nat → List (List Nat) → Option Int
  | _, [] => none
  | r, row :: rows =>
      match List.indexOf? k row with
      | some c => some (a - r + c)
      | none => contentInComp a k (r + 1) rows

/-- Embedding of `TableauTuple.content` (src lines 1323-1329): components are
scanned in order; the first cell containing `k` yields
`multicharge[l] - r + c`; if `k` occurs nowhere the scan falls through to a
ValueError, modelled as `none`.  (The Python code would raise an IndexError
if the multicharge were shorter than the index of the component containing
`k`; we read a default there, and the theorems assume a multicharge of full
level as in the claim.) -/
def content? (mc : List Int) : Nat → TTuple → Nat → Option Int
  | _, [], _ => none
  | l, comp :: rest, k =>
      match contentInComp (mc.getD l 0) k 0 comp with
      | some v => some v
      | none => content? mc (l + 1) rest k

/-- Convenience entry point mirroring `t.content(k, multicharge)`. -/
def content (t : TTuple) (k : Nat) (mc : List Int) : Option Int :=
  content? mc 0 t k

/- ----------------------------------------------------------------
C5: constructor validation, `RowStandardTableauTuple.__init__`
(src lines 1529-1575) and `StandardTableauTuple.__init__`
(src lines 1908-1940).
---------------------------------------------------------------- -/

/-- Modelled from the spec: the external single-tableau primitive
`Tableau.is_row_strict` for one row — entries strictly increase
left-to-right. -/
def strictRow : List Nat → Bool
  | [] => true
  | [_] => true
  | a :: b :: rest => decide (a < b) && strictRow (b :: rest)

/-- Modelled from the spec: `Tableau.is_row_strict` — every row of the
component strictly increases left-to-right. -/
def isRowStrict (t : Tab) : Bool := t.all strictRow

/-- Comparison of two consecutive rows for column strictness: every column
present in both rows strictly increases downwards. -/
def colPair (ra rb : List Nat) : Bool :=
  (ra.zip rb).all fun q => decide (q.1 < q.2)

/-- Modelled from the spec: `Tableau.is_column_strict` — every column of the
component strictly increases top-to-bottom. -/
def isColumnStrict : Tab → Bool
  | [] => true
  | [_] => true
  | ra :: rb :: rest => colPair ra rb && isColumnStrict (rb :: rest)

/-- The three distinguishable error kinds raised by the row-standard and
standard constructors (src lines 1570, 1575, 1940). -/
inductive TabError : Type where
  | notRowStrict
  | badEntries
  | notColStrict
deriving DecidableEq, Repr

/-- Python sorted() on a list of naturals. -/
def pySorted (l : List Nat) : List Nat := l.insertionSort (· ≤ ·)

/-- The entries check of `RowStandardTableauTuple.__init__` (src lines
1572-1575): the sorted list of all entries must be `[1, 2, ..., n]`. -/
def entriesAreBijection (t : TTuple) : Bool :=
  decide (pySorted (entriesOf t) = List.range' 1 (entriesOf t).length)

/-- Embedding of the validation in `RowStandardTableauTuple.__init__`
(src lines 1567-1575): first every component must be row strict, then the
entries must be in bijection with `{1, ..., n}`. -/
def rowStandardCheck (t : TTuple) : Except TabError Unit :=
  if ¬ t.all isRowStrict then Except.error TabError.notRowStrict
  else if ¬ entriesAreBijection t then Except.error TabError.badEntries
  else Except.ok ()

/-- Embedding of the validation in `StandardTableauTuple.__init__`
(src lines 1930-1940): the row-standard checks run first (through the
superclass constructor), then every component must be column strict. -/
def standardCheck (t : TTuple) : Except TabError Unit :=
  match rowStandardCheck t with
  | Except.error e => Except.error e
  | Except.ok _ =>
      if ¬ t.all isColumnStrict then Except.error TabError.notColStrict
      else Except.ok ()

/-- Row strictness as a specification-level proposition. -/
def RowStrictP (t : TTuple) : Prop :=
  ∀ comp ∈ t, ∀ row ∈ comp, List.Pairwise (· < ·) row

/-- Column strictness as a specification-level proposition: consecutive
rows strictly increase in every column present in both. -/
def ColStrictP (t : TTuple) : Prop :=
  ∀ comp ∈ t, List.Chain'
    (fun ra rb => ∀ (j a b : Nat), ra[j]? = some a → rb[j]? = some b → a < b) comp

/-- Entries-bijection as a specification-level proposition: the multiset of
all entries is exactly `{1, ..., n}`. -/
def EntriesBijP (t : TTuple) : Prop :=
  (entriesOf t).Perm (List.range' 1 (entriesOf t).length)

/- ----------------------------------------------------------------
C6: conjugation, `TableauTuple.conjugate` (src lines 688-711).
---------------------------------------------------------------- -/

/-- Modelled from the spec: the external single-tableau primitive
`Tableau.conjugate` — swap the rows and columns of the component.  Column
`c` of the input becomes row `c` of the result, collecting in row order
the entries of the rows long enough to have a column `c`. -/
def conjTab (t : Tab) : Tab :=
  (List.range (t.headD []).length).map fun c => t.filterMap fun row => row[c]?

/-- Embedding of `TableauTuple.conjugate` (src line 703): reverse the order
of the components and conjugate each component. -/
def conjTuple (t : TTuple) : TTuple :=
  t.reverse.map conjTab

/-- Number of rows of a component that are long enough to have a column
`c`; under a weakly decreasing shape this is the length of column `c`. -/
def colLen (t : Tab) (c : Nat) : Nat :=
  t.countP fun row => decide (c < row.length)

/- ----------------------------------------------------------------
C8: `TableauTuple.add_entry` (src lines 1141-1200), `restrict`
(src lines 1202-1253) and `symmetric_group_action_on_entries`
(src lines 1255-1281), embedded as state transformers over a store of
tableau-tuple objects so that the frame property (the receiver is never
mutated) is expressible.
---------------------------------------------------------------- -/

/-- Modelled from the spec: the addable cells of one partition component —
the end position of each row whose extension keeps the row lengths weakly
decreasing, together with the start of a possible new row. -/
def addableCellsComp (p : List Nat) : List (Nat × Nat) :=
  (List.range (p.length + 1)).filterMap fun r =>
    if r = 0 ∨ p.getD r 0 < p.getD (r - 1) 0 then some (r, p.getD r 0) else none

/-- Modelled from the spec: `PartitionTuple.addable_cells` of the external
shape algebra — all cells that can be added to the shape. -/
def addableCells (shape : List (List Nat)) : List (Nat × Nat × Nat) :=
  (List.range shape.length).flatMap fun k =>
    (addableCellsComp (shape.getD k [])).map fun rc => (k, rc.1, rc.2)

/-- Pure data transformation of `TableauTuple.add_entry` (src lines
1177-1191): overwrite the cell when it exists; otherwise, when the cell is
an addable cell of the shape, extend the corresponding row (appending a
new row when needed); otherwise the IndexError is modelled as `none`. -/
def addEntryData (t : TTuple) (cell : Nat × Nat × Nat) (m : Nat) : Option TTuple :=
  if cell.1 < t.length ∧ cell.2.1 < (t.getD cell.1 []).length ∧
      cell.2.2 < ((t.getD cell.1 []).getD cell.2.1 []).length then
    some (t.set cell.1 ((t.getD cell.1 []).set cell.2.1
      (((t.getD cell.1 []).getD cell.2.1 []).set cell.2.2 m)))
  else if cell ∈ addableCells (shapeOf t) then
    some (t.set cell.1 (if cell.2.1 = (t.getD cell.1 []).length
      then t.getD cell.1 [] ++ [[m]]
      else (t.getD cell.1 []).set cell.2.1 ((t.getD cell.1 []).getD cell.2.1 [] ++ [m])))
  else none

/-- Modelled from the spec: the external single-tableau primitive
`Tableau.restrict` — drop all cells with entry greater than `m`, then drop
the rows that became empty. -/
def restrictTab (m : Nat) (t : Tab) : Tab :=
  (t.map fun row => row.filter (fun y => decide (y ≤ m))).filter
    (fun row => !row.isEmpty)

/-- Pure data transformation of `TableauTuple.restrict` (src line 1246):
restrict every component. -/
def restrictData (t : TTuple) (m : Nat) : TTuple :=
  t.map (restrictTab m)

/-- Pure data transformation of
`TableauTuple.symmetric_group_action_on_entries` (src lines 1277-1281):
extend the permutation by the identity up to the size of the tuple, then
replace every entry by its image. -/
def symActionData (t : TTuple) (w : List Nat) : TTuple :=
  let wext := w ++ List.range' (w.length + 1) (tupleSize t - w.length)
  t.map fun comp => comp.map fun row => row.map fun entry => wext.getD (entry - 1) 0

/-- A store of tableau-tuple objects; object references are indices. -/
abbrev Store : Type := List TTuple

/-- Read the data of the object referenced by `i`. -/
def Store.read (s : Store) (i : Nat) : TTuple := s.getD i []

/-- `TableauTuple.add_entry` as a state transformer: the receiver's data is
deep-copied by `self.to_list()` (src line 1178), the copy is modified, and
the result is a newly allocated object; the receiver's storage is never
written.  On IndexError no object is allocated. -/
def addEntrySt (s : Store) (i : Nat) (cell : Nat × Nat × Nat) (m : Nat) :
    Store × Option Nat :=
  match addEntryData (s.read i) cell m with
  | some tab => (s ++ [tab], some s.length)
  | none => (s, none)

/-- `TableauTuple.restrict` as a state transformer allocating the result. -/
def restrictSt (s : Store) (i : Nat) (m : Nat) : Store × Nat :=
  (s ++ [restrictData (s.read i) m], s.length)

/-- `TableauTuple.symmetric_group_action_on_entries` as a state transformer
allocating the result. -/
def symActionSt (s : Store) (i : Nat) (w : List Nat) : Store × Nat :=
  (s ++ [symActionData (s.read i) w], s.length)

/- ----------------------------------------------------------------
C3: `RowStandardTableauTuples_shape.__iter__` (src lines 3396-3494)
at the fixed shape ([1],[1],[1]).
---------------------------------------------------------------- -/

/-- Python slice `l[a:b]` for non-negative `a ≤ b`. -/
def sliceP {α : Type} (l : List α) (a b : Nat) : List α :=
  (l.drop a).take (b - a)

/-- The cumulative component sizes `clen` (src lines 3466-3473):
`clenOf mu c` is the number of cells in the first `c` components. -/
def clenOf (mu : List (List Nat)) (c : Nat) : Nat :=
  ((mu.take c).map List.sum).sum

/-- The cumulative row lengths `cclen` within component `c`
(src lines 3467-3470). -/
def cclenOf (mu : List (List Nat)) (c r : Nat) : Nat :=
  ((mu.getD c []).take r).sum

/-- The intra-row covering relations of the poset (src lines 3465-3472):
within each row of each component, consecutive global positions are
related. -/
def relationsOf (mu : List (List Nat)) : List (Nat × Nat) :=
  (List.range mu.length).flatMap fun c =>
    (List.range (mu.getD c []).length).flatMap fun r =>
      (List.range ((mu.getD c []).getD r 0 - 1)).map fun i =>
        (clenOf mu c + cclenOf mu c r + i + 1, clenOf mu c + cclenOf mu c r + i + 2)

/-- `tableau_from_list` (src lines 3479-3489): inflate a flat list into a
`mu`-tableau by slicing according to the component and row boundaries. -/
def tableauFromList (mu : List (List Nat)) (tab : List Nat) : TTuple :=
  (List.range mu.length).map fun c =>
    (List.range (mu.getD c []).length).map fun r =>
      sliceP (sliceP tab (clenOf mu c) (clenOf mu (c + 1)))
        (cclenOf mu c r) (cclenOf mu c (r + 1))

/-- Inverse of a one-line permutation of `1..n` (the external permutation
collaborator's `Permutation.inverse`, src line 3493): the value at
position `i` of the inverse is the one-based position of `i + 1`. -/
def permInverse (p : List Nat) : List Nat :=
  (List.range p.length).map fun i => p.indexOf (i + 1) + 1

/-- Modelled from the spec: the order in which the external generic
linear-extension enumerator (`Poset.linear_extensions`, not part of the
excerpted source) lists the linear extensions of the 3-element antichain
poset on `{1, 2, 3}` (no covering relations), as fixed by the concrete
scenario of the specification together with the inversion and inflation
steps of the source iterator. -/
def linearExtensionsAntichain3 : List (List Nat) :=
  [[3, 2, 1], [3, 1, 2], [1, 3, 2], [1, 2, 3], [2, 1, 3], [2, 3, 1]]

/-- `RowStandardTableauTuples_shape.__iter__` (src lines 3492-3494)
specialised to the shape `([1],[1],[1])`: for each linear extension of the
poset — which is the 3-element antichain, since `relationsOf [[1],[1],[1]]`
is empty — invert it as a permutation and inflate the result. -/
def rowStdIterSingleton3 : List TTuple :=
  linearExtensionsAntichain3.map fun lin =>
    tableauFromList [[1], [1], [1]] (permInverse lin)

/- ----------------------------------------------------------------
C4: residue-sequence-indexed enumerators:
`StandardTableaux_residue.__iter__` (src lines 5126-5171),
`StandardTableaux_residue_shape.__iter__` (src lines 5260-5285), and
`RowStandardTableauTuples_residue` / `RowStandardTableauTuples_residue_shape`
(src lines 3617-3663 and 3770-3944).
---------------------------------------------------------------- -/

/-- Modelled from the spec: reduction of an integer residue into the base
ring `Z/eZ` (or `Z` itself when `e = 0`) performed by the external
`ResidueSequence` class of `tableau_residues`. -/
def resNorm (e : Nat) (v : Int) : Int :=
  if e = 0 then v else v % (e : Int)

/-- Modelled from the spec: the residue of the cell `(k, r, c)` —
`multicharge[k] - r + c` reduced into the base ring
(`ResidueSequence.cell_residue` of the external collaborator). -/
def cellResidue (e : Nat) (mc : List Int) (k r c : Nat) : Int :=
  resNorm e (mc.getD k 0 - r + c)

/-- The cells of a tableau tuple in component/row/column order (the order of
`PartitionTuple.cells` of the external shape algebra). -/
def cellsOf (t : TTuple) : List (Nat × Nat × Nat) :=
  (List.range t.length).flatMap fun k =>
    (List.range (t.getD k []).length).flatMap fun r =>
      (List.range ((t.getD k []).getD r []).length).map fun c => (k, r, c)

/-- The entry of a tableau tuple at the cell `(k, r, c)` (default 0). -/
def entAt (t : TTuple) (k r c : Nat) : Nat :=
  ((t.getD k []).getD r []).getD c 0

/-- Embedding of `RowStandardTableauTuple.residue_sequence` (src lines
1633-1637): an array of `size` zeroes is allocated and, for every cell
`(k, r, c)` of the shape, position `entry - 1` is set to
`multicharge[k] - r + c`; the external `ResidueSequence` constructor then
reduces every entry into the base ring, which we apply at write time. -/
def residueSeq (e : Nat) (mc : List Int) (t : TTuple) : List Int :=
  (cellsOf t).foldl
    (fun res cell =>
      res.set (entAt t cell.1 cell.2.1 cell.2.2 - 1)
        (resNorm e (mc.getD cell.1 0 - cell.2.1 + cell.2.2)))
    (List.replicate (tupleSize t) 0)

/-- Embedding of `_add_entry_fast` (src lines 5304-5353): overwrite the cell
when it exists, otherwise append the entry to row `r` of component `k`
(appending a new row first when `r` is the number of rows).  The source
assumes the cell is contained in the tableau or is an addable corner; the
embedding is faithful on that domain. -/
def addEntryFast (t : TTuple) (cell : Nat × Nat × Nat) (m : Nat) : TTuple :=
  if cell.1 < t.length ∧ cell.2.1 < (t.getD cell.1 []).length ∧
      cell.2.2 < ((t.getD cell.1 []).getD cell.2.1 []).length then
    t.set cell.1 ((t.getD cell.1 []).set cell.2.1
      (((t.getD cell.1 []).getD cell.2.1 []).set cell.2.2 m))
  else
    t.set cell.1 (if cell.2.1 = (t.getD cell.1 []).length
      then t.getD cell.1 [] ++ [[m]]
      else (t.getD cell.1 []).set cell.2.1
        ((t.getD cell.1 []).getD cell.2.1 [] ++ [m]))

/-- Modelled from the spec: the removable cells of one partition component —
the last cell of each row whose removal keeps the row lengths weakly
decreasing. -/
def removableCellsComp (p : List Nat) : List (Nat × Nat) :=
  (List.range p.length).filterMap fun r =>
    if 0 < p.getD r 0 ∧ p.getD (r + 1) 0 < p.getD r 0 then
      some (r, p.getD r 0 - 1)
    else none

/-- Modelled from the spec: `PartitionTuple.removable_cells` of the external
shape algebra. -/
def removableCells (shape : List (List Nat)) : List (Nat × Nat × Nat) :=
  (List.range shape.length).flatMap fun k =>
    (removableCellsComp (shape.getD k [])).map fun rc => (k, rc.1, rc.2)

/-- Modelled from the spec: `PartitionTuple.remove_cell` — decrement row `r`
of component `k`, dropping the row when it becomes empty. -/
def removeCell (shape : List (List Nat)) (k r : Nat) : List (List Nat) :=
  shape.set k
    (if (shape.getD k []).getD r 0 - 1 = 0
      then (shape.getD k []).take r ++ (shape.getD k []).drop (r + 1)
      else (shape.getD k []).set r ((shape.getD k []).getD r 0 - 1))

/-- The size of a partition-tuple shape: the total number of cells. -/
def sizePT (shape : List (List Nat)) : Nat :=
  (shape.map List.sum).sum

/-- Embedding of `StandardTableaux_residue.__iter__` (src lines 5126-5171):
for the empty residue sequence, yield the empty tableau tuple of the level
of the multicharge; otherwise recursively enumerate the tableaux of the
restricted residue sequence and add the entry `n` at every addable cell of
matching residue. -/
def stdResidueEnum (e : Nat) (mc : List Int) (res : List Int) : List TTuple :=
  if h : res = [] then [List.replicate mc.length []]
  else
    (stdResidueEnum e mc res.dropLast).flatMap fun t =>
      (addableCells (shapeOf t)).filterMap fun cell =>
        if res.getLast h = cellResidue e mc cell.1 cell.2.1 cell.2.2 then
          some (addEntryFast t cell res.length)
        else none
termination_by res.length
decreasing_by
  rw [List.length_dropLast]
  have : res.length ≠ 0 := fun h0 => h (List.eq_nil_of_length_eq_zero h0)
  omega

/-- Embedding of `StandardTableaux_residue_shape.__iter__` (src lines
5260-5285): for every removable cell of the fixed shape whose residue
matches the residue of `n`, recursively enumerate the tableaux of the
restricted residue sequence and the shape with that cell removed, and add
the entry `n` at that cell. -/
def stdResidueShapeEnum (e : Nat) (mc : List Int) (res : List Int)
    (shape : List (List Nat)) : List TTuple :=
  if h : res = [] then [List.replicate mc.length []]
  else
    (removableCells shape).flatMap fun cell =>
      if res.getLast h = cellResidue e mc cell.1 cell.2.1 cell.2.2 then
        (stdResidueShapeEnum e mc res.dropLast
            (removeCell shape cell.1 cell.2.1)).map
          fun t => addEntryFast t cell res.length
      else []
termination_by res.length
decreasing_by
  rw [List.length_dropLast]
  have : res.length ≠ 0 := fun h0 => h (List.eq_nil_of_length_eq_zero h0)
  omega

/-- The stretched shape of `RowStandardTableauTuples_residue_shape.__init__`
(src lines 3824-3829): every row of every component becomes its own
one-row component. -/
def stretchShape (mu : List (List Nat)) : List (List Nat) :=
  mu.flatten.map fun r => [r]

/-- The stretched multicharge of the same constructor: component `c` row `r`
contributes the charge `multicharge[c] - r`. -/
def stretchCharge (mc : List Int) (mu : List (List Nat)) : List Int :=
  (List.range mu.length).flatMap fun c =>
    (List.range (mu.getD c []).length).map fun (r : Nat) => mc.getD c 0 - (r : Int)

/-- The cumulative numbers of rows `_cumulative_lengths` (src lines
3838-3843). -/
def cumLen (mu : List (List Nat)) (c : Nat) : Nat :=
  ((mu.take c).map List.length).sum

/-- The conversion of `__iter__higher_levels` (src lines 3916-3921) from a
stretched standard tableau back to a row standard tableau tuple: row `r` of
component `c` is the single row of stretched component
`cumulative_lengths[c] + r`.  (The level-one branch, src lines 3878-3894,
is the same data transformation with a single component.) -/
def unstretch (mu : List (List Nat)) (t : TTuple) : TTuple :=
  (List.range mu.length).map fun c =>
    (List.range (mu.getD c []).length).map fun r =>
      (t.getD (cumLen mu c + r) []).getD 0 []

/-- Embedding of `RowStandardTableauTuples_residue_shape` iteration: run the
stretched standard enumerator and convert every tableau back. -/
def rowStdResidueShapeEnum (e : Nat) (mc : List Int) (res : List Int)
    (mu : List (List Nat)) : List TTuple :=
  (stdResidueShapeEnum e (stretchCharge mc mu) res (stretchShape mu)).map
    (unstretch mu)

/-- Embedding of `RowStandardTableauTuples_residue.__iter__` (src lines
3647-3663): the outer loop over all partition tuples of the right level and
size lying in the block of the residue sequence is performed by the
external `PartitionTuples` collaborator; `shapes` stands for the list it
produces, and every candidate shape is delegated to the shape-fixed
enumerator. -/
def rowStdResidueEnum (e : Nat) (mc : List Int) (res : List Int)
    (shapes : List (List (List Nat))) : List TTuple :=
  shapes.flatMap fun mu => rowStdResidueShapeEnum e mc res mu

/-- The inductive invariant of the residue enumerators: the tableau has as
many cells as the residue sequence has entries, every value `1..n` occupies
some cell, and every cell's entry lies in `1..n` and carries exactly the
residue that the target sequence prescribes for it. -/
def ResInv (e : Nat) (mc : List Int) (res : List Int) (t : TTuple) : Prop :=
  tupleSize t = res.length ∧
  (∀ j, j < res.length → ∃ k r c, containsCell t k r c ∧ entAt t k r c = j + 1) ∧
  (∀ k r c, containsCell t k r c →
    1 ≤ entAt t k r c ∧ entAt t k r c ≤ res.length ∧
    resNorm e (mc.getD k 0 - r + c) = res.getD (entAt t k r c - 1) 0)

/- ----------------------------------------------------------------
C2: the incremental iterator `StandardTableauTuples_shape.__iter__`
(src lines 4776-4932) and its helper `max_row_in_component`
(src lines 4885-4897).  The mutable iterator state is the pair of the
flat list `tab` (the row reading word of the current tableau) and the
list `cols` (the special column index of every entry).  The immutable
initialisation data (`clen`, `cclen`, `mins`, `cols` of the initial
tableau, `component`) is computed from the shape.
---------------------------------------------------------------- -/

/-- Partial sum of the first `k` values of a list. -/
def psum (l : List Nat) (k : Nat) : Nat := (l.take k).sum

/-- Locate a flat index inside a list of block widths: `locate l i = (g, c)`
means index `i` falls in block `g` at offset `c` (when `i < l.sum`). -/
def locate : List Nat → Nat → Nat × Nat
  | [], i => (0, i)
  | w :: ws, i =>
    if i < w then (0, i)
    else
      let p := locate ws (i - w)
      (p.1 + 1, p.2)

/-- The global row lengths of the shape, reading the components in order. -/
def rowsOf (mu : List (List Nat)) : List Nat := mu.flatten

/-- The numbers of rows of the components. -/
def lensOf (mu : List (List Nat)) : List Nat := mu.map List.length

/-- The global row of flat cell position `i`. -/
def gPos (mu : List (List Nat)) (i : Nat) : Nat := (locate (rowsOf mu) i).1

/-- The column (within its row) of flat cell position `i`. -/
def cPos (mu : List (List Nat)) (i : Nat) : Nat := (locate (rowsOf mu) i).2

/-- The component (0-based) of flat cell position `i`. -/
def compPos (mu : List (List Nat)) (i : Nat) : Nat :=
  (locate (lensOf mu) (gPos mu i)).1

/-- The row within its component of flat cell position `i`. -/
def rrPos (mu : List (List Nat)) (i : Nat) : Nat :=
  (locate (lensOf mu) (gPos mu i)).2

/-- The flat position of the cell in component `c`, row `rr`, column `col`. -/
def posAt (mu : List (List Nat)) (c rr col : Nat) : Nat :=
  psum (rowsOf mu) (psum (lensOf mu) c + rr) + col

/-- The first-row length of a component (0 for an empty component),
the amount `len(t[0])` added to `offset` in src lines 4871-4872. -/
def widthOf (p : List Nat) : Nat := p.headD 0

/-- The column offset of component `c` in the special column numbering of
src lines 4858-4873: columns are numbered left to right in each component
starting from the last component, so component `c` starts at the total
width of all later components. -/
def offsetOf (mu : List (List Nat)) (c : Nat) : Nat :=
  ((mu.drop (c + 1)).map widthOf).sum

/-- The special column index of the cell at flat position `i`
(the value stored in `cols` for the entry occupying that cell). -/
def colIndex (mu : List (List Nat)) (i : Nat) : Nat :=
  cPos mu i + offsetOf mu (compPos mu i)

/-- `row + col` of the cell at flat position `i` (the value stored in
`mins[i]`, src line 4870: the `k`-th position of `tab` always holds an
entry larger than `mins[k]`). -/
def minsPos (mu : List (List Nat)) (i : Nat) : Nat :=
  rrPos mu i + cPos mu i

/-- The initial flat tableau `tab = [1, 2, ..., n]` (src line 4825). -/
def initTab (mu : List (List Nat)) : List Nat :=
  (List.range (sizePT mu)).map (· + 1)

/-- The list `mins` (src lines 4862-4870): `mins[i]` is `row + col` of
position `i`, since the entry of the initial tableau at position `i` is
`i + 1` and the source writes `mins[entry - 1] = row + col`. -/
def minsOf (mu : List (List Nat)) : List Nat :=
  (List.range (sizePT mu)).map (minsPos mu)

/-- The initial `cols` list (src lines 4862-4873): `cols[0] = 0` is never
written, and `cols[i + 1]` is the special column index of position `i`,
since the initial entry at position `i` is `i + 1`. -/
def colsInit (mu : List (List Nat)) : List Nat :=
  0 :: (List.range (sizePT mu)).map (colIndex mu)

/-- The list `component` (src line 4883): position `i` lies in component
`component[i]`, numbered 1-based. -/
def componentList (mu : List (List Nat)) : List Nat :=
  ((List.range mu.length).map fun c =>
    List.replicate (mu.getD c []).sum (c + 1)).flatten

/-- The descent search of src lines 4900-4902: the smallest `r ≥ start`
with `cols[r - 1] > cols[r]`, or `cols.length` when there is none. -/
def findDescent (cols : List Nat) (r : Nat) : Nat :=
  if h : r < cols.length then
    if cols.getD (r - 1) 0 ≤ cols.getD r 0 then findDescent cols (r + 1) else r
  else r
termination_by cols.length - r

/-- The filtered component slice `comp` of `max_row_in_component`
(src line 4892): the entries of (1-based) component `c` that are smaller
than `r` and have a larger column index than `r`. -/
def mriCand (mu : List (List Nat)) (tab cols : List Nat) (r c : Nat) : List Nat :=
  (sliceP tab (clenOf mu (c - 1)) (clenOf mu c)).filter
    fun m => decide (m < r ∧ cols.getD r 0 < cols.getD m 0)

/-- `max_row_in_component` (src lines 4885-4897): scan the components from
`c` downwards and return the last entry (in reading order) of the first
nonempty filtered slice; `none` is the fall-through where every component
is exhausted. -/
def maxRowInComp (mu : List (List Nat)) (tab cols : List Nat) (r : Nat) :
    Nat → Option Nat
  | 0 => none
  | c + 1 =>
    let comp := mriCand mu tab cols r (c + 1)
    if comp.isEmpty then maxRowInComp mu tab cols r c else comp.getLast?

/-- The inner placement scan of src lines 4916-4918: the first index `i`
at which the continue-condition `t <= mins[i] or tab[i] > r or i in changed`
fails; `none` models the index error the source would raise when the scan
runs past the end of `tab`. -/
def findSpot (tab mins : List Nat) (changed : List Int) (t r : Nat) :
    Option Nat :=
  (List.range tab.length).find? fun i =>
    decide (¬ (t ≤ mins.getD i 0 ∨ r < tab.getD i 0 ∨ (i : Int) ∈ changed))

/-- The placement loop of src lines 4915-4921: insert the values of `ts`
(which is `[1, ..., r - 1]`) in order, each at the spot found by
`findSpot`, updating the new tableau, the new column indices and the
`changed` list. -/
def placeLoop (tab cols mins : List Nat) (r : Nat) :
    List Nat → List Nat → List Nat → List Int → Option (List Nat × List Nat)
  | [], ntab, ncols, _ => some (ntab, ncols)
  | t :: ts, ntab, ncols, changed =>
    match findSpot tab mins changed t r with
    | none => none
    | some i =>
      placeLoop tab cols mins r ts (ntab.set i t)
        (ncols.set t (cols.getD (tab.getD i 0) 0))
        (changed.set (t - 1) (i : Int))

/-- The result of one advance of the iterator: the loop breaks (`stop`),
the state advances to a new `tab` and `cols` (`next`), or the source
would raise mid-stream (`fail`) — either because `max_row_in_component`
fell through (src: `tab.index(None)` raises) or because the placement
scan ran out of positions. -/
inductive StepRes : Type
  | stop : StepRes
  | fail : StepRes
  | next : List Nat → List Nat → StepRes

/-- One iteration of the `while True` loop of src lines 4899-4924. -/
def iterStep (mu : List (List Nat)) (tab cols : List Nat) : StepRes :=
  let r := findDescent cols 1
  if r = cols.length then StepRes.stop
  else
    match maxRowInComp mu tab cols r
        ((componentList mu).getD (tab.indexOf r) 0) with
    | none => StepRes.fail
    | some s =>
      let ntab := tab.set (tab.indexOf s) r
      let ncols := cols.set r (cols.getD s 0)
      let changed := (List.replicate r (-1 : Int)).set (r - 1)
        ((tab.indexOf s : Nat) : Int)
      match placeLoop tab cols (minsOf mu) r
          ((List.range (r - 1)).map (· + 1)) ntab ncols changed with
      | none => StepRes.fail
      | some (tb, cl) => StepRes.next tb cl

/-- Run the iterator loop with the given amount of fuel, collecting the
yielded flat tableaux; `none` when the fuel runs out or a step fails. -/
def iterRun (mu : List (List Nat)) : Nat → List Nat → List Nat →
    Option (List (List Nat))
  | 0, _, _ => none
  | fuel + 1, tab, cols =>
    match iterStep mu tab cols with
    | StepRes.stop => some []
    | StepRes.fail => none
    | StepRes.next tb cl =>
      match iterRun mu fuel tb cl with
      | none => none
      | some rest => some (tb :: rest)

/-- The total width of the shape: an exclusive upper bound for every
special column index. -/
def totalWidth (mu : List (List Nat)) : Nat := (mu.map widthOf).sum

/-- The termination measure of the iterator: the `cols` list of the
entries `1..n` read as digits of a number in base `totalWidth + 1`
(most significant digit the column of `n`).  Every advance step strictly
increases it. -/
def colsMeasure (mu : List (List Nat)) (cols : List Nat) : Nat :=
  ((List.range (sizePT mu)).map fun m =>
    cols.getD (m + 1) 0 * (totalWidth mu + 1) ^ m).sum

/-- Sufficient fuel for the iterator on shape `mu`. -/
def fuelBound (mu : List (List Nat)) : Nat :=
  (totalWidth mu + 1) ^ sizePT mu + 1

/-- The full iterator `StandardTableauTuples_shape.__iter__`: yield the
initial tableau, then every tableau produced by the advance loop, each
inflated by `tableau_from_list`. -/
def stdShapeIter (mu : List (List Nat)) (fuel : Nat) : Option (List TTuple) :=
  match iterRun mu fuel (initTab mu) (colsInit mu) with
  | none => none
  | some rest => some ((initTab mu :: rest).map (tableauFromList mu))

/-- The shape is a partition tuple: every component has weakly decreasing,
positive row lengths. -/
def IsPartitionTuple (mu : List (List Nat)) : Prop :=
  ∀ p ∈ mu, (∀ v ∈ p, 0 < v) ∧ List.Pairwise (· ≥ ·) p

/-- The right neighbour of flat position `i` exists (the cell is not the
last of its row); the neighbour is position `i + 1`. -/
def hasRight (mu : List (List Nat)) (i : Nat) : Prop :=
  cPos mu i + 1 < (rowsOf mu).getD (gPos mu i) 0

/-- The cell below flat position `i` exists: its component has another row
and that row is long enough. -/
def hasBelow (mu : List (List Nat)) (i : Nat) : Prop :=
  rrPos mu i + 1 < (mu.getD (compPos mu i) []).length ∧
  cPos mu i < (rowsOf mu).getD (gPos mu i + 1) 0

/-- The flat position of the cell below position `i`. -/
def belowPos (mu : List (List Nat)) (i : Nat) : Nat :=
  i + (rowsOf mu).getD (gPos mu i) 0

/-- The flat word `tab` is the reading word of a standard tableau tuple:
entries increase along rows and down columns. -/
def Standard (mu : List (List Nat)) (tab : List Nat) : Prop :=
  ∀ i, i < sizePT mu →
    (hasRight mu i → tab.getD i 0 < tab.getD (i + 1) 0) ∧
    (hasBelow mu i → tab.getD i 0 < tab.getD (belowPos mu i) 0)

/-- The positions of `tab` holding entries at most `r`, in increasing
order (an analysis device for the placement loop: these are the positions
rewritten by one advance step). -/
def lePositions (mu : List (List Nat)) (tab : List Nat) (r : Nat) : List Nat :=
  (List.range (sizePT mu)).filter fun i => decide (tab.getD i 0 ≤ r)

/-- The home of the value `t` in one advance step (an analysis device):
with `qi` the rank of the swap position among `lePositions`, the value `t`
is placed at the `t`-th smallest rewritten position other than the swap
position. -/
def homePos (mu : List (List Nat)) (tab : List Nat) (r qi t : Nat) : Nat :=
  (lePositions mu tab r).getD (if t - 1 < qi then t - 1 else t) 0

/-- The iterator state invariant: `tab` is a permutation of `1..n` whose
reading word is standard, and `cols` assigns every entry the special
column index of its current cell. -/
def IterInv (mu : List (List Nat)) (tab cols : List Nat) : Prop :=
  tab.length = sizePT mu ∧
  cols.length = sizePT mu + 1 ∧
  cols.getD 0 0 = 0 ∧
  tab.Perm (initTab mu) ∧
  (∀ i, i < sizePT mu → cols.getD (tab.getD i 0) 0 = colIndex mu i) ∧
  Standard mu tab

/- ================================================================
THEOREMS
================================================================ -/

theorem pyGet_natCast {α : Type} (l : List α) (n : Nat) : pyGet l (n : Int) = l[n]? := by
  simp [pyGet]

/-- C10: the `TableauTuple` factory maps both `[]` and `[[]]` to the same
empty level-one tableau (a bare single-tableau object with no entries and
level 1), raising no error. -/
theorem tableauTupleOf_empty_collapse :
    tableauTupleOf [] = tableauTupleOf [[]] ∧
    tableauTupleOf [] = TTRepr.single [] ∧
    (tableauTupleOf []).level = 1 := by
  refine ⟨?_, ?_, ?_⟩ <;> rfl

/-- C9 counterexample: on the tableau tuple `([[1]], [[2]])` the cell address
`(-1, 0, 0)` is not a cell of the tableau, yet both the `entry`-style lookup
and `__call__` silently return the value 2 (Python negative indices wrap to
the end of the list) instead of failing with an index error. -/
theorem entryLookup_negative_index_succeeds :
    entryLookup [[[1]], [[2]]] (-1) 0 0 = some 2 ∧
    entryLookup [[[1]], [[2]]] (-1) 0 0 ≠ none ∧
    callCell [[[1]], [[2]]] (-1) 0 0 = Except.ok 2 := by
  have h1 : entryLookup [[[1]], [[2]]] (-1) 0 0 = some 2 := by decide
  exact ⟨h1, by simp [h1], by unfold callCell; rw [h1]⟩

/-- C9 (amended): for every cell address with non-negative coordinates that
is not contained in the tableau tuple, both `entry` and `__call__` fail with
an index-error kind and never silently return a value.  (Negative
coordinates of magnitude at most the relevant length wrap around,
Python-style, and do return a value, as the counterexample shows.) -/
theorem entryLookup_out_of_range_fails (t : TTuple) (k r c : Nat)
    (h : ¬ containsCell t k r c) :
    entryLookup t (k : Int) (r : Int) (c : Int) = none ∧
    callCell t (k : Int) (r : Int) (c : Int) =
      Except.error "the cell is not contained in the tableau" := by
  have hmain : entryLookup t (k : Int) (r : Int) (c : Int) = none := by
    unfold entryLookup
    rw [pyGet_natCast]
    by_cases hk : k < t.length
    · have hcomp : t[k]? = some (t.getD k []) := by
        rw [List.getElem?_eq_getElem hk, List.getD_eq_getElem t [] hk]
      rw [hcomp]
      simp only [Option.some_bind]
      rw [pyGet_natCast]
      by_cases hr : r < (t.getD k []).length
      · have hrow : (t.getD k [])[r]? = some ((t.getD k []).getD r []) := by
          rw [List.getElem?_eq_getElem hr, List.getD_eq_getElem (t.getD k []) [] hr]
        rw [hrow]
        simp only [Option.some_bind]
        rw [pyGet_natCast]
        have hc : ¬ c < ((t.getD k []).getD r []).length := by
          intro hc
          exact h ⟨hk, hr, hc⟩
        rw [List.getElem?_eq_none (Nat.le_of_not_lt hc)]
      · rw [List.getElem?_eq_none (Nat.le_of_not_lt hr)]
        rfl
    · rw [List.getElem?_eq_none (Nat.le_of_not_lt hk)]
      rfl
  refine ⟨hmain, ?_⟩
  unfold callCell
  rw [hmain]

/-- Witness for the amended C9 theorem at a concrete out-of-range cell. -/
theorem entryLookup_out_of_range_fails_witness :
    ¬ containsCell [[[1]], [[2]]] 5 0 0 ∧
    entryLookup [[[1]], [[2]]] (5 : Nat) (0 : Nat) (0 : Nat) = none :=
  ⟨by decide, (entryLookup_out_of_range_fails [[[1]], [[2]]] 5 0 0 (by decide)).1⟩

theorem indexOf?_eq_some_of_first {row : List Nat} {c k : Nat}
    (hc : row[c]? = some k) (hfirst : ∀ c2, c2 < c → row[c2]? ≠ some k) :
    List.indexOf? k row = some c := by
  induction row generalizing c with
  | nil => simp at hc
  | cons x xs ih =>
    cases c with
    | zero =>
      simp only [List.getElem?_cons_zero, Option.some.injEq] at hc
      subst hc
      simp [List.indexOf?_cons]
    | succ c =>
      have hx : (x == k) = false := by
        have h0 := hfirst 0 (Nat.succ_pos _)
        simp only [List.getElem?_cons_zero, ne_eq, Option.some.injEq] at h0
        simpa using h0
      rw [List.indexOf?_cons, hx]
      simp only [Bool.false_eq_true, if_false]
      have : List.indexOf? k xs = some c :=
        ih (by simpa using hc)
          (fun c2 h2 => by
            have := hfirst (c2 + 1) (by omega)
            simpa using this)
      rw [this]
      rfl

theorem contentInComp_finds (a : Int) (k : Nat) :
    ∀ (rows : List (List Nat)) (r0 r c : Nat) (row : List Nat),
    rows[r]? = some row → row[c]? = some k →
    (∀ r2 row2, r2 < r → rows[r2]? = some row2 → k ∉ row2) →
    (∀ c2, c2 < c → row[c2]? ≠ some k) →
    contentInComp a k r0 rows = some (a - (r0 + r) + c) := by
  intro rows
  induction rows with
  | nil => intro r0 r c row hr; simp at hr
  | cons x xs ih =>
    intro r0 r c row hr hc hrows hrow
    cases r with
    | zero =>
      simp only [List.getElem?_cons_zero, Option.some.injEq] at hr
      subst hr
      unfold contentInComp
      rw [indexOf?_eq_some_of_first hc hrow]
      simp
    | succ r =>
      have hx : List.indexOf? k x = none := by
        rw [List.indexOf?_eq_none_iff]
        intro y hy
        have hk : k ∉ x := hrows 0 x (Nat.succ_pos _) (by simp)
        simp only [beq_iff_eq]
        intro he; subst he; exact hk hy
      unfold contentInComp
      rw [hx]
      have := ih (r0 + 1) r c row (by simpa using hr) hc
        (fun r2 row2 h2 hr2 => hrows (r2 + 1) row2 (by omega) (by simpa using hr2))
        hrow
      rw [this]
      dsimp only
      congr 1
      push_cast
      ring

theorem contentInComp_none (a : Int) (k : Nat) :
    ∀ (rows : List (List Nat)) (r0 : Nat),
    (∀ row ∈ rows, k ∉ row) →
    contentInComp a k r0 rows = none := by
  intro rows
  induction rows with
  | nil => intro r0 _; rfl
  | cons x xs ih =>
    intro r0 h
    have hx : List.indexOf? k x = none := by
      rw [List.indexOf?_eq_none_iff]
      intro y hy
      simp only [beq_iff_eq]
      intro he; subst he
      exact h x (by simp) hy
    unfold contentInComp
    rw [hx]
    exact ih (r0 + 1) (fun row hrow => h row (by simp [hrow]))

theorem getD_of_getElem? {α : Type} {l : List α} {i : Nat} {x d : α}
    (h : l[i]? = some x) : l.getD i d = x := by
  rw [List.getD_eq_getElem?_getD, h]
  rfl

theorem content?_finds (mc : List Int) (k : Nat) :
    ∀ (comps : List Tab) (l0 l r c : Nat) (comp : Tab) (row : List Nat),
    comps[l]? = some comp → comp[r]? = some row → row[c]? = some k →
    (∀ l2 comp2, l2 < l → comps[l2]? = some comp2 → ∀ row2 ∈ comp2, k ∉ row2) →
    (∀ r2 row2, r2 < r → comp[r2]? = some row2 → k ∉ row2) →
    (∀ c2, c2 < c → row[c2]? ≠ some k) →
    content? mc l0 comps k = some (mc.getD (l0 + l) 0 - r + c) := by
  intro comps
  induction comps with
  | nil => intro l0 l r c comp row hl; simp at hl
  | cons x xs ih =>
    intro l0 l r c comp row hl hr hc hcomps hrows hrow
    cases l with
    | zero =>
      simp only [List.getElem?_cons_zero, Option.some.injEq] at hl
      subst hl
      unfold content?
      rw [contentInComp_finds (mc.getD l0 0) k x 0 r c row hr hc hrows hrow]
      simp
    | succ l =>
      have hx : contentInComp (mc.getD l0 0) k 0 x = none :=
        contentInComp_none _ _ x 0
          (fun row2 hrow2 => hcomps 0 x (Nat.succ_pos _) (by simp) row2 hrow2)
      unfold content?
      rw [hx]
      have := ih (l0 + 1) l r c comp row (by simpa using hl) hr hc
        (fun l2 comp2 h2 hl2 => hcomps (l2 + 1) comp2 (by omega) (by simpa using hl2))
        hrows hrow
      rw [this]
      have harith : l0 + 1 + l = l0 + (l + 1) := by omega
      rw [harith]

theorem content?_none (mc : List Int) (k : Nat) :
    ∀ (comps : List Tab) (l0 : Nat),
    (∀ comp ∈ comps, ∀ row ∈ comp, k ∉ row) →
    content? mc l0 comps k = none := by
  intro comps
  induction comps with
  | nil => intro l0 _; rfl
  | cons x xs ih =>
    intro l0 h
    unfold content?
    rw [contentInComp_none _ _ x 0 (fun row hrow => h x (by simp) row hrow)]
    exact ih (l0 + 1) (fun comp hcomp => h comp (by simp [hcomp]))

/-- C7: for a tableau tuple containing the value `k` at the (unique) cell
`(l, r, c)`, `content` returns `multicharge[l] - r + c`; when `k` is not
present the scan falls through to the value-not-found error; and the two
concrete scenarios of the spec hold. -/
theorem content_spec :
    (∀ (t : TTuple) (k : Nat) (mc : List Int) (l r c : Nat),
      ((t.getD l []).getD r [])[c]? = some k →
      (∀ (l2 r2 c2 : Nat),
        ((t.getD l2 []).getD r2 [])[c2]? = some k → (l2, r2, c2) = (l, r, c)) →
      content t k mc = some (mc.getD l 0 - r + c)) ∧
    (∀ (t : TTuple) (k : Nat) (mc : List Int),
      (∀ (l2 r2 c2 : Nat), ((t.getD l2 []).getD r2 [])[c2]? ≠ some k) →
      content t k mc = none) ∧
    content [[[5]], [[1, 2], [3, 4]]] 3 [0, 0] = some (-1) ∧
    content [[[5]], [[1, 2], [3, 4]]] 3 [0, 1] = some 0 := by
  refine ⟨?_, ?_, by decide, by decide⟩
  · intro t k mc l r c h1 h2
    have hl : l < t.length := by
      by_contra hl
      rw [List.getD_eq_default t [] (Nat.le_of_not_lt hl)] at h1
      simp at h1
    have hr : r < (t.getD l []).length := by
      by_contra hr
      rw [List.getD_eq_default _ [] (Nat.le_of_not_lt hr)] at h1
      simp at h1
    have hcompEq : t[l]? = some (t.getD l []) := by
      rw [List.getElem?_eq_getElem hl, List.getD_eq_getElem t [] hl]
    have hrowEq : (t.getD l [])[r]? = some ((t.getD l []).getD r []) := by
      rw [List.getElem?_eq_getElem hr, List.getD_eq_getElem (t.getD l []) [] hr]
    have hmain := content?_finds mc k t 0 l r c (t.getD l []) ((t.getD l []).getD r [])
      hcompEq hrowEq h1
      (fun l2 comp2 hlt hl2 row2 hrow2 hk => by
        rcases List.mem_iff_getElem?.mp hk with ⟨c2, hc2⟩
        rcases List.mem_iff_getElem?.mp hrow2 with ⟨r2, hr2⟩
        have : ((t.getD l2 []).getD r2 [])[c2]? = some k := by
          rw [getD_of_getElem? hl2, getD_of_getElem? hr2]
          exact hc2
        have := h2 l2 r2 c2 this
        simp only [Prod.mk.injEq] at this
        omega)
      (fun r2 row2 hlt hr2 hk => by
        rcases List.mem_iff_getElem?.mp hk with ⟨c2, hc2⟩
        have : ((t.getD l []).getD r2 [])[c2]? = some k := by
          rw [getD_of_getElem? hr2]
          exact hc2
        have := h2 l r2 c2 this
        simp only [Prod.mk.injEq] at this
        omega)
      (fun c2 hlt hc2 => by
        have := h2 l r c2 hc2
        simp only [Prod.mk.injEq] at this
        omega)
    simpa using hmain
  · intro t k mc h
    refine content?_none mc k t 0 (fun comp hcomp row hrow hk => ?_)
    rcases List.mem_iff_getElem?.mp hk with ⟨c2, hc2⟩
    rcases List.mem_iff_getElem?.mp hrow with ⟨r2, hr2⟩
    rcases List.mem_iff_getElem?.mp hcomp with ⟨l2, hl2⟩
    exact h l2 r2 c2 (by rw [getD_of_getElem? hl2, getD_of_getElem? hr2]; exact hc2)

/-- Witness for the C7 theorem: the tableau tuple `([[5]], [[1,2],[3,4]])`
contains 3 at cell `(1, 1, 0)`, and `content` returns `0 - 1 + 0 = -1`. -/
theorem content_spec_witness :
    content [[[5]], [[1, 2], [3, 4]]] 3 [0, 0] = some (0 - 1 + 0) := by
  refine content_spec.1 [[[5]], [[1, 2], [3, 4]]] 3 [0, 0] 1 1 0 (by decide) ?_
  intro l2 r2 c2 h
  match l2, r2, c2 with
  | 0, 0, 0 => simp at h
  | 0, 0, c2 + 1 => simp at h
  | 0, r2 + 1, c2 => simp at h
  | 1, 0, 0 => simp at h
  | 1, 0, 1 => simp at h
  | 1, 0, c2 + 2 => simp at h
  | 1, 1, 0 => rfl
  | 1, 1, 1 => simp at h
  | 1, 1, c2 + 2 => simp at h
  | 1, r2 + 2, c2 => simp at h
  | l2 + 2, r2, c2 => simp at h

theorem strictRow_iff (row : List Nat) :
    strictRow row = true ↔ List.Chain' (· < ·) row := by
  induction row with
  | nil => simp [strictRow]
  | cons a rest ih =>
    cases rest with
    | nil => simp [strictRow]
    | cons b rest2 =>
      rw [show strictRow (a :: b :: rest2) =
        (decide (a < b) && strictRow (b :: rest2)) from rfl]
      rw [List.chain'_cons]
      simp [ih]

theorem isRowStrict_iff (t : TTuple) :
    t.all isRowStrict = true ↔ RowStrictP t := by
  rw [List.all_eq_true]
  unfold RowStrictP
  refine forall_congr' fun comp => forall_congr' fun _ => ?_
  unfold isRowStrict
  rw [List.all_eq_true]
  refine forall_congr' fun row => forall_congr' fun _ => ?_
  rw [strictRow_iff, List.chain'_iff_pairwise]

theorem colPair_iff (ra rb : List Nat) :
    colPair ra rb = true ↔
      ∀ (j a b : Nat), ra[j]? = some a → rb[j]? = some b → a < b := by
  unfold colPair
  rw [List.all_eq_true]
  constructor
  · intro h j a b ha hb
    have hz : (ra.zip rb)[j]? = some (a, b) := by
      rw [List.getElem?_zip_eq_some]
      exact ⟨ha, hb⟩
    have hmem : (a, b) ∈ ra.zip rb := List.mem_iff_getElem?.mpr ⟨j, hz⟩
    simpa using h (a, b) hmem
  · intro h q hq
    rcases List.mem_iff_getElem?.mp hq with ⟨j, hj⟩
    rw [List.getElem?_zip_eq_some] at hj
    simpa using h j q.1 q.2 hj.1 hj.2

theorem isColumnStrict_iff (comp : Tab) :
    isColumnStrict comp = true ↔ List.Chain'
      (fun ra rb => ∀ (j a b : Nat), ra[j]? = some a → rb[j]? = some b → a < b)
      comp := by
  induction comp with
  | nil => simp [isColumnStrict]
  | cons ra rest ih =>
    cases rest with
    | nil => simp [isColumnStrict]
    | cons rb rest2 =>
      rw [show isColumnStrict (ra :: rb :: rest2) =
        (colPair ra rb && isColumnStrict (rb :: rest2)) from rfl]
      rw [List.chain'_cons]
      simp only [Bool.and_eq_true, ih, colPair_iff]

theorem entriesAreBijection_iff (t : TTuple) :
    entriesAreBijection t = true ↔ EntriesBijP t := by
  unfold entriesAreBijection EntriesBijP pySorted
  rw [decide_eq_true_iff]
  constructor
  · intro h
    have hp := (List.perm_insertionSort (fun a b => a ≤ b) (entriesOf t)).symm
    rw [h] at hp
    exact hp
  · intro h
    refine List.eq_of_perm_of_sorted
      ((List.perm_insertionSort _ _).trans h)
      (List.sorted_insertionSort _ _) ?_
    exact (List.pairwise_lt_range' 1 (entriesOf t).length).imp
      fun hlt => Nat.le_of_lt hlt

/-- C5: the row-standard constructor fails exactly when some component row
is not strictly increasing or the entries are not in bijection with
`{1, ..., n}`; the standard constructor additionally fails when some column
is not strictly increasing; and the three violations produce the three
distinguishable error kinds. -/
theorem constructorChecks_spec (t : TTuple) :
    (rowStandardCheck t = Except.ok () ↔ RowStrictP t ∧ EntriesBijP t) ∧
    (rowStandardCheck t = Except.error TabError.notRowStrict ↔ ¬ RowStrictP t) ∧
    (rowStandardCheck t = Except.error TabError.badEntries ↔
      RowStrictP t ∧ ¬ EntriesBijP t) ∧
    (standardCheck t = Except.ok () ↔
      RowStrictP t ∧ EntriesBijP t ∧ ColStrictP t) ∧
    (standardCheck t = Except.error TabError.notColStrict ↔
      RowStrictP t ∧ EntriesBijP t ∧ ¬ ColStrictP t) ∧
    (standardCheck t = Except.error TabError.notRowStrict ↔ ¬ RowStrictP t) ∧
    (standardCheck t = Except.error TabError.badEntries ↔
      RowStrictP t ∧ ¬ EntriesBijP t) := by
  have hcol : t.all isColumnStrict = true ↔ ColStrictP t := by
    rw [List.all_eq_true]
    unfold ColStrictP
    refine forall_congr' fun comp => forall_congr' fun _ => ?_
    exact isColumnStrict_iff comp
  unfold standardCheck rowStandardCheck
  by_cases h1 : t.all isRowStrict = true
  · have p1 : RowStrictP t := (isRowStrict_iff t).mp h1
    rw [if_neg (not_not_intro h1)]
    by_cases h2 : entriesAreBijection t = true
    · have p2 : EntriesBijP t := (entriesAreBijection_iff t).mp h2
      rw [if_neg (not_not_intro h2)]
      by_cases h3 : t.all isColumnStrict = true
      · have p3 : ColStrictP t := hcol.mp h3
        rw [if_neg (not_not_intro h3)]
        refine ⟨?_, ?_, ?_, ?_, ?_, ?_, ?_⟩ <;> simp [p1, p2, p3]
      · have p3 : ¬ ColStrictP t := fun hp => h3 (hcol.mpr hp)
        rw [if_pos h3]
        refine ⟨?_, ?_, ?_, ?_, ?_, ?_, ?_⟩ <;> simp [p1, p2, p3]
    · have p2 : ¬ EntriesBijP t := fun hp => h2 ((entriesAreBijection_iff t).mpr hp)
      rw [if_pos h2]
      refine ⟨?_, ?_, ?_, ?_, ?_, ?_, ?_⟩ <;> simp [p1, p2]
  · have p1 : ¬ RowStrictP t := fun hp => h1 ((isRowStrict_iff t).mpr hp)
    rw [if_pos h1]
    refine ⟨?_, ?_, ?_, ?_, ?_, ?_, ?_⟩ <;> simp [p1]

theorem map_getD_range {α : Type} (l : List α) (d : α) :
    (List.range l.length).map (fun c => l.getD c d) = l := by
  induction l with
  | nil => rfl
  | cons x xs ih =>
    rw [List.length_cons, List.range_succ_eq_map]
    rw [List.map_cons, List.map_map, List.getD_cons_zero]
    have hfun : ((fun c => (x :: xs).getD c d) ∘ (· + 1)) = fun c => xs.getD c d := by
      funext c
      simp [List.getD_cons_succ]
    rw [hfun, ih]

theorem map_range_getD {α : Type} (f : Nat → α) (w i : Nat) (d : α) (h : i < w) :
    ((List.range w).map f).getD i d = f i := by
  have hlen : i < ((List.range w).map f).length := by simpa using h
  rw [List.getD_eq_getElem _ d hlen]
  simp

theorem countP_range_lt (L w : Nat) :
    (List.range w).countP (fun c => decide (c < L)) = min L w := by
  induction w with
  | zero => simp
  | succ w ih =>
    rw [List.range_succ, List.countP_append, ih]
    by_cases h : w < L
    · simp only [List.countP_cons, List.countP_nil, h, decide_eq_true_eq]
      simp [h]
      omega
    · simp [h]
      omega

theorem colLen_iff :
    ∀ (t : Tab), List.Pairwise (fun ra rb => rb.length ≤ ra.length) t →
    ∀ (c r : Nat), r < colLen t c ↔ c < ((t.getD r []).length) := by
  intro t
  induction t with
  | nil => intro _ c r; simp [colLen]
  | cons row rest ih =>
    intro hdec c r
    rcases List.pairwise_cons.mp hdec with ⟨hhead, hrest⟩
    unfold colLen
    rw [List.countP_cons]
    by_cases hc : c < row.length
    · have hone : (if decide (c < row.length) = true then 1 else 0) = 1 := by simp [hc]
      rw [hone]
      cases r with
      | zero =>
        rw [List.getD_cons_zero]
        constructor
        · intro _; exact hc
        · intro _; omega
      | succ r =>
        rw [List.getD_cons_succ, Nat.add_lt_add_iff_right]
        exact ih hrest c r
    · have hz : rest.countP (fun row2 => decide (c < row2.length)) = 0 :=
        List.countP_eq_zero.mpr (fun a ha => by
          simp only [decide_eq_true_iff]
          exact Nat.not_lt.mpr (Nat.le_trans (hhead a ha) (Nat.le_of_not_lt hc)))
      have hzero : (if decide (c < row.length) = true then 1 else 0) = 0 := by simp [hc]
      rw [hzero, hz]
      cases r with
      | zero =>
        rw [List.getD_cons_zero]
        simp [hc]
      | succ r =>
        rw [List.getD_cons_succ]
        constructor
        · intro h; omega
        · intro h
          exfalso
          by_cases hr : r < rest.length
          · have hmem : rest.getD r [] ∈ rest := by
              rw [List.getD_eq_getElem rest [] hr]
              exact List.getElem_mem hr
            exact Nat.not_lt.mpr (Nat.le_trans (hhead _ hmem) (Nat.le_of_not_lt hc)) h
          · rw [List.getD_eq_default rest [] (Nat.le_of_not_lt hr)] at h
            simp at h

theorem conj_col :
    ∀ (t : Tab), List.Pairwise (fun ra rb => rb.length ≤ ra.length) t →
    ∀ (c : Nat),
    t.filterMap (fun row => row[c]?) =
      (List.range (colLen t c)).map (fun r => (t.getD r []).getD c 0) := by
  intro t
  induction t with
  | nil => intro _ c; rfl
  | cons row rest ih =>
    intro hdec c
    rcases List.pairwise_cons.mp hdec with ⟨hhead, hrest⟩
    by_cases hc : c < row.length
    · have hstep : (row :: rest).filterMap (fun row2 => row2[c]?) =
          row[c] :: rest.filterMap (fun row2 => row2[c]?) := by
        rw [List.filterMap_cons, List.getElem?_eq_getElem hc]
      rw [hstep]
      have hcol : colLen (row :: rest) c = colLen rest c + 1 := by
        unfold colLen
        rw [List.countP_cons]
        simp [hc]
      rw [hcol, List.range_succ_eq_map]
      simp only [List.map_cons, List.map_map]
      congr 1
      · rw [List.getD_cons_zero, List.getD_eq_getElem row 0 hc]
      · rw [ih hrest c]
        apply List.map_congr_left
        intro a _
        simp [List.getD_cons_succ]
    · have hstep : (row :: rest).filterMap (fun row2 => row2[c]?) =
          rest.filterMap (fun row2 => row2[c]?) := by
        rw [List.filterMap_cons, List.getElem?_eq_none (Nat.le_of_not_lt hc)]
      rw [hstep]
      have hnil : rest.filterMap (fun row2 => row2[c]?) = [] := by
        rw [List.filterMap_eq_nil_iff]
        intro a ha
        exact List.getElem?_eq_none (Nat.le_trans (hhead a ha) (Nat.le_of_not_lt hc))
      have hcol : colLen (row :: rest) c = 0 := by
        unfold colLen
        rw [List.countP_cons]
        have hz : rest.countP (fun row2 => decide (c < row2.length)) = 0 :=
          List.countP_eq_zero.mpr (fun a ha => by
            simp only [decide_eq_true_iff]
            exact Nat.not_lt.mpr (Nat.le_trans (hhead a ha) (Nat.le_of_not_lt hc)))
        rw [hz]
        simp [hc]
      rw [hnil, hcol]
      rfl

theorem conjTab_eq (t : Tab)
    (hdec : List.Pairwise (fun ra rb => rb.length ≤ ra.length) t) :
    conjTab t = (List.range (t.headD []).length).map
      (fun c => (List.range (colLen t c)).map (fun r => (t.getD r []).getD c 0)) := by
  unfold conjTab
  exact List.map_congr_left (fun c _ => conj_col t hdec c)

theorem conjTab_conjTab (t : Tab) (hne : ∀ row ∈ t, row ≠ [])
    (hdec : List.Pairwise (fun ra rb => rb.length ≤ ra.length) t) :
    conjTab (conjTab t) = t := by
  rcases t with _ | ⟨row0, rest⟩
  · rfl
  rcases List.pairwise_cons.mp hdec with ⟨hhead, _⟩
  have hw : 0 < row0.length :=
    List.length_pos.mpr (hne row0 (by simp))
  have hLle : ∀ r : Nat, ((row0 :: rest).getD r []).length ≤ row0.length := by
    intro r
    cases r with
    | zero => simp
    | succ r =>
      rw [List.getD_cons_succ]
      by_cases hr : r < rest.length
      · have hmem : rest.getD r [] ∈ rest := by
          rw [List.getD_eq_getElem rest [] hr]
          exact List.getElem_mem hr
        exact hhead _ hmem
      · rw [List.getD_eq_default rest [] (Nat.le_of_not_lt hr)]
        simp
  have hT : conjTab (row0 :: rest) = (List.range row0.length).map
      (fun c => (List.range (colLen (row0 :: rest) c)).map
        (fun r => ((row0 :: rest).getD r []).getD c 0)) := by
    rw [conjTab_eq _ hdec]
    rfl
  have hcolpos : ∀ c, c < row0.length → 0 < colLen (row0 :: rest) c := by
    intro c hc
    rw [colLen_iff _ hdec c 0]
    simpa using hc
  have hTne : ∀ rowT ∈ conjTab (row0 :: rest), rowT ≠ [] := by
    rw [hT]
    intro rowT hmem
    rcases List.mem_map.mp hmem with ⟨c, hcmem, hceq⟩
    rw [List.mem_range] at hcmem
    have hpos : 0 < rowT.length := by
      rw [← hceq]
      simpa using hcolpos c hcmem
    exact List.ne_nil_of_length_pos hpos
  have hTdec : List.Pairwise (fun ra rb => rb.length ≤ ra.length)
      (conjTab (row0 :: rest)) := by
    rw [hT, List.pairwise_map]
    refine (List.pairwise_lt_range row0.length).imp ?_
    intro c c2 hcc
    simp only [List.length_map, List.length_range]
    exact List.countP_mono_left (fun a _ h => by
      simp only [decide_eq_true_iff] at h ⊢
      omega)
  have hcol0 : colLen (row0 :: rest) 0 = (row0 :: rest).length :=
    List.countP_eq_length.mpr (fun a ha => by
      simpa using List.length_pos.mpr (hne a ha))
  have hhead0 : ((conjTab (row0 :: rest)).headD []).length = (row0 :: rest).length := by
    rcases Nat.exists_eq_add_of_lt hw with ⟨w2, hw2⟩
    rw [hT]
    rw [show row0.length = w2 + 1 by omega]
    rw [List.range_succ_eq_map]
    simp only [List.map_cons, List.headD_cons, List.length_map, List.length_range]
    exact hcol0
  have hcolT : ∀ r : Nat, r < (row0 :: rest).length →
      colLen (conjTab (row0 :: rest)) r = ((row0 :: rest).getD r []).length := by
    intro r _
    unfold colLen
    rw [hT, List.countP_map]
    have hcongr : ∀ c ∈ List.range row0.length,
        ((fun rowT => decide (r < List.length rowT)) ∘
          (fun c => (List.range (colLen (row0 :: rest) c)).map
            (fun r2 => ((row0 :: rest).getD r2 []).getD c 0))) c =
        (fun c => decide (c < ((row0 :: rest).getD r []).length)) c := by
      intro c _
      simp only [Function.comp_apply, List.length_map, List.length_range]
      rw [decide_eq_decide]
      exact colLen_iff _ hdec c r
    have hcongr2 : ∀ c ∈ List.range row0.length,
        (((fun rowT => decide (r < List.length rowT)) ∘
          (fun c => (List.range (colLen (row0 :: rest) c)).map
            (fun r2 => ((row0 :: rest).getD r2 []).getD c 0))) c = true) ↔
        ((fun c => decide (c < ((row0 :: rest).getD r []).length)) c = true) := by
      intro c hcm
      rw [hcongr c hcm]
    rw [List.countP_congr hcongr2, countP_range_lt]
    exact Nat.min_eq_left (hLle r)
  have hrow : ∀ r : Nat, r < (row0 :: rest).length →
      (List.range (((row0 :: rest).getD r []).length)).map
        (fun c => ((conjTab (row0 :: rest)).getD c []).getD r 0) =
      (row0 :: rest).getD r [] := by
    intro r hr
    have hmapeq : ∀ c ∈ List.range (((row0 :: rest).getD r []).length),
        ((conjTab (row0 :: rest)).getD c []).getD r 0 =
        ((row0 :: rest).getD r []).getD c 0 := by
      intro c hcmem
      rw [List.mem_range] at hcmem
      have hcw : c < row0.length := Nat.lt_of_lt_of_le hcmem (hLle r)
      have hgetT : (conjTab (row0 :: rest)).getD c [] =
          (List.range (colLen (row0 :: rest) c)).map
            (fun r2 => ((row0 :: rest).getD r2 []).getD c 0) := by
        rw [hT]
        exact map_range_getD _ _ c [] hcw
      rw [hgetT]
      exact map_range_getD _ _ r 0 ((colLen_iff _ hdec c r).mpr hcmem)
    rw [List.map_congr_left hmapeq]
    exact map_getD_range _ 0
  rw [conjTab_eq _ hTdec, hhead0]
  have hfinal : ∀ r ∈ List.range (row0 :: rest).length,
      (List.range (colLen (conjTab (row0 :: rest)) r)).map
        (fun c => ((conjTab (row0 :: rest)).getD c []).getD r 0) =
      (row0 :: rest).getD r [] := by
    intro r hrmem
    rw [List.mem_range] at hrmem
    rw [hcolT r hrmem]
    exact hrow r hrmem
  rw [List.map_congr_left hfinal]
  exact map_getD_range _ []

/-- C6: for every tableau tuple whose components have valid tableau shapes
(nonempty rows of weakly decreasing lengths) — in particular for every
standard tableau tuple — conjugating twice returns the original tuple. -/
theorem conjTuple_involution (tt : TTuple)
    (hne : ∀ comp ∈ tt, ∀ row ∈ comp, row ≠ [])
    (hdec : ∀ comp ∈ tt, List.Pairwise (fun ra rb => rb.length ≤ ra.length) comp) :
    conjTuple (conjTuple tt) = tt := by
  unfold conjTuple
  rw [List.map_reverse, List.map_map]
  have hcongr : ∀ comp ∈ tt.reverse, (conjTab ∘ conjTab) comp = id comp := by
    intro comp hcomp
    rw [List.mem_reverse] at hcomp
    exact conjTab_conjTab comp (hne comp hcomp) (hdec comp hcomp)
  rw [List.map_congr_left hcongr, List.map_id, List.reverse_reverse]

/-- Witness for the C6 theorem on the standard tableau tuple
`([[1,2],[3,4]], [[5]])`. -/
theorem conjTuple_involution_witness :
    conjTuple (conjTuple [[[1, 2], [3, 4]], [[5]]]) = [[[1, 2], [3, 4]], [[5]]] :=
  conjTuple_involution [[[1, 2], [3, 4]], [[5]]] (by decide) (by decide)

theorem store_read_append (s : Store) (x : TTuple) (j : Nat) (hj : j < s.length) :
    Store.read (s ++ [x]) j = Store.read s j := by
  unfold Store.read
  rw [List.getD_eq_getElem?_getD, List.getD_eq_getElem?_getD, List.getElem?_append,
    if_pos hj]

/-- C8: `add_entry`, `restrict` and `symmetric_group_action_on_entries`
allocate a new object for their result and leave every existing object —
in particular the receiver — unchanged in the store; on failure of
`add_entry` nothing is allocated at all. -/
theorem frameOps_spec (s : Store) (i j : Nat) (cell : Nat × Nat × Nat)
    (m : Nat) (w : List Nat) (hj : j < s.length) :
    Store.read (addEntrySt s i cell m).1 j = Store.read s j ∧
    Store.read (restrictSt s i m).1 j = Store.read s j ∧
    Store.read (symActionSt s i w).1 j = Store.read s j ∧
    (∀ res, (addEntrySt s i cell m).2 = some res → res = s.length) ∧
    (restrictSt s i m).2 = s.length ∧
    (symActionSt s i w).2 = s.length := by
  have hadd1 : Store.read (addEntrySt s i cell m).1 j = Store.read s j := by
    unfold addEntrySt
    rcases hE : addEntryData (Store.read s i) cell m with _ | tab
    · rfl
    · exact store_read_append s tab j hj
  have hadd2 : ∀ res, (addEntrySt s i cell m).2 = some res → res = s.length := by
    intro res h
    unfold addEntrySt at h
    rcases hE : addEntryData (Store.read s i) cell m with _ | tab
    · rw [hE] at h
      simp at h
    · rw [hE] at h
      simp at h
      omega
  exact ⟨hadd1, store_read_append s _ j hj, store_read_append s _ j hj,
    hadd2, rfl, rfl⟩

/-- Witness for the C8 theorem on a one-object store. -/
theorem frameOps_spec_witness :
    0 < ([[[[1]]]] : Store).length ∧
    Store.read (restrictSt [[[[1]]]] 0 0).1 0 = Store.read [[[[1]]]] 0 :=
  ⟨by decide, (frameOps_spec [[[[1]]]] 0 0 (0, 0, 0) 5 [] (by decide)).2.1⟩

/-- C3: for the fixed shape `([1],[1],[1])` the poset built by the
row-standard shape iterator has no relations (it is the 3-element
antichain), and the iterator yields exactly the six tableau tuples of the
specification's concrete scenario, in exactly that order. -/
theorem rowStdIterSingleton3_spec :
    relationsOf [[1], [1], [1]] = [] ∧
    rowStdIterSingleton3 =
      [[[[3]], [[2]], [[1]]], [[[2]], [[3]], [[1]]], [[[1]], [[3]], [[2]]],
       [[[1]], [[2]], [[3]]], [[[2]], [[1]], [[3]]], [[[3]], [[1]], [[2]]]] := by
  constructor
  · decide
  · decide

theorem foldl_set_length (writes : List (Nat × Int)) :
    ∀ init : List Int,
    (writes.foldl (fun res p => res.set p.1 p.2) init).length = init.length := by
  induction writes with
  | nil => intro init; rfl
  | cons p rest ih =>
    intro init
    rw [List.foldl_cons, ih]
    simp

theorem foldl_set_getD (writes : List (Nat × Int)) :
    ∀ (init : List Int) (j : Nat) (v : Int), j < init.length →
    (∀ w ∈ writes, w.1 = j → w.2 = v) →
    ((∃ w ∈ writes, w.1 = j) ∨ init.getD j 0 = v) →
    (writes.foldl (fun res p => res.set p.1 p.2) init).getD j 0 = v := by
  induction writes with
  | nil =>
    intro init j v hj hall hsome
    rcases hsome with ⟨w, hw, _⟩ | h
    · simp at hw
    · simpa using h
  | cons p rest ih =>
    intro init j v hj hall hsome
    rw [List.foldl_cons]
    refine ih _ j v (by simpa using hj)
      (fun w hw hwj => hall w (by simp [hw]) hwj) ?_
    by_cases hp : p.1 = j
    · right
      have hv : p.2 = v := hall p (by simp) hp
      rw [List.getD_eq_getElem?_getD, List.getElem?_set]
      rw [if_pos hp, if_pos (hp ▸ hj)]
      simpa using hv
    · rcases hsome with ⟨w, hw, hwj⟩ | hbase
      · rcases List.mem_cons.mp hw with heq | hw2
        · exact absurd (heq ▸ hwj) hp
        · exact Or.inl ⟨w, hw2, hwj⟩
      · right
        rw [List.getD_eq_getElem?_getD, List.getElem?_set, if_neg hp,
          ← List.getD_eq_getElem?_getD]
        exact hbase

theorem mem_cellsOf (t : TTuple) (k r c : Nat) :
    (k, r, c) ∈ cellsOf t ↔ containsCell t k r c := by
  unfold cellsOf containsCell
  constructor
  · intro h
    rcases List.mem_flatMap.mp h with ⟨k2, hk2, h2⟩
    rcases List.mem_flatMap.mp h2 with ⟨r2, hr2, h3⟩
    rcases List.mem_map.mp h3 with ⟨c2, hc2, heq⟩
    rw [List.mem_range] at hk2 hr2 hc2
    obtain ⟨rfl, rfl, rfl⟩ : k2 = k ∧ r2 = r ∧ c2 = c := by
      simpa [Prod.ext_iff] using heq
    exact ⟨hk2, hr2, hc2⟩
  · intro h
    obtain ⟨hk, hr, hc⟩ := h
    refine List.mem_flatMap.mpr ⟨k, List.mem_range.mpr hk, ?_⟩
    refine List.mem_flatMap.mpr ⟨r, List.mem_range.mpr hr, ?_⟩
    exact List.mem_map.mpr ⟨c, List.mem_range.mpr hc, rfl⟩

theorem residueSeq_eq_of_inv (e : Nat) (mc : List Int) (res : List Int)
    (t : TTuple) (h : ResInv e mc res t) :
    residueSeq e mc t = res := by
  obtain ⟨hsize, hcov, hres⟩ := h
  have hrw : residueSeq e mc t =
      ((cellsOf t).map (fun cell => (entAt t cell.1 cell.2.1 cell.2.2 - 1,
        resNorm e (mc.getD cell.1 0 - cell.2.1 + cell.2.2)))).foldl
        (fun res2 p => res2.set p.1 p.2) (List.replicate (tupleSize t) 0) := by
    unfold residueSeq
    rw [List.foldl_map]
  have hlen : (residueSeq e mc t).length = res.length := by
    rw [hrw, foldl_set_length]
    simpa using hsize
  have hpoint : ∀ j, j < res.length → (residueSeq e mc t).getD j 0 = res.getD j 0 := by
    intro j hj
    rw [hrw]
    refine foldl_set_getD _ _ j (res.getD j 0) (by simpa using hsize ▸ hj) ?_ ?_
    · intro w hw hwj
      rcases List.mem_map.mp hw with ⟨cell, hcell, hweq⟩
      obtain ⟨k, r, c⟩ := cell
      rw [mem_cellsOf] at hcell
      obtain ⟨h1, h2, h3⟩ := hres k r c hcell
      rw [← hweq] at hwj ⊢
      simp only at hwj ⊢
      rw [h3, hwj]
    · left
      obtain ⟨k, r, c, hcontains, hent⟩ := hcov j hj
      refine ⟨(entAt t k r c - 1, resNorm e (mc.getD k 0 - r + c)),
        List.mem_map.mpr ⟨(k, r, c), (mem_cellsOf t k r c).mpr hcontains, rfl⟩, ?_⟩
      simp [hent]
  refine List.ext_getElem hlen ?_
  intro i h1 h2
  have := hpoint i (by omega)
  rw [List.getD_eq_getElem _ 0 h1, List.getD_eq_getElem _ 0 h2] at this
  exact this

theorem sum_set_nat (l : List Nat) :
    ∀ (i a : Nat), i < l.length →
    (l.set i a).sum + l.getD i 0 = l.sum + a := by
  induction l with
  | nil => intro i a h; simp at h
  | cons x xs ih =>
    intro i a h
    cases i with
    | zero => simp [Nat.add_comm, Nat.add_left_comm]
    | succ i =>
      rw [List.set_cons_succ, List.sum_cons, List.sum_cons, List.getD_cons_succ]
      have := ih i a (by simpa using h)
      omega

theorem tupleSize_eq (t : TTuple) :
    tupleSize t = (t.map (fun comp => (comp.map List.length).sum)).sum := by
  unfold tupleSize shapeOf
  rw [List.map_map]
  rfl

theorem map_length_getD (comp : Tab) (r : Nat) :
    (comp.map List.length).getD r 0 = ((comp.getD r []).length) := by
  by_cases hr : r < comp.length
  · rw [List.getD_eq_getElem _ _ (by simpa using hr), List.getD_eq_getElem _ _ hr]
    simp
  · rw [List.getD_eq_default _ _ (by simpa using Nat.le_of_not_lt hr),
      List.getD_eq_default _ _ (Nat.le_of_not_lt hr)]
    rfl

theorem getD_set_self {α : Type} (l : List α) (i : Nat) (a d : α) (h : i < l.length) :
    (l.set i a).getD i d = a := by
  rw [List.getD_eq_getElem?_getD, List.getElem?_set, if_pos rfl, if_pos h]
  rfl

theorem getD_set_ne {α : Type} (l : List α) (i j : Nat) (a d : α) (h : i ≠ j) :
    (l.set i a).getD j d = l.getD j d := by
  rw [List.getD_eq_getElem?_getD, List.getElem?_set, if_neg h,
    ← List.getD_eq_getElem?_getD]

theorem getD_append_left {α : Type} (l l2 : List α) (j : Nat) (d : α)
    (h : j < l.length) :
    (l ++ l2).getD j d = l.getD j d := by
  rw [List.getD_eq_getElem?_getD, List.getElem?_append, if_pos h,
    ← List.getD_eq_getElem?_getD]

theorem getD_append_last {α : Type} (l : List α) (x d : α) :
    (l ++ [x]).getD l.length d = x := by
  rw [List.getD_eq_getElem?_getD, List.getElem?_append,
    if_neg (Nat.lt_irrefl l.length), Nat.sub_self]
  rfl

theorem getD_dropLast (l : List Int) (j : Nat) (h : j + 1 < l.length) :
    l.dropLast.getD j 0 = l.getD j 0 := by
  have h2 : j < l.dropLast.length := by
    rw [List.length_dropLast]; omega
  rw [List.getD_eq_getElem _ _ h2, List.getD_eq_getElem _ _ (by omega)]
  exact List.getElem_dropLast l j h2

theorem getD_last_of_ne_nil (l : List Int) (h : l ≠ []) :
    l.getD (l.length - 1) 0 = l.getLast h := by
  have hpos : 0 < l.length := List.length_pos.mpr h
  rw [List.getLast_eq_getElem, List.getD_eq_getElem _ _ (by omega)]

theorem addEntryFast_facts (t : TTuple) (k r c m : Nat) (hk : k < t.length)
    (hc : c = ((t.getD k []).getD r []).length)
    (hr : r ≤ (t.getD k []).length) :
    (addEntryFast t (k, r, c) m).length = t.length ∧
    (∀ k2, k2 ≠ k → (addEntryFast t (k, r, c) m).getD k2 [] = t.getD k2 []) ∧
    (∀ r2, r2 ≠ r →
      ((addEntryFast t (k, r, c) m).getD k []).getD r2 [] =
        (t.getD k []).getD r2 []) ∧
    ((addEntryFast t (k, r, c) m).getD k []).getD r [] =
      (t.getD k []).getD r [] ++ [m] ∧
    ((addEntryFast t (k, r, c) m).getD k []).length =
      (if r = (t.getD k []).length
        then (t.getD k []).length + 1 else (t.getD k []).length) ∧
    tupleSize (addEntryFast t (k, r, c) m) = tupleSize t + 1 := by
  have hbranch : addEntryFast t (k, r, c) m =
      t.set k (if r = (t.getD k []).length
        then t.getD k [] ++ [[m]]
        else (t.getD k []).set r ((t.getD k []).getD r [] ++ [m])) := by
    unfold addEntryFast
    rw [if_neg]
    intro hcond
    exact absurd hcond.2.2 (by rw [hc]; exact Nat.lt_irrefl _)
  have hcompk : (addEntryFast t (k, r, c) m).getD k [] =
      (if r = (t.getD k []).length
        then t.getD k [] ++ [[m]]
        else (t.getD k []).set r ((t.getD k []).getD r [] ++ [m])) := by
    rw [hbranch]
    exact getD_set_self t k _ [] hk
  refine ⟨by rw [hbranch]; simp, ?_, ?_, ?_, ?_, ?_⟩
  · intro k2 hk2
    rw [hbranch]
    exact getD_set_ne t k k2 _ [] (fun h => hk2 h.symm)
  · intro r2 hr2
    rw [hcompk]
    by_cases hreq : r = (t.getD k []).length
    · rw [if_pos hreq]
      by_cases hr2lt : r2 < (t.getD k []).length
      · exact getD_append_left _ _ r2 [] hr2lt
      · rw [List.getD_eq_default _ _
          (by rw [List.length_append]
              simp only [List.length_cons, List.length_nil]
              omega),
          List.getD_eq_default _ _ (by omega)]
    · rw [if_neg hreq]
      exact getD_set_ne _ r r2 _ [] (fun h => hr2 h.symm)
  · rw [hcompk]
    by_cases hreq : r = (t.getD k []).length
    · rw [if_pos hreq]
      have hrow : (t.getD k []).getD r [] = [] :=
        List.getD_eq_default _ _ (by omega)
      rw [hrow, hreq, List.nil_append]
      exact getD_append_last (t.getD k []) [m] []
    · rw [if_neg hreq]
      exact getD_set_self _ r _ [] (by omega)
  · rw [hcompk]
    by_cases hreq : r = (t.getD k []).length
    · rw [if_pos hreq, if_pos hreq]
      simp
    · rw [if_neg hreq, if_neg hreq]
      simp
  · rw [hbranch, tupleSize_eq, tupleSize_eq]
    simp only [List.map_set]
    have hk2 : k < (t.map (fun comp => (comp.map List.length).sum)).length := by
      rw [List.length_map]; exact hk
    have hset := sum_set_nat (t.map (fun comp => (comp.map List.length).sum)) k
      (((if r = (t.getD k []).length
        then t.getD k [] ++ [[m]]
        else (t.getD k []).set r ((t.getD k []).getD r [] ++ [m])).map
          List.length).sum) hk2
    have hgetDmap : (t.map (fun comp => (comp.map List.length).sum)).getD k 0 =
        ((t.getD k []).map List.length).sum := by
      rw [List.getD_eq_getElem _ _ hk2, List.getElem_map, List.getD_eq_getElem _ _ hk]
    rw [hgetDmap] at hset
    have hnewsum : ((if r = (t.getD k []).length
        then t.getD k [] ++ [[m]]
        else (t.getD k []).set r ((t.getD k []).getD r [] ++ [m])).map
          List.length).sum = ((t.getD k []).map List.length).sum + 1 := by
      by_cases hreq : r = (t.getD k []).length
      · rw [if_pos hreq, List.map_append, List.sum_append]
        simp
      · rw [if_neg hreq, List.map_set]
        have hrlt : r < (t.getD k []).length := by omega
        have hs := sum_set_nat ((t.getD k []).map List.length) r
          ((t.getD k []).getD r [] ++ [m]).length
          (by rw [List.length_map]; exact hrlt)
        rw [map_length_getD] at hs
        simp only [List.length_append, List.length_cons, List.length_nil] at hs ⊢
        omega
    omega

theorem resInv_addEntry (e : Nat) (mc : List Int) (res : List Int) (hne : res ≠ [])
    (t : TTuple) (hinv : ResInv e mc res.dropLast t)
    (k r c : Nat) (hk : k < t.length)
    (hc : c = ((t.getD k []).getD r []).length)
    (hr : r ≤ (t.getD k []).length)
    (hresidue : res.getLast hne = resNorm e (mc.getD k 0 - r + c)) :
    ResInv e mc res (addEntryFast t (k, r, c) res.length) := by
  obtain ⟨hsize, hcov, hresold⟩ := hinv
  obtain ⟨hlen, hother, hrowo, hrowr, hrows, hts⟩ :=
    addEntryFast_facts t k r c res.length hk hc hr
  have hlenpos : 1 ≤ res.length := by
    rcases res with _ | _
    · exact absurd rfl hne
    · simp
  have hdroplen : res.dropLast.length = res.length - 1 := List.length_dropLast res
  have hrowrlen : (((addEntryFast t (k, r, c) res.length).getD k []).getD r []).length =
      ((t.getD k []).getD r []).length + 1 := by
    rw [hrowr, List.length_append]
    simp only [List.length_cons, List.length_nil]
  have hS1 : ∀ ka ra ca, containsCell (addEntryFast t (k, r, c) res.length) ka ra ca ↔
      (containsCell t ka ra ca ∨ (ka = k ∧ ra = r ∧ ca = c)) := by
    intro ka ra ca
    unfold containsCell
    by_cases hk2 : ka = k
    · rw [hk2]
      by_cases hr2 : ra = r
      · rw [hr2]
        by_cases hreq : r = (t.getD k []).length
        · rw [if_pos hreq] at hrows
          have hc0 : ((t.getD k []).getD r []).length = 0 := by
            rw [List.getD_eq_default _ _ (by omega)]
            rfl
          omega
        · rw [if_neg hreq] at hrows
          omega
      · have e2 : (((addEntryFast t (k, r, c) res.length).getD k []).getD ra []).length =
            ((t.getD k []).getD ra []).length := by
          rw [hrowo ra hr2]
        by_cases hreq : r = (t.getD k []).length
        · rw [if_pos hreq] at hrows
          omega
        · rw [if_neg hreq] at hrows
          omega
    · have e1 : ((addEntryFast t (k, r, c) res.length).getD ka []).length =
          (t.getD ka []).length := by
        rw [hother ka hk2]
      have e2 : (((addEntryFast t (k, r, c) res.length).getD ka []).getD ra []).length =
          ((t.getD ka []).getD ra []).length := by
        rw [hother ka hk2]
      omega
  have hS3 : entAt (addEntryFast t (k, r, c) res.length) k r c = res.length := by
    unfold entAt
    rw [hrowr, hc]
    exact getD_append_last _ _ _
  have hS2 : ∀ ka ra ca, containsCell t ka ra ca →
      entAt (addEntryFast t (k, r, c) res.length) ka ra ca = entAt t ka ra ca := by
    intro ka ra ca hcont
    unfold entAt
    by_cases hk2 : ka = k
    · rw [hk2]
      by_cases hr2 : ra = r
      · rw [hr2]
        rw [hrowr]
        refine getD_append_left _ _ ca 0 ?_
        rw [hk2, hr2] at hcont
        exact hcont.2.2
      · rw [hrowo ra hr2]
    · rw [hother ka hk2]
  refine ⟨by omega, ?_, ?_⟩
  · intro j hj
    by_cases hjlast : j = res.length - 1
    · exact ⟨k, r, c, (hS1 k r c).mpr (Or.inr ⟨rfl, rfl, rfl⟩), by rw [hS3]; omega⟩
    · obtain ⟨k2, r2, c2, hcont, hent⟩ := hcov j (by omega)
      exact ⟨k2, r2, c2, (hS1 k2 r2 c2).mpr (Or.inl hcont),
        by rw [hS2 k2 r2 c2 hcont]; exact hent⟩
  · intro k2 r2 c2 hcontn
    rcases (hS1 k2 r2 c2).mp hcontn with hold | ⟨rfl, rfl, rfl⟩
    · obtain ⟨h1, h2, h3⟩ := hresold k2 r2 c2 hold
      have hent := hS2 k2 r2 c2 hold
      refine ⟨by rw [hent]; exact h1, by rw [hent]; omega, ?_⟩
      rw [hent, ← getD_dropLast res (entAt t k2 r2 c2 - 1) (by omega)]
      exact h3
    · refine ⟨by rw [hS3]; omega, by rw [hS3], ?_⟩
      rw [hS3, getD_last_of_ne_nil res hne]
      exact hresidue.symm

theorem resInv_empty (e : Nat) (mc : List Int) (lvl : Nat) :
    ResInv e mc [] (List.replicate lvl []) := by
  refine ⟨?_, ?_, ?_⟩
  · rw [tupleSize_eq, List.map_replicate]
    simp
  · intro j hj
    simp at hj
  · intro k r c hcont
    exfalso
    obtain ⟨hk, hr, _⟩ := hcont
    have hnil : (List.replicate lvl ([] : Tab)).getD k [] = [] := by
      rw [List.getD_eq_getElem _ _ hk]
      simp
    rw [hnil] at hr
    simp at hr

theorem shapeOf_length (t : TTuple) : (shapeOf t).length = t.length := by
  unfold shapeOf
  exact List.length_map _ _

theorem shapeOf_getD (t : TTuple) (k : Nat) (hk : k < t.length) :
    (shapeOf t).getD k [] = (t.getD k []).map List.length := by
  unfold shapeOf
  rw [List.getD_eq_getElem _ _ (by rw [List.length_map]; exact hk),
    List.getElem_map, List.getD_eq_getElem _ _ hk]

theorem addable_valid (t : TTuple) (k r c : Nat)
    (hmem : (k, r, c) ∈ addableCells (shapeOf t)) :
    k < t.length ∧
    c = ((t.getD k []).getD r []).length ∧
    r ≤ (t.getD k []).length := by
  unfold addableCells at hmem
  rcases List.mem_flatMap.mp hmem with ⟨k2, hk2, hmem2⟩
  rcases List.mem_map.mp hmem2 with ⟨rc, hrc, heq⟩
  obtain ⟨rcr, rcc⟩ := rc
  rw [List.mem_range, shapeOf_length] at hk2
  have hks : k2 = k ∧ rcr = r ∧ rcc = c := by
    simpa [Prod.ext_iff] using heq
  obtain ⟨hkk, hrr, hcc⟩ := hks
  unfold addableCellsComp at hrc
  rcases List.mem_filterMap.mp hrc with ⟨r2, hr2mem, hif⟩
  rw [List.mem_range] at hr2mem
  by_cases hcond : r2 = 0 ∨ ((shapeOf t).getD k2 []).getD r2 0 <
      ((shapeOf t).getD k2 []).getD (r2 - 1) 0
  · rw [if_pos hcond] at hif
    have hinj := Option.some.inj hif
    have hr2 : r2 = rcr := congrArg Prod.fst hinj
    have hpg : ((shapeOf t).getD k2 []).getD r2 0 = rcc := congrArg Prod.snd hinj
    have hkt : k < t.length := hkk ▸ hk2
    have hshape : (shapeOf t).getD k2 [] = (t.getD k []).map List.length := by
      rw [hkk]
      exact shapeOf_getD t k hkt
    refine ⟨hkt, ?_, ?_⟩
    · rw [← hcc, ← hpg, hshape, map_length_getD, hr2, hrr]
    · have hplen : ((shapeOf t).getD k2 []).length = (t.getD k []).length := by
        rw [hshape, List.length_map]
      omega
  · rw [if_neg hcond] at hif
    simp at hif

theorem stdResidueEnum_inv (e : Nat) (mc : List Int) :
    ∀ (n : Nat) (res : List Int), res.length = n →
    ∀ t ∈ stdResidueEnum e mc res, ResInv e mc res t := by
  intro n
  induction n using Nat.strong_induction_on with
  | _ n ih =>
    intro res hlen t ht
    by_cases h : res = []
    · rw [stdResidueEnum, dif_pos h] at ht
      rcases List.mem_singleton.mp ht with rfl
      rw [h]
      exact resInv_empty e mc mc.length
    · rw [stdResidueEnum, dif_neg h] at ht
      rcases List.mem_flatMap.mp ht with ⟨t2, ht2, hmem⟩
      rcases List.mem_filterMap.mp hmem with ⟨cell, hcell, hif⟩
      by_cases hres2 : res.getLast h = cellResidue e mc cell.1 cell.2.1 cell.2.2
      · rw [if_pos hres2] at hif
        obtain ⟨k, r, c⟩ := cell
        have hvalid := addable_valid t2 k r c hcell
        have hIH := ih res.dropLast.length
          (by rw [List.length_dropLast]
              have h0 : res.length ≠ 0 :=
                fun h0 => h (List.eq_nil_of_length_eq_zero h0)
              omega)
          res.dropLast rfl t2 ht2
        have hstep := resInv_addEntry e mc res h t2 hIH k r c
          hvalid.1 hvalid.2.1 hvalid.2.2 hres2
        rw [← Option.some.inj hif]
        exact hstep
      · rw [if_neg hres2] at hif
        simp at hif

theorem stdResidueEnum_correct (e : Nat) (mc : List Int) (res : List Int) :
    ∀ t ∈ stdResidueEnum e mc res, residueSeq e mc t = res :=
  fun t ht => residueSeq_eq_of_inv e mc res t
    (stdResidueEnum_inv e mc res.length res rfl t ht)

theorem list_ext_getD {α : Type} (d : α) (l1 l2 : List α)
    (hlen : l1.length = l2.length) (h : ∀ i, l1.getD i d = l2.getD i d) :
    l1 = l2 := by
  refine List.ext_getElem hlen ?_
  intro i h1 h2
  have hi := h i
  rw [List.getD_eq_getElem _ _ h1, List.getD_eq_getElem _ _ h2] at hi
  exact hi

theorem removable_spec (shape : List (List Nat)) (k r c : Nat)
    (hmem : (k, r, c) ∈ removableCells shape) :
    k < shape.length ∧ r < (shape.getD k []).length ∧
    0 < (shape.getD k []).getD r 0 ∧
    (shape.getD k []).getD (r + 1) 0 < (shape.getD k []).getD r 0 ∧
    c = (shape.getD k []).getD r 0 - 1 := by
  unfold removableCells at hmem
  rcases List.mem_flatMap.mp hmem with ⟨k2, hk2, hmem2⟩
  rcases List.mem_map.mp hmem2 with ⟨rc, hrc, heq⟩
  obtain ⟨rcr, rcc⟩ := rc
  rw [List.mem_range] at hk2
  have hks : k2 = k ∧ rcr = r ∧ rcc = c := by
    simpa [Prod.ext_iff] using heq
  obtain ⟨hkk, hrr, hcc⟩ := hks
  unfold removableCellsComp at hrc
  rcases List.mem_filterMap.mp hrc with ⟨r2, hr2mem, hif⟩
  rw [List.mem_range] at hr2mem
  by_cases hcond : 0 < (shape.getD k2 []).getD r2 0 ∧
      (shape.getD k2 []).getD (r2 + 1) 0 < (shape.getD k2 []).getD r2 0
  · rw [if_pos hcond] at hif
    have hinj := Option.some.inj hif
    have hr2 : r2 = rcr := congrArg Prod.fst hinj
    have hpg : (shape.getD k2 []).getD r2 0 - 1 = rcc := congrArg Prod.snd hinj
    subst hkk
    subst hrr
    subst hcc
    subst hr2
    exact ⟨hk2, hr2mem, hcond.1, hcond.2, hpg.symm⟩
  · rw [if_neg hcond] at hif
    simp at hif

theorem sizePT_map_getD (shape : List (List Nat)) (k : Nat) (hk : k < shape.length) :
    (shape.map List.sum).getD k 0 = (shape.getD k []).sum := by
  rw [List.getD_eq_getElem _ _ (by rw [List.length_map]; exact hk),
    List.getElem_map, List.getD_eq_getElem _ _ hk]

theorem sizePT_set (shape : List (List Nat)) (k : Nat) (pnew : List Nat)
    (hk : k < shape.length) :
    sizePT (shape.set k pnew) + (shape.getD k []).sum = sizePT shape + pnew.sum := by
  unfold sizePT
  rw [List.map_set]
  have hs := sum_set_nat (shape.map List.sum) k pnew.sum
    (by rw [List.length_map]; exact hk)
  rw [sizePT_map_getD shape k hk] at hs
  exact hs

theorem getD_take (p : List Nat) (r i : Nat) :
    (p.take r).getD i 0 = if i < r then p.getD i 0 else 0 := by
  by_cases hi : i < r
  · rw [if_pos hi]
    by_cases hip : i < p.length
    · have hlt : i < (p.take r).length := by
        rw [List.length_take]
        omega
      rw [List.getD_eq_getElem _ _ hlt, List.getD_eq_getElem _ _ hip]
      exact List.getElem_take p
    · rw [List.getD_eq_default _ _ (by rw [List.length_take]; omega),
        List.getD_eq_default _ _ (by omega)]
  · rw [if_neg hi]
    exact List.getD_eq_default _ _ (by rw [List.length_take]; omega)

theorem sum_take_last (p : List Nat) (r : Nat) (hlast : r + 1 = p.length) :
    (p.take r).sum + p.getD r 0 = p.sum := by
  have hdrop : p.drop r = [p.getD r 0] := by
    rw [List.getD_eq_getElem _ _ (by omega)]
    rw [List.drop_eq_getElem_cons (by omega)]
    congr 1
    exact List.drop_eq_nil_of_le (by omega)
  calc (p.take r).sum + p.getD r 0
      = (p.take r).sum + (p.drop r).sum := by rw [hdrop]; simp
    _ = p.sum := by rw [← List.sum_append, List.take_append_drop]

theorem lastrow_of_removable (p : List Nat) (r : Nat) (hr : r < p.length)
    (hpos : ∀ v ∈ p, 0 < v)
    (hlt : p.getD (r + 1) 0 < p.getD r 0) (h1 : p.getD r 0 = 1) :
    r + 1 = p.length := by
  by_contra hne2
  have hlt2 : r + 1 < p.length := by omega
  have hmem : p.getD (r + 1) 0 ∈ p := by
    rw [List.getD_eq_getElem _ _ hlt2]
    exact List.getElem_mem hlt2
  have := hpos _ hmem
  omega

theorem removeCell_comp_last (shape : List (List Nat)) (k r : Nat)
    (h1 : (shape.getD k []).getD r 0 = 1)
    (hlast : r + 1 = (shape.getD k []).length) (hk : k < shape.length) :
    (removeCell shape k r).getD k [] = (shape.getD k []).take r := by
  unfold removeCell
  rw [getD_set_self _ _ _ _ hk, if_pos (by omega),
    List.drop_eq_nil_of_le (by omega), List.append_nil]

theorem removeCell_comp_dec (shape : List (List Nat)) (k r : Nat)
    (h1 : 1 < (shape.getD k []).getD r 0) (hk : k < shape.length) :
    (removeCell shape k r).getD k [] =
      (shape.getD k []).set r ((shape.getD k []).getD r 0 - 1) := by
  unfold removeCell
  rw [getD_set_self _ _ _ _ hk, if_neg (by omega)]

theorem removeCell_hyps (shape : List (List Nat)) (k r : Nat)
    (hpos : ∀ p2 ∈ shape, ∀ v ∈ p2, 0 < v)
    (hk : k < shape.length) (hr : r < (shape.getD k []).length)
    (hposr : 0 < (shape.getD k []).getD r 0)
    (hlt : (shape.getD k []).getD (r + 1) 0 < (shape.getD k []).getD r 0) :
    (removeCell shape k r).length = shape.length ∧
    sizePT (removeCell shape k r) + 1 = sizePT shape ∧
    (∀ p2 ∈ removeCell shape k r, ∀ v ∈ p2, 0 < v) := by
  have hpmem : shape.getD k [] ∈ shape := by
    rw [List.getD_eq_getElem _ _ hk]
    exact List.getElem_mem hk
  have hlenq : (removeCell shape k r).length = shape.length := by
    unfold removeCell
    simp
  have hqset : removeCell shape k r = shape.set k ((removeCell shape k r).getD k []) := by
    unfold removeCell
    rw [getD_set_self _ _ _ _ hk]
  refine ⟨hlenq, ?_, ?_⟩
  · by_cases h1 : (shape.getD k []).getD r 0 = 1
    · have hlast := lastrow_of_removable _ r hr (hpos _ hpmem) hlt h1
      have hcomp := removeCell_comp_last shape k r h1 hlast hk
      have hsum : ((removeCell shape k r).getD k []).sum + 1 = (shape.getD k []).sum := by
        rw [hcomp, ← h1]
        exact sum_take_last _ r hlast
      have hset := sizePT_set shape k ((removeCell shape k r).getD k []) hk
      rw [← hqset] at hset
      omega
    · have hcomp := removeCell_comp_dec shape k r (by omega) hk
      have hsum : ((removeCell shape k r).getD k []).sum + 1 = (shape.getD k []).sum := by
        rw [hcomp]
        have := sum_set_nat (shape.getD k []) r ((shape.getD k []).getD r 0 - 1) hr
        omega
      have hset := sizePT_set shape k ((removeCell shape k r).getD k []) hk
      rw [← hqset] at hset
      omega
  · intro p2 hp2 v hv
    rw [hqset] at hp2
    rcases List.mem_or_eq_of_mem_set hp2 with hmem | heq
    · exact hpos p2 hmem v hv
    · subst heq
      by_cases h1 : (shape.getD k []).getD r 0 = 1
      · have hlast := lastrow_of_removable _ r hr (hpos _ hpmem) hlt h1
        rw [removeCell_comp_last shape k r h1 hlast hk] at hv
        exact hpos _ hpmem v (List.mem_of_mem_take hv)
      · rw [removeCell_comp_dec shape k r (by omega) hk] at hv
        rcases List.mem_or_eq_of_mem_set hv with hmem2 | heq2
        · exact hpos _ hpmem v hmem2
        · omega

theorem removeCell_length (shape : List (List Nat)) (k r : Nat) :
    (removeCell shape k r).length = shape.length := by
  unfold removeCell
  simp

theorem removeCell_add_back (shape : List (List Nat)) (k r c : Nat)
    (hpos : ∀ p2 ∈ shape, ∀ v ∈ p2, 0 < v)
    (hk : k < shape.length) (hr : r < (shape.getD k []).length)
    (hposr : 0 < (shape.getD k []).getD r 0)
    (hlt : (shape.getD k []).getD (r + 1) 0 < (shape.getD k []).getD r 0)
    (hc : c = (shape.getD k []).getD r 0 - 1)
    (t2 : TTuple) (hshape2 : shapeOf t2 = removeCell shape k r) (m : Nat) :
    (k < t2.length ∧
     c = ((t2.getD k []).getD r []).length ∧
     r ≤ (t2.getD k []).length) ∧
    shapeOf (addEntryFast t2 (k, r, c) m) = shape := by
  have hpmem : shape.getD k [] ∈ shape := by
    rw [List.getD_eq_getElem _ _ hk]
    exact List.getElem_mem hk
  have hlen2 : t2.length = shape.length := by
    rw [← shapeOf_length t2, hshape2, removeCell_length]
  have hkt : k < t2.length := by omega
  have hcomp2 : (t2.getD k []).map List.length = (removeCell shape k r).getD k [] := by
    rw [← shapeOf_getD t2 k hkt, hshape2]
  have hcomplen : (t2.getD k []).length = ((removeCell shape k r).getD k []).length := by
    have := congrArg List.length hcomp2
    rw [List.length_map] at this
    exact this
  have hrowlen : ∀ j, ((t2.getD k []).getD j []).length =
      ((removeCell shape k r).getD k []).getD j 0 := by
    intro j
    rw [← map_length_getD, hcomp2]
  have hval : c = ((t2.getD k []).getD r []).length ∧ r ≤ (t2.getD k []).length := by
    by_cases h1 : (shape.getD k []).getD r 0 = 1
    · have hlast := lastrow_of_removable _ r hr (hpos _ hpmem) hlt h1
      have hcompq := removeCell_comp_last shape k r h1 hlast hk
      have hqklen : ((removeCell shape k r).getD k []).length = r := by
        rw [hcompq, List.length_take]
        omega
      have hrow0 : ((t2.getD k []).getD r []).length = 0 := by
        rw [hrowlen r, hcompq, getD_take, if_neg (Nat.lt_irrefl r)]
      constructor
      · omega
      · omega
    · have hcompq := removeCell_comp_dec shape k r (by omega) hk
      have hqklen : ((removeCell shape k r).getD k []).length =
          (shape.getD k []).length := by
        rw [hcompq, List.length_set]
      have hrowc : ((t2.getD k []).getD r []).length =
          (shape.getD k []).getD r 0 - 1 := by
        rw [hrowlen r, hcompq]
        exact getD_set_self _ r _ 0 hr
      constructor
      · omega
      · omega
  refine ⟨⟨hkt, hval.1, hval.2⟩, ?_⟩
  obtain ⟨hlen, hother, hrowo, hrowr, hrows, _⟩ :=
    addEntryFast_facts t2 k r c m hkt hval.1 hval.2
  have hrowrlen2 : (((addEntryFast t2 (k, r, c) m).getD k []).getD r []).length =
      ((t2.getD k []).getD r []).length + 1 := by
    rw [hrowr, List.length_append]
    simp only [List.length_cons, List.length_nil]
  refine list_ext_getD [] _ _ ?_ ?_
  · rw [shapeOf_length, hlen, hlen2]
  · intro i
    by_cases hi : i < shape.length
    · by_cases hik : i = k
      · rw [hik]
        rw [shapeOf_getD _ k (by omega)]
        refine list_ext_getD 0 _ _ ?_ ?_
        · rw [List.length_map, hrows]
          by_cases h1 : (shape.getD k []).getD r 0 = 1
          · have hlast := lastrow_of_removable _ r hr (hpos _ hpmem) hlt h1
            have hcompq := removeCell_comp_last shape k r h1 hlast hk
            have hqklen : ((removeCell shape k r).getD k []).length = r := by
              rw [hcompq, List.length_take]
              omega
            rw [if_pos (by omega)]
            omega
          · have hcompq := removeCell_comp_dec shape k r (by omega) hk
            have hqklen : ((removeCell shape k r).getD k []).length =
                (shape.getD k []).length := by
              rw [hcompq, List.length_set]
            rw [if_neg (by omega)]
            omega
        · intro j
          rw [map_length_getD]
          by_cases hj : j = r
          · rw [hj, hrowrlen2]
            have := hval.1
            omega
          · have heq : (((addEntryFast t2 (k, r, c) m).getD k []).getD j []).length =
                ((t2.getD k []).getD j []).length := by
              rw [hrowo j hj]
            rw [heq, hrowlen j]
            by_cases h1 : (shape.getD k []).getD r 0 = 1
            · have hlast := lastrow_of_removable _ r hr (hpos _ hpmem) hlt h1
              have hcompq := removeCell_comp_last shape k r h1 hlast hk
              rw [hcompq, getD_take]
              by_cases hjr : j < r
              · rw [if_pos hjr]
              · rw [if_neg hjr,
                  List.getD_eq_default _ _ (by omega)]
            · have hcompq := removeCell_comp_dec shape k r (by omega) hk
              rw [hcompq]
              exact getD_set_ne _ r j _ 0 (fun hh => hj hh.symm)
      · rw [shapeOf_getD _ i (by omega), hother i hik,
          ← shapeOf_getD t2 i (by omega), hshape2]
        unfold removeCell
        exact getD_set_ne _ k i _ [] (fun hh => hik hh.symm)
    · rw [List.getD_eq_default _ _ (by rw [shapeOf_length, hlen]; omega),
        List.getD_eq_default _ _ (by omega)]

theorem sizePT_zero_shape (shape : List (List Nat)) (hz : sizePT shape = 0)
    (hpos : ∀ p ∈ shape, ∀ v ∈ p, 0 < v) :
    shape = List.replicate shape.length [] := by
  rw [List.eq_replicate_iff]
  refine ⟨rfl, ?_⟩
  intro p hp
  have hs : p.sum = 0 := by
    unfold sizePT at hz
    have hmem : p.sum ∈ shape.map List.sum := List.mem_map.mpr ⟨p, hp, rfl⟩
    exact List.sum_eq_zero_iff.mp hz _ hmem
  cases p with
  | nil => rfl
  | cons v vs =>
    exfalso
    have hv : 0 < v := hpos _ hp v (by simp)
    rw [List.sum_cons] at hs
    omega

theorem shapeOf_replicate (lvl : Nat) :
    shapeOf (List.replicate lvl ([] : Tab)) = List.replicate lvl [] := by
  unfold shapeOf
  rw [List.map_replicate]
  rfl

theorem stdResidueShapeEnum_inv (e : Nat) (mc : List Int) :
    ∀ (n : Nat) (res : List Int), res.length = n →
    ∀ (shape : List (List Nat)),
    shape.length = mc.length →
    sizePT shape = res.length →
    (∀ p ∈ shape, ∀ v ∈ p, 0 < v) →
    ∀ t ∈ stdResidueShapeEnum e mc res shape,
    ResInv e mc res t ∧ shapeOf t = shape := by
  intro n
  induction n using Nat.strong_induction_on with
  | _ n ih =>
    intro res hlen shape hslen hssize hspos t ht
    by_cases h : res = []
    · rw [stdResidueShapeEnum, dif_pos h] at ht
      rcases List.mem_singleton.mp ht with rfl
      have hshape0 : shape = List.replicate shape.length [] :=
        sizePT_zero_shape shape (by rw [hssize, h]; rfl) hspos
      constructor
      · rw [h]
        exact resInv_empty e mc mc.length
      · rw [shapeOf_replicate, hshape0, hslen]
    · rw [stdResidueShapeEnum, dif_neg h] at ht
      rcases List.mem_flatMap.mp ht with ⟨cell, hcell, hmem⟩
      obtain ⟨k, r, c⟩ := cell
      by_cases hres2 : res.getLast h = cellResidue e mc k r c
      · rw [if_pos hres2] at hmem
        rcases List.mem_map.mp hmem with ⟨t2, ht2, hteq⟩
        obtain ⟨hkk, hrr, hposr, hltr, hcc⟩ := removable_spec shape k r c hcell
        obtain ⟨hqlen, hqsize, hqpos⟩ :=
          removeCell_hyps shape k r hspos hkk hrr hposr hltr
        have hlenres : res.length ≠ 0 :=
          fun h0 => h (List.eq_nil_of_length_eq_zero h0)
        have hIH := ih res.dropLast.length (by rw [List.length_dropLast]; omega)
          res.dropLast rfl (removeCell shape k r)
          (by rw [hqlen, hslen])
          (by rw [List.length_dropLast]; omega)
          hqpos t2 ht2
        obtain ⟨hinv2, hshape2⟩ := hIH
        obtain ⟨hvalid, hshapen⟩ := removeCell_add_back shape k r c hspos
          hkk hrr hposr hltr hcc t2 hshape2 res.length
        constructor
        · rw [← hteq]
          exact resInv_addEntry e mc res h t2 hinv2 k r c
            hvalid.1 hvalid.2.1 hvalid.2.2 hres2
        · rw [← hteq]
          exact hshapen
      · rw [if_neg hres2] at hmem
        simp at hmem

theorem stdResidueShapeEnum_correct (e : Nat) (mc : List Int) (res : List Int)
    (shape : List (List Nat))
    (hslen : shape.length = mc.length)
    (hssize : sizePT shape = res.length)
    (hspos : ∀ p ∈ shape, ∀ v ∈ p, 0 < v) :
    ∀ t ∈ stdResidueShapeEnum e mc res shape,
      residueSeq e mc t = res ∧ shapeOf t = shape := by
  intro t ht
  have := stdResidueShapeEnum_inv e mc res.length res rfl shape
    hslen hssize hspos t ht
  exact ⟨residueSeq_eq_of_inv e mc res t this.1, this.2⟩

theorem getD_append_plus {α : Type} (l l2 : List α) (i : Nat) (d : α) :
    (l ++ l2).getD (l.length + i) d = l2.getD i d := by
  rw [List.getD_eq_getElem?_getD, List.getElem?_append, if_neg (by omega)]
  rw [show l.length + i - l.length = i by omega, ← List.getD_eq_getElem?_getD]

theorem cumLen_zero (mu : List (List Nat)) : cumLen mu 0 = 0 := rfl

theorem cumLen_cons_succ (p : List Nat) (rest : List (List Nat)) (k : Nat) :
    cumLen (p :: rest) (k + 1) = p.length + cumLen rest k := by
  unfold cumLen
  rw [List.take_succ_cons, List.map_cons, List.sum_cons]

theorem cumLen_succ (mu : List (List Nat)) :
    ∀ k, k < mu.length → cumLen mu (k + 1) = cumLen mu k + (mu.getD k []).length := by
  induction mu with
  | nil => intro k hk; simp at hk
  | cons p rest ih =>
    intro k hk
    cases k with
    | zero =>
      rw [cumLen_cons_succ]
      simp only [cumLen_zero, List.getD_cons_zero]
      omega
    | succ k =>
      rw [cumLen_cons_succ, cumLen_cons_succ, List.getD_cons_succ,
        ih k (by simpa using hk)]
      omega

theorem sum_take_le (L : List Nat) (a : Nat) : (L.take a).sum ≤ L.sum := by
  conv_rhs => rw [← List.take_append_drop a L]
  rw [List.sum_append]
  omega

theorem cumLen_mono (mu : List (List Nat)) (a b : Nat) (hab : a ≤ b) :
    cumLen mu a ≤ cumLen mu b := by
  unfold cumLen
  rw [show mu.take a = (mu.take b).take a from by
    rw [List.take_take, Nat.min_eq_left hab]]
  rw [List.map_take]
  exact sum_take_le _ a

theorem cum_add_lt (mu : List (List Nat)) (k r : Nat) (hk : k < mu.length)
    (hr : r < (mu.getD k []).length) :
    cumLen mu k + r < cumLen mu mu.length := by
  have hsucc := cumLen_succ mu k hk
  have hmono := cumLen_mono mu (k + 1) mu.length hk
  omega

theorem cum_decomp (mu : List (List Nat)) :
    ∀ K, K < cumLen mu mu.length →
    ∃ k r, k < mu.length ∧ r < (mu.getD k []).length ∧ K = cumLen mu k + r := by
  induction mu with
  | nil => intro K h; simp [cumLen] at h
  | cons p rest ih =>
    intro K h
    rw [List.length_cons, cumLen_cons_succ] at h
    by_cases hK : K < p.length
    · exact ⟨0, K, by simp, by simpa using hK, by rw [cumLen_zero]; omega⟩
    · obtain ⟨k, r, hk, hr, heq⟩ := ih (K - p.length) (by omega)
      refine ⟨k + 1, r, by simpa using hk, by simpa using hr, ?_⟩
      rw [cumLen_cons_succ]
      omega

theorem getD_map_of_lt {α β : Type} (f : α → β) (l : List α) (i : Nat)
    (d : β) (d2 : α) (h : i < l.length) :
    (l.map f).getD i d = f (l.getD i d2) := by
  rw [List.getD_eq_getElem _ _ (by rw [List.length_map]; exact h),
    List.getElem_map, List.getD_eq_getElem _ _ h]

theorem cumLen_eq_range (mu : List (List Nat)) :
    ∀ k, k ≤ mu.length →
    cumLen mu k = ((List.range k).map fun c => (mu.getD c []).length).sum := by
  intro k
  induction k with
  | zero => intro _; rfl
  | succ k ihk =>
    intro hk
    rw [cumLen_succ mu k (by omega), ihk (by omega), List.range_succ,
      List.map_append, List.sum_append]
    simp

theorem flatMap_range_len {α : Type} (f : Nat → List α) (k : Nat) :
    ((List.range k).flatMap f).length =
      ((List.range k).map fun c => (f c).length).sum := by
  rw [List.length_flatMap]
  rfl

theorem flatMap_range_succ {α : Type} (f : Nat → List α) (k : Nat) :
    (List.range (k + 1)).flatMap f = (List.range k).flatMap f ++ f k := by
  rw [List.range_succ, List.flatMap_append]
  simp

theorem flatMap_range_getD {α : Type} (f : Nat → List α) (n k r : Nat) (d : α)
    (hk : k < n) (hr : r < (f k).length) :
    ((List.range n).flatMap f).getD
      (((List.range k).map fun c => (f c).length).sum + r) d = (f k).getD r d := by
  have hsplit : (List.range n).flatMap f =
      ((List.range k).flatMap f ++ f k) ++
        ((List.range (n - (k + 1))).map fun c => k + 1 + c).flatMap f := by
    rw [← flatMap_range_succ, ← List.flatMap_append]
    congr 1
    rw [← List.range_add]
    congr 1
    omega
  rw [hsplit]
  have hlenA : ((List.range k).flatMap f).length =
      ((List.range k).map fun c => (f c).length).sum := flatMap_range_len f k
  rw [getD_append_left _ _ _ _ (by rw [List.length_append, hlenA]; omega),
    ← hlenA, getD_append_plus]

theorem flatten_eq_flatMap (mu : List (List Nat)) :
    mu.flatten = (List.range mu.length).flatMap fun c => mu.getD c [] := by
  induction mu with
  | nil => rfl
  | cons p rest ih =>
    rw [List.flatten_cons, List.length_cons, List.range_succ_eq_map,
      List.flatMap_cons, List.flatMap_map]
    rw [List.getD_cons_zero, ih]
    congr 1

theorem flatten_getD (mu : List (List Nat)) (k r : Nat)
    (hk : k < mu.length) (hr : r < (mu.getD k []).length) :
    mu.flatten.getD (cumLen mu k + r) 0 = (mu.getD k []).getD r 0 := by
  rw [flatten_eq_flatMap, cumLen_eq_range mu k (by omega)]
  exact flatMap_range_getD _ mu.length k r 0 hk hr

theorem flatten_length_eq (mu : List (List Nat)) :
    mu.flatten.length = cumLen mu mu.length := by
  rw [flatten_eq_flatMap, flatMap_range_len, cumLen_eq_range mu mu.length (by omega)]

theorem stretchCharge_getD (mc : List Int) (mu : List (List Nat)) (k r : Nat)
    (hk : k < mu.length) (hr : r < (mu.getD k []).length) :
    (stretchCharge mc mu).getD (cumLen mu k + r) 0 = mc.getD k 0 - r := by
  unfold stretchCharge
  have hcum : cumLen mu k = ((List.range k).map fun c =>
      ((List.range (mu.getD c []).length).map
        (fun (r2 : Nat) => mc.getD c 0 - (r2 : Int))).length).sum := by
    rw [cumLen_eq_range mu k (by omega)]
    refine congrArg List.sum ?_
    refine List.map_congr_left ?_
    intro c _
    rw [List.length_map, List.length_range]
  have hf : r < ((fun c => (List.range (mu.getD c []).length).map
      (fun (r2 : Nat) => mc.getD c 0 - (r2 : Int))) k).length := by
    rw [List.length_map, List.length_range]
    exact hr
  have hmain := flatMap_range_getD (fun c => (List.range (mu.getD c []).length).map
      (fun (r2 : Nat) => mc.getD c 0 - (r2 : Int))) mu.length k r 0 hk hf
  have h2 : ((List.range (mu.getD k []).length).map
      (fun (r2 : Nat) => mc.getD k 0 - (r2 : Int))).getD r 0 = mc.getD k 0 - r := by
    rw [getD_map_of_lt _ _ r 0 0 (by rw [List.length_range]; exact hr)]
    have hrange : (List.range (mu.getD k []).length).getD r 0 = r := by
      rw [List.getD_eq_getElem _ _ (by rw [List.length_range]; exact hr)]
      simp
    rw [hrange]
  rw [hcum]
  exact hmain.trans h2

theorem stretchShape_getD (mu : List (List Nat)) (K : Nat)
    (hK : K < mu.flatten.length) :
    (stretchShape mu).getD K [] = [mu.flatten.getD K 0] := by
  unfold stretchShape
  exact getD_map_of_lt _ _ K [] 0 hK

theorem stretchShape_length (mu : List (List Nat)) :
    (stretchShape mu).length = mu.flatten.length := by
  unfold stretchShape
  rw [List.length_map]

theorem sizePT_stretch (mu : List (List Nat)) :
    sizePT (stretchShape mu) = sizePT mu := by
  unfold sizePT stretchShape
  rw [List.map_map]
  have h1 : mu.flatten.map (List.sum ∘ fun r => [r]) = mu.flatten := by
    refine (List.map_congr_left ?_).trans (List.map_id _)
    intro a _
    simp
  rw [h1, ← List.sum_flatten]

theorem stretchCharge_length (mc : List Int) (mu : List (List Nat)) :
    (stretchCharge mc mu).length = cumLen mu mu.length := by
  unfold stretchCharge
  rw [flatMap_range_len, cumLen_eq_range mu mu.length (by omega)]
  refine congrArg List.sum (List.map_congr_left ?_)
  intro c _
  rw [List.length_map, List.length_range]

theorem stretchShape_pos (mu : List (List Nat))
    (hpos : ∀ p ∈ mu, ∀ v ∈ p, 0 < v) :
    ∀ p ∈ stretchShape mu, ∀ v ∈ p, 0 < v := by
  intro p hp v hv
  unfold stretchShape at hp
  rcases List.mem_map.mp hp with ⟨x, hx, rfl⟩
  rcases List.mem_flatten.mp hx with ⟨q, hq, hxq⟩
  rcases List.mem_singleton.mp hv with rfl
  exact hpos q hq v hxq

theorem unstretch_length (mu : List (List Nat)) (t : TTuple) :
    (unstretch mu t).length = mu.length := by
  unfold unstretch
  rw [List.length_map, List.length_range]

theorem unstretch_getD (mu : List (List Nat)) (t : TTuple) (c : Nat)
    (hc : c < mu.length) :
    (unstretch mu t).getD c [] =
      (List.range (mu.getD c []).length).map fun r =>
        (t.getD (cumLen mu c + r) []).getD 0 [] := by
  unfold unstretch
  exact map_range_getD _ mu.length c [] hc

theorem unstretch_row (mu : List (List Nat)) (t : TTuple) (c r : Nat)
    (hc : c < mu.length) (hr : r < (mu.getD c []).length) :
    ((unstretch mu t).getD c []).getD r [] =
      (t.getD (cumLen mu c + r) []).getD 0 [] := by
  rw [unstretch_getD mu t c hc]
  exact map_range_getD _ _ r [] hr

theorem stretched_tlen (mu : List (List Nat)) (t : TTuple)
    (hshape : shapeOf t = stretchShape mu) :
    t.length = cumLen mu mu.length := by
  have h2 := shapeOf_length t
  rw [hshape, stretchShape_length] at h2
  rw [← h2, flatten_length_eq]

theorem stretched_comp (mu : List (List Nat)) (t : TTuple)
    (hshape : shapeOf t = stretchShape mu) (K : Nat) (hK : K < t.length) :
    (t.getD K []).length = 1 ∧
    ((t.getD K []).getD 0 []).length = mu.flatten.getD K 0 := by
  have hKf : K < mu.flatten.length := by
    have h1 := stretchShape_length mu
    have h2 := shapeOf_length t
    rw [hshape] at h2
    omega
  have h1 : (t.getD K []).map List.length = [mu.flatten.getD K 0] := by
    rw [← shapeOf_getD t K hK, hshape, stretchShape_getD mu K hKf]
  constructor
  · have h2 := congrArg List.length h1
    simpa using h2
  · have h2 := congrArg (fun l => l.getD 0 0) h1
    simp only at h2
    rw [map_length_getD] at h2
    simpa using h2

theorem unstretch_shape (mu : List (List Nat)) (t : TTuple)
    (hshape : shapeOf t = stretchShape mu) :
    shapeOf (unstretch mu t) = mu := by
  refine list_ext_getD [] _ _ ?_ ?_
  · rw [shapeOf_length, unstretch_length]
  · intro c
    by_cases hc : c < mu.length
    · rw [shapeOf_getD _ c (by rw [unstretch_length]; exact hc),
        unstretch_getD mu t c hc, List.map_map]
      have hrw : (List.range (mu.getD c []).length).map
          (List.length ∘ fun r => (t.getD (cumLen mu c + r) []).getD 0 []) =
          (List.range (mu.getD c []).length).map
          (fun r => (mu.getD c []).getD r 0) := by
        refine List.map_congr_left ?_
        intro r hrmem
        have hr : r < (mu.getD c []).length := List.mem_range.mp hrmem
        have hK : cumLen mu c + r < t.length := by
          rw [stretched_tlen mu t hshape]
          exact cum_add_lt mu c r hc hr
        have hcomp := (stretched_comp mu t hshape _ hK).2
        simp only [Function.comp_apply]
        rw [hcomp, flatten_getD mu c r hc hr]
      rw [hrw]
      exact map_getD_range (mu.getD c []) 0
    · push_neg at hc
      rw [List.getD_eq_default _ _
          (by rw [shapeOf_length, unstretch_length]; exact hc),
        List.getD_eq_default _ _ hc]

theorem unstretch_entAt (mu : List (List Nat)) (t : TTuple) (c r j : Nat)
    (hc : c < mu.length) (hr : r < (mu.getD c []).length) :
    entAt (unstretch mu t) c r j = entAt t (cumLen mu c + r) 0 j := by
  unfold entAt
  rw [unstretch_row mu t c r hc hr]

theorem unstretch_contains (mu : List (List Nat)) (t : TTuple)
    (hshape : shapeOf t = stretchShape mu) (c r j : Nat) :
    containsCell (unstretch mu t) c r j ↔
      c < mu.length ∧ r < (mu.getD c []).length ∧
        containsCell t (cumLen mu c + r) 0 j := by
  unfold containsCell
  constructor
  · rintro ⟨h1, h2, h3⟩
    have hc : c < mu.length := by rw [unstretch_length] at h1; exact h1
    have hr : r < (mu.getD c []).length := by
      rw [unstretch_getD mu t c hc, List.length_map, List.length_range] at h2
      exact h2
    have hK : cumLen mu c + r < t.length := by
      rw [stretched_tlen mu t hshape]
      exact cum_add_lt mu c r hc hr
    refine ⟨hc, hr, hK, ?_, ?_⟩
    · rw [(stretched_comp mu t hshape _ hK).1]
      omega
    · rw [unstretch_row mu t c r hc hr] at h3
      exact h3
  · rintro ⟨hc, hr, hK, h0, hj⟩
    refine ⟨by rw [unstretch_length]; exact hc, ?_, ?_⟩
    · rw [unstretch_getD mu t c hc, List.length_map, List.length_range]
      exact hr
    · rw [unstretch_row mu t c r hc hr]
      exact hj

theorem resInv_unstretch (e : Nat) (mc : List Int) (mu : List (List Nat))
    (res : List Int) (t : TTuple)
    (hinv : ResInv e (stretchCharge mc mu) res t)
    (hshape : shapeOf t = stretchShape mu) :
    ResInv e mc res (unstretch mu t) := by
  obtain ⟨hsize, hcov, hres⟩ := hinv
  refine ⟨?_, ?_, ?_⟩
  · have h1 : tupleSize (unstretch mu t) = sizePT (shapeOf (unstretch mu t)) := rfl
    have h2 : tupleSize t = sizePT (shapeOf t) := rfl
    rw [h1, unstretch_shape mu t hshape, ← sizePT_stretch, ← hshape, ← h2, hsize]
  · intro j hj
    obtain ⟨K, r2, c2, hcont, hent⟩ := hcov j hj
    obtain ⟨hK, hr2, hc2⟩ := hcont
    have hr0 : r2 = 0 := by
      have h1 := (stretched_comp mu t hshape K hK).1
      omega
    subst hr0
    have hKlt : K < cumLen mu mu.length := by
      rw [← stretched_tlen mu t hshape]
      exact hK
    obtain ⟨c, r, hc, hr, hKeq⟩ := cum_decomp mu K hKlt
    refine ⟨c, r, c2, ?_, ?_⟩
    · rw [unstretch_contains mu t hshape]
      exact ⟨hc, hr, by rw [← hKeq]; exact ⟨hK, hr2, hc2⟩⟩
    · rw [unstretch_entAt mu t c r c2 hc hr, ← hKeq]
      exact hent
  · intro c r j hcont
    rw [unstretch_contains mu t hshape] at hcont
    obtain ⟨hc, hr, hcont2⟩ := hcont
    have h3 := hres _ 0 j hcont2
    rw [unstretch_entAt mu t c r j hc hr]
    refine ⟨h3.1, h3.2.1, ?_⟩
    have hch := stretchCharge_getD mc mu c r hc hr
    have harg : mc.getD c 0 - (r : Int) + (j : Int) =
        (stretchCharge mc mu).getD (cumLen mu c + r) 0 - ((0 : Nat) : Int)
          + (j : Int) := by
      rw [hch]
      push_cast
      ring
    rw [harg]
    exact h3.2.2

theorem rowStdResidueShapeEnum_correct (e : Nat) (mc : List Int) (res : List Int)
    (mu : List (List Nat))
    (hssize : sizePT mu = res.length)
    (hspos : ∀ p ∈ mu, ∀ v ∈ p, 0 < v) :
    ∀ u ∈ rowStdResidueShapeEnum e mc res mu,
      residueSeq e mc u = res ∧ shapeOf u = mu := by
  intro u hu
  unfold rowStdResidueShapeEnum at hu
  rcases List.mem_map.mp hu with ⟨t, ht, rfl⟩
  have hstretched := stdResidueShapeEnum_inv e (stretchCharge mc mu) res.length res
    rfl (stretchShape mu)
    (by rw [stretchShape_length, flatten_length_eq, stretchCharge_length])
    (by rw [sizePT_stretch]; exact hssize)
    (stretchShape_pos mu hspos) t ht
  obtain ⟨hinv, hshape⟩ := hstretched
  exact ⟨residueSeq_eq_of_inv e mc res _ (resInv_unstretch e mc mu res t hinv hshape),
    unstretch_shape mu t hshape⟩

theorem rowStdResidueEnum_correct (e : Nat) (mc : List Int) (res : List Int)
    (shapes : List (List (List Nat)))
    (hshapes : ∀ nu ∈ shapes, sizePT nu = res.length ∧ ∀ p ∈ nu, ∀ v ∈ p, 0 < v) :
    ∀ u ∈ rowStdResidueEnum e mc res shapes, residueSeq e mc u = res := by
  intro u hu
  unfold rowStdResidueEnum at hu
  rcases List.mem_flatMap.mp hu with ⟨mu, hmu, hu2⟩
  exact (rowStdResidueShapeEnum_correct e mc res mu (hshapes mu hmu).1
    (hshapes mu hmu).2 u hu2).1

/-- C4: every tableau tuple yielded by a residue-sequence-indexed enumerator —
the standard enumerator `stdResidueEnum`, its shape-fixed variant
`stdResidueShapeEnum`, the row-standard shape-fixed variant
`rowStdResidueShapeEnum` (stretched standard tableaux converted back), and the
row-standard enumerator `rowStdResidueEnum` over the candidate shapes of the
block — has, when its residue sequence is recomputed via `residueSeq` with the
same quantum characteristic `e` and multicharge, exactly the enumerator's
target residue sequence.  The shape-fixed variants require the candidate shape
to be a genuine shape of the residue sequence: right level, right size, and
positive row lengths. -/
theorem residue_enumerators_spec (e : Nat) (mc : List Int) (res : List Int)
    (shape : List (List Nat)) (mu : List (List Nat))
    (shapes : List (List (List Nat)))
    (hslen : shape.length = mc.length)
    (hssize : sizePT shape = res.length)
    (hspos : ∀ p ∈ shape, ∀ v ∈ p, 0 < v)
    (hmusize : sizePT mu = res.length)
    (hmupos : ∀ p ∈ mu, ∀ v ∈ p, 0 < v)
    (hshapes : ∀ nu ∈ shapes, sizePT nu = res.length ∧ ∀ p ∈ nu, ∀ v ∈ p, 0 < v) :
    (∀ t ∈ stdResidueEnum e mc res, residueSeq e mc t = res) ∧
    (∀ t ∈ stdResidueShapeEnum e mc res shape, residueSeq e mc t = res) ∧
    (∀ t ∈ rowStdResidueShapeEnum e mc res mu, residueSeq e mc t = res) ∧
    (∀ t ∈ rowStdResidueEnum e mc res shapes, residueSeq e mc t = res) :=
  ⟨stdResidueEnum_correct e mc res,
    fun t ht => (stdResidueShapeEnum_correct e mc res shape hslen hssize hspos t ht).1,
    fun t ht => (rowStdResidueShapeEnum_correct e mc res mu hmusize hmupos t ht).1,
    rowStdResidueEnum_correct e mc res shapes hshapes⟩

/-- Witness for C4 at `e = 2`, multicharge `[0]`, residue sequence `[0, 1]`,
shape `[[2]]`. -/
theorem residue_enumerators_spec_witness :
    sizePT [[2]] = ([0, 1] : List Int).length ∧
    ((∀ t ∈ stdResidueEnum 2 [0] [0, 1], residueSeq 2 [0] t = [0, 1]) ∧
     (∀ t ∈ stdResidueShapeEnum 2 [0] [0, 1] [[2]],
        residueSeq 2 [0] t = [0, 1]) ∧
     (∀ t ∈ rowStdResidueShapeEnum 2 [0] [0, 1] [[2]],
        residueSeq 2 [0] t = [0, 1]) ∧
     (∀ t ∈ rowStdResidueEnum 2 [0] [0, 1] [[[2]]],
        residueSeq 2 [0] t = [0, 1])) :=
  ⟨by decide,
    residue_enumerators_spec 2 [0] [0, 1] [[2]] [[2]] [[[2]]]
      (by decide) (by decide) (by decide) (by decide) (by decide) (by decide)⟩

/- ----------------------------------------------------------------
C2 proofs: partial-sum and locate infrastructure.
---------------------------------------------------------------- -/

theorem psum_zero (l : List Nat) : psum l 0 = 0 := rfl

theorem psum_cons_succ (w : Nat) (ws : List Nat) (k : Nat) :
    psum (w :: ws) (k + 1) = w + psum ws k := by
  unfold psum
  rw [List.take_succ_cons, List.sum_cons]

theorem psum_succ (l : List Nat) :
    ∀ k, k < l.length → psum l (k + 1) = psum l k + l.getD k 0 := by
  induction l with
  | nil => intro k hk; simp at hk
  | cons w ws ih =>
    intro k hk
    cases k with
    | zero =>
      rw [psum_cons_succ, psum_zero, psum_zero, List.getD_cons_zero]
      omega
    | succ k =>
      rw [psum_cons_succ, psum_cons_succ, List.getD_cons_succ,
        ih k (by simpa using hk)]
      omega

theorem psum_mono (l : List Nat) (a b : Nat) (hab : a ≤ b) :
    psum l a ≤ psum l b := by
  unfold psum
  rw [show l.take a = (l.take b).take a from by
    rw [List.take_take, Nat.min_eq_left hab]]
  exact sum_take_le _ a

theorem psum_ge_length (l : List Nat) (k : Nat) (h : l.length ≤ k) :
    psum l k = l.sum := by
  unfold psum
  rw [List.take_of_length_le h]

theorem psum_le_sum (l : List Nat) (k : Nat) : psum l k ≤ l.sum :=
  sum_take_le l k

theorem locate_spec (l : List Nat) :
    ∀ i, i < l.sum →
    (locate l i).1 < l.length ∧ (locate l i).2 < l.getD (locate l i).1 0 ∧
      psum l (locate l i).1 + (locate l i).2 = i := by
  induction l with
  | nil => intro i h; simp at h
  | cons w ws ih =>
    intro i h
    unfold locate
    by_cases hi : i < w
    · rw [if_pos hi]
      exact ⟨by simp, by simpa using hi, by simp [psum_zero]⟩
    · rw [if_neg hi]
      simp only
      rw [List.sum_cons] at h
      obtain ⟨h1, h2, h3⟩ := ih (i - w) (by omega)
      refine ⟨by simpa using h1, by simpa [List.getD_cons_succ] using h2, ?_⟩
      rw [psum_cons_succ]
      omega

theorem locate_psum (l : List Nat) :
    ∀ g c, g < l.length → c < l.getD g 0 → locate l (psum l g + c) = (g, c) := by
  induction l with
  | nil => intro g c hg _; simp at hg
  | cons w ws ih =>
    intro g c hg hc
    cases g with
    | zero =>
      rw [psum_zero, Nat.zero_add]
      unfold locate
      rw [if_pos (by simpa using hc)]
    | succ g =>
      rw [psum_cons_succ]
      unfold locate
      rw [if_neg (by omega)]
      simp only
      rw [show w + psum ws g + c - w = psum ws g + c by omega,
        ih g c (by simpa using hg) (by simpa [List.getD_cons_succ] using hc)]

theorem rowsOf_sum (mu : List (List Nat)) : (rowsOf mu).sum = sizePT mu := by
  unfold rowsOf sizePT
  induction mu with
  | nil => rfl
  | cons p rest ih =>
    rw [List.flatten_cons, List.sum_append, List.map_cons, List.sum_cons, ih]

theorem lensOf_sum (mu : List (List Nat)) :
    psum (lensOf mu) mu.length = (rowsOf mu).length := by
  rw [psum_ge_length _ _ (by rw [lensOf, List.length_map])]
  unfold lensOf rowsOf
  rw [List.length_flatten]

theorem cumLen_eq_psum (mu : List (List Nat)) (k : Nat) :
    cumLen mu k = psum (lensOf mu) k := by
  unfold cumLen psum lensOf
  rw [List.map_take]

theorem flatten_take (mu : List (List Nat)) :
    ∀ c, (rowsOf mu).take (psum (lensOf mu) c) = rowsOf (mu.take c) := by
  intro c
  induction mu generalizing c with
  | nil =>
    unfold rowsOf lensOf
    simp
  | cons p rest ih =>
    cases c with
    | zero => rfl
    | succ c =>
      unfold lensOf
      rw [List.map_cons]
      rw [psum_cons_succ]
      unfold rowsOf
      rw [List.take_succ_cons, List.flatten_cons, List.take_append]
      unfold rowsOf lensOf at ih
      rw [ih c]
      rfl

theorem clenOf_eq_psum (mu : List (List Nat)) (c : Nat) :
    clenOf mu c = psum (rowsOf mu) (psum (lensOf mu) c) := by
  rw [show psum (rowsOf mu) (psum (lensOf mu) c) =
      ((rowsOf mu).take (psum (lensOf mu) c)).sum from rfl, flatten_take]
  unfold clenOf rowsOf
  induction mu.take c with
  | nil => rfl
  | cons p rest ih =>
    rw [List.flatten_cons, List.sum_append, List.map_cons, List.sum_cons, ih]

theorem lensOf_length (mu : List (List Nat)) : (lensOf mu).length = mu.length := by
  unfold lensOf
  rw [List.length_map]

theorem lensOf_getD (mu : List (List Nat)) (c : Nat) (hc : c < mu.length) :
    (lensOf mu).getD c 0 = (mu.getD c []).length := by
  unfold lensOf
  rw [getD_map_of_lt _ _ c 0 [] hc]

theorem lensOf_sum_eq (mu : List (List Nat)) :
    (lensOf mu).sum = (rowsOf mu).length := by
  rw [← psum_ge_length (lensOf mu) mu.length (by rw [lensOf_length])]
  exact lensOf_sum mu

theorem rowsOf_getD (mu : List (List Nat)) (c rr : Nat) (hc : c < mu.length)
    (hrr : rr < (mu.getD c []).length) :
    (rowsOf mu).getD (psum (lensOf mu) c + rr) 0 = (mu.getD c []).getD rr 0 := by
  rw [← cumLen_eq_psum]
  exact flatten_getD mu c rr hc hrr

theorem clenOf_full (mu : List (List Nat)) : clenOf mu mu.length = sizePT mu := by
  unfold clenOf sizePT
  rw [List.take_of_length_le (Nat.le_refl _)]

theorem clenOf_mono (mu : List (List Nat)) (a b : Nat) (hab : a ≤ b) :
    clenOf mu a ≤ clenOf mu b := by
  rw [clenOf_eq_psum, clenOf_eq_psum]
  exact psum_mono _ _ _ (psum_mono _ _ _ hab)

theorem pos_decomp (mu : List (List Nat)) (i : Nat) (hi : i < sizePT mu) :
    compPos mu i < mu.length ∧
    rrPos mu i < (mu.getD (compPos mu i) []).length ∧
    cPos mu i < (mu.getD (compPos mu i) []).getD (rrPos mu i) 0 ∧
    gPos mu i = psum (lensOf mu) (compPos mu i) + rrPos mu i ∧
    psum (rowsOf mu) (gPos mu i) + cPos mu i = i ∧
    (rowsOf mu).getD (gPos mu i) 0 =
      (mu.getD (compPos mu i) []).getD (rrPos mu i) 0 := by
  obtain ⟨hg, hc, hsum⟩ := locate_spec (rowsOf mu) i (by rw [rowsOf_sum]; exact hi)
  obtain ⟨hcmp, hrr, hgsum⟩ := locate_spec (lensOf mu) (gPos mu i)
    (by rw [lensOf_sum_eq]; exact hg)
  have hcmp2 : compPos mu i < mu.length := by
    rw [← lensOf_length mu]; exact hcmp
  have hrr2 : rrPos mu i < (mu.getD (compPos mu i) []).length := by
    rw [← lensOf_getD mu _ hcmp2]; exact hrr
  have hgeq : gPos mu i = psum (lensOf mu) (compPos mu i) + rrPos mu i := hgsum.symm
  have hrows : (rowsOf mu).getD (gPos mu i) 0 =
      (mu.getD (compPos mu i) []).getD (rrPos mu i) 0 := by
    rw [hgeq]
    exact rowsOf_getD mu _ _ hcmp2 hrr2
  exact ⟨hcmp2, hrr2, by rw [← hrows]; exact hc, hgeq, hsum, hrows⟩

theorem posAt_decomp (mu : List (List Nat)) (i : Nat) (hi : i < sizePT mu) :
    posAt mu (compPos mu i) (rrPos mu i) (cPos mu i) = i := by
  obtain ⟨_, _, _, hgeq, hsum, _⟩ := pos_decomp mu i hi
  unfold posAt
  rw [← hgeq]
  exact hsum

theorem gRow_lt (mu : List (List Nat)) (c rr : Nat) (hc : c < mu.length)
    (hrr : rr < (mu.getD c []).length) :
    psum (lensOf mu) c + rr < (rowsOf mu).length := by
  have h1 : psum (lensOf mu) (c + 1) = psum (lensOf mu) c + (mu.getD c []).length := by
    rw [psum_succ (lensOf mu) c (by rw [lensOf_length]; exact hc), lensOf_getD mu c hc]
  have h2 : psum (lensOf mu) (c + 1) ≤ (rowsOf mu).length := by
    rw [← lensOf_sum_eq]
    exact psum_le_sum _ _
  omega

theorem posAt_roundtrip (mu : List (List Nat)) (c rr col : Nat)
    (hc : c < mu.length) (hrr : rr < (mu.getD c []).length)
    (hcol : col < (mu.getD c []).getD rr 0) :
    posAt mu c rr col < sizePT mu ∧
    gPos mu (posAt mu c rr col) = psum (lensOf mu) c + rr ∧
    cPos mu (posAt mu c rr col) = col ∧
    compPos mu (posAt mu c rr col) = c ∧
    rrPos mu (posAt mu c rr col) = rr := by
  have hg : psum (lensOf mu) c + rr < (rowsOf mu).length := gRow_lt mu c rr hc hrr
  have hrow : (rowsOf mu).getD (psum (lensOf mu) c + rr) 0 =
      (mu.getD c []).getD rr 0 := rowsOf_getD mu c rr hc hrr
  have hlt : posAt mu c rr col < sizePT mu := by
    have h1 : psum (rowsOf mu) (psum (lensOf mu) c + rr + 1) =
        psum (rowsOf mu) (psum (lensOf mu) c + rr) +
          (rowsOf mu).getD (psum (lensOf mu) c + rr) 0 :=
      psum_succ _ _ hg
    have h2 : psum (rowsOf mu) (psum (lensOf mu) c + rr + 1) ≤ (rowsOf mu).sum :=
      psum_le_sum _ _
    rw [← rowsOf_sum]
    unfold posAt
    omega
  have hloc1 : locate (rowsOf mu) (posAt mu c rr col) =
      (psum (lensOf mu) c + rr, col) := by
    unfold posAt
    exact locate_psum (rowsOf mu) _ col hg (by rw [hrow]; exact hcol)
  have hgp : gPos mu (posAt mu c rr col) = psum (lensOf mu) c + rr := by
    unfold gPos
    rw [hloc1]
  have hcp : cPos mu (posAt mu c rr col) = col := by
    unfold cPos
    rw [hloc1]
  have hloc2 : locate (lensOf mu) (psum (lensOf mu) c + rr) = (c, rr) :=
    locate_psum (lensOf mu) c rr (by rw [lensOf_length]; exact hc)
      (by rw [lensOf_getD mu c hc]; exact hrr)
  refine ⟨hlt, hgp, hcp, ?_, ?_⟩
  · unfold compPos
    rw [hgp, hloc2]
  · unfold rrPos
    rw [hgp, hloc2]

theorem posAt_mono (mu : List (List Nat)) (c1 rr1 col1 c2 rr2 col2 : Nat)
    (hc1 : c1 < mu.length) (hrr1 : rr1 < (mu.getD c1 []).length)
    (hcol1 : col1 < (mu.getD c1 []).getD rr1 0)
    (hord : c1 < c2 ∨ (c1 = c2 ∧ rr1 < rr2) ∨ (c1 = c2 ∧ rr1 = rr2 ∧ col1 < col2)) :
    posAt mu c1 rr1 col1 < posAt mu c2 rr2 col2 := by
  have hg1 : psum (lensOf mu) c1 + rr1 < (rowsOf mu).length := gRow_lt mu c1 rr1 hc1 hrr1
  have hrow1 : (rowsOf mu).getD (psum (lensOf mu) c1 + rr1) 0 =
      (mu.getD c1 []).getD rr1 0 := rowsOf_getD mu c1 rr1 hc1 hrr1
  have hnext : psum (rowsOf mu) (psum (lensOf mu) c1 + rr1 + 1) =
      psum (rowsOf mu) (psum (lensOf mu) c1 + rr1) +
        (rowsOf mu).getD (psum (lensOf mu) c1 + rr1) 0 := psum_succ _ _ hg1
  rcases hord with h | ⟨rfl, h⟩ | ⟨rfl, rfl, h⟩
  · have hle : psum (lensOf mu) c1 + rr1 + 1 ≤ psum (lensOf mu) c2 := by
      have hstep : psum (lensOf mu) (c1 + 1) =
          psum (lensOf mu) c1 + (mu.getD c1 []).length := by
        rw [psum_succ (lensOf mu) c1 (by rw [lensOf_length]; exact hc1),
          lensOf_getD mu c1 hc1]
      have hmono := psum_mono (lensOf mu) (c1 + 1) c2 h
      omega
    have hmono2 := psum_mono (rowsOf mu) (psum (lensOf mu) c1 + rr1 + 1)
      (psum (lensOf mu) c2 + rr2) (by omega)
    unfold posAt
    omega
  · have hle : psum (lensOf mu) c1 + rr1 + 1 ≤ psum (lensOf mu) c1 + rr2 := by omega
    have hmono2 := psum_mono (rowsOf mu) _ _ hle
    unfold posAt
    omega
  · unfold posAt
    omega

theorem compPos_interval (mu : List (List Nat)) (i : Nat) (hi : i < sizePT mu) :
    clenOf mu (compPos mu i) ≤ i ∧ i < clenOf mu (compPos mu i + 1) := by
  obtain ⟨hcmp, hrr, hcol, hgeq, hsum, hrows⟩ := pos_decomp mu i hi
  have hg : gPos mu i < (rowsOf mu).length := by
    rw [hgeq]; exact gRow_lt mu _ _ hcmp hrr
  have hnext : psum (rowsOf mu) (gPos mu i + 1) =
      psum (rowsOf mu) (gPos mu i) + (rowsOf mu).getD (gPos mu i) 0 :=
    psum_succ _ _ hg
  have hlens : psum (lensOf mu) (compPos mu i + 1) =
      psum (lensOf mu) (compPos mu i) + (mu.getD (compPos mu i) []).length := by
    rw [psum_succ (lensOf mu) _ (by rw [lensOf_length]; exact hcmp),
      lensOf_getD mu _ hcmp]
  constructor
  · rw [clenOf_eq_psum]
    have h1 : psum (rowsOf mu) (psum (lensOf mu) (compPos mu i)) ≤
        psum (rowsOf mu) (gPos mu i) := psum_mono _ _ _ (by omega)
    omega
  · rw [clenOf_eq_psum]
    have h1 : psum (rowsOf mu) (gPos mu i + 1) ≤
        psum (rowsOf mu) (psum (lensOf mu) (compPos mu i + 1)) :=
      psum_mono _ _ _ (by omega)
    omega

theorem compPos_of_interval (mu : List (List Nat)) (i c : Nat) (hi : i < sizePT mu)
    (h1 : clenOf mu c ≤ i) (h2 : i < clenOf mu (c + 1)) :
    compPos mu i = c := by
  obtain ⟨ha, hb⟩ := compPos_interval mu i hi
  by_contra hne
  rcases Nat.lt_or_ge (compPos mu i) c with h | h
  · have := clenOf_mono mu (compPos mu i + 1) c (by omega)
    omega
  · have := clenOf_mono mu (c + 1) (compPos mu i) (by omega)
    omega

theorem initTab_length (mu : List (List Nat)) : (initTab mu).length = sizePT mu := by
  unfold initTab
  rw [List.length_map, List.length_range]

theorem initTab_getD (mu : List (List Nat)) (i : Nat) (hi : i < sizePT mu) :
    (initTab mu).getD i 0 = i + 1 := by
  unfold initTab
  exact map_range_getD _ _ i 0 hi

theorem minsOf_getD (mu : List (List Nat)) (i : Nat) (hi : i < sizePT mu) :
    (minsOf mu).getD i 0 = minsPos mu i := by
  unfold minsOf
  exact map_range_getD _ _ i 0 hi

theorem colsInit_length (mu : List (List Nat)) :
    (colsInit mu).length = sizePT mu + 1 := by
  unfold colsInit
  rw [List.length_cons, List.length_map, List.length_range]

theorem colsInit_getD_zero (mu : List (List Nat)) : (colsInit mu).getD 0 0 = 0 := rfl

theorem colsInit_getD_succ (mu : List (List Nat)) (i : Nat) (hi : i < sizePT mu) :
    (colsInit mu).getD (i + 1) 0 = colIndex mu i := by
  unfold colsInit
  rw [List.getD_cons_succ]
  exact map_range_getD _ _ i 0 hi

theorem clenOf_succ (mu : List (List Nat)) (k : Nat) (hk : k < mu.length) :
    clenOf mu (k + 1) = clenOf mu k + (mu.getD k []).sum := by
  unfold clenOf
  rw [List.take_succ, List.map_append, List.sum_append]
  have h1 : mu[k]? = some (mu.getD k []) := by
    rw [List.getElem?_eq_getElem hk, List.getD_eq_getElem mu [] hk]
  rw [h1]
  simp

theorem clenOf_eq_range (mu : List (List Nat)) :
    ∀ k, k ≤ mu.length →
    clenOf mu k = ((List.range k).map fun c => (mu.getD c []).sum).sum := by
  intro k
  induction k with
  | zero => intro _; rfl
  | succ k ihk =>
    intro hk
    rw [clenOf_succ mu k (by omega), ihk (by omega), List.range_succ,
      List.map_append, List.sum_append]
    simp

theorem getD_replicate (m v q : Nat) (hq : q < m) :
    (List.replicate m v).getD q 0 = v := by
  rw [List.getD_eq_getElem _ _ (by rw [List.length_replicate]; exact hq)]
  exact List.getElem_replicate v _

theorem componentList_getD (mu : List (List Nat)) (i : Nat) (hi : i < sizePT mu) :
    (componentList mu).getD i 0 = compPos mu i + 1 := by
  have hflat : componentList mu = (List.range mu.length).flatMap fun c =>
      List.replicate (mu.getD c []).sum (c + 1) := by
    unfold componentList
    rw [List.flatMap_def]
  obtain ⟨hcmp, hrr, hcol, hgeq, hsum, hrows⟩ := pos_decomp mu i hi
  obtain ⟨hin1, hin2⟩ := compPos_interval mu i hi
  have hstep := clenOf_succ mu (compPos mu i) hcmp
  have hlen : ((List.range (compPos mu i)).map fun c =>
      ((fun c => List.replicate (mu.getD c []).sum (c + 1)) c).length).sum =
      clenOf mu (compPos mu i) := by
    rw [clenOf_eq_range mu (compPos mu i) (by omega)]
    refine congrArg List.sum (List.map_congr_left ?_)
    intro c _
    rw [List.length_replicate]
  have hieq : i = clenOf mu (compPos mu i) + (i - clenOf mu (compPos mu i)) := by
    omega
  have hmain := flatMap_range_getD (fun c => List.replicate (mu.getD c []).sum (c + 1))
    mu.length (compPos mu i) (i - clenOf mu (compPos mu i)) 0 hcmp
    (by rw [List.length_replicate]; omega)
  rw [hlen] at hmain
  rw [← hieq] at hmain
  rw [hflat, hmain]
  exact getD_replicate _ _ _ (by omega)

theorem offsetOf_step (mu : List (List Nat)) (c : Nat) :
    offsetOf mu c = widthOf (mu.getD (c + 1) []) + offsetOf mu (c + 1) := by
  by_cases h : c + 1 < mu.length
  · unfold offsetOf
    rw [List.drop_eq_getElem_cons h, List.map_cons, List.sum_cons,
      List.getD_eq_getElem mu [] h]
  · unfold offsetOf
    rw [List.drop_eq_nil_of_le (by omega), List.drop_eq_nil_of_le (by omega),
      List.getD_eq_default _ _ (by omega)]
    rfl

theorem offsetOf_antitone (mu : List (List Nat)) (c1 : Nat) :
    ∀ c2, c1 ≤ c2 → offsetOf mu c2 ≤ offsetOf mu c1 := by
  intro c2
  induction c2 with
  | zero => intro h; rw [Nat.le_zero.mp h]
  | succ c2 ih =>
    intro h
    rcases Nat.lt_or_ge c1 (c2 + 1) with h2 | h2
    · have := ih (by omega)
      have hstep := offsetOf_step mu c2
      omega
    · rw [Nat.le_antisymm h h2]

theorem offsetOf_gap (mu : List (List Nat)) (c1 c2 : Nat) (h : c1 < c2) :
    widthOf (mu.getD c2 []) + offsetOf mu c2 ≤ offsetOf mu c1 := by
  have h1 := offsetOf_step mu (c2 - 1)
  have h2 := offsetOf_antitone mu c1 (c2 - 1) (by omega)
  rw [show c2 - 1 + 1 = c2 by omega] at h1
  omega

theorem pairwise_ge_getD (p : List Nat) (hp : List.Pairwise (· ≥ ·) p)
    (a b : Nat) (hab : a ≤ b) (hb : b < p.length) :
    p.getD b 0 ≤ p.getD a 0 := by
  rcases Nat.lt_or_ge a b with h | h
  · rw [List.getD_eq_getElem p 0 hb, List.getD_eq_getElem p 0 (by omega)]
    exact List.pairwise_iff_getElem.mp hp a b (by omega) hb h
  · rw [Nat.le_antisymm hab h]

theorem headD_of_pos (p : List Nat) (hp : 0 < p.length) : p.headD 0 = p.getD 0 0 := by
  cases p with
  | nil => simp at hp
  | cons x xs => rfl

theorem cPos_lt_width (mu : List (List Nat)) (hmu : IsPartitionTuple mu)
    (i : Nat) (hi : i < sizePT mu) :
    cPos mu i < widthOf (mu.getD (compPos mu i) []) := by
  obtain ⟨hcmp, hrr, hcol, _, _, _⟩ := pos_decomp mu i hi
  have hmem : mu.getD (compPos mu i) [] ∈ mu := by
    rw [List.getD_eq_getElem mu [] hcmp]
    exact List.getElem_mem _
  have hsorted := (hmu _ hmem).2
  have h0 : (mu.getD (compPos mu i) []).getD (rrPos mu i) 0 ≤
      (mu.getD (compPos mu i) []).getD 0 0 :=
    pairwise_ge_getD _ hsorted 0 (rrPos mu i) (by omega) hrr
  unfold widthOf
  rw [headD_of_pos _ (by omega)]
  omega

theorem totalWidth_bound (mu : List (List Nat)) (c : Nat) (hc : c < mu.length) :
    widthOf (mu.getD c []) + offsetOf mu c ≤ totalWidth mu := by
  unfold totalWidth offsetOf
  conv_rhs => rw [← List.take_append_drop (c + 1) (mu.map widthOf)]
  rw [List.sum_append, ← List.map_drop]
  have h1 : widthOf (mu.getD c []) ≤ ((mu.map widthOf).take (c + 1)).sum := by
    have hstep : psum (mu.map widthOf) (c + 1) =
        psum (mu.map widthOf) c + (mu.map widthOf).getD c 0 :=
      psum_succ _ c (by rw [List.length_map]; exact hc)
    have hgd : (mu.map widthOf).getD c 0 = widthOf (mu.getD c []) :=
      getD_map_of_lt _ _ c 0 [] hc
    unfold psum at hstep
    omega
  omega

theorem colIndex_lt_total (mu : List (List Nat)) (hmu : IsPartitionTuple mu)
    (i : Nat) (hi : i < sizePT mu) :
    colIndex mu i < totalWidth mu := by
  have h1 := cPos_lt_width mu hmu i hi
  obtain ⟨hcmp, _, _, _, _, _⟩ := pos_decomp mu i hi
  have h2 := totalWidth_bound mu (compPos mu i) hcmp
  unfold colIndex
  omega

theorem colIndex_comp_lt (mu : List (List Nat)) (hmu : IsPartitionTuple mu)
    (i1 i2 : Nat) (hi1 : i1 < sizePT mu) (hi2 : i2 < sizePT mu)
    (hc : compPos mu i1 < compPos mu i2) :
    colIndex mu i2 < colIndex mu i1 := by
  have h1 := cPos_lt_width mu hmu i2 hi2
  have h2 := offsetOf_gap mu (compPos mu i1) (compPos mu i2) hc
  unfold colIndex
  omega

theorem findDescent_props (cols : List Nat) :
    ∀ k r, 0 < r → r ≤ cols.length → cols.length - r ≤ k →
    (r ≤ findDescent cols r ∧ findDescent cols r ≤ cols.length ∧
      (findDescent cols r < cols.length →
        cols.getD (findDescent cols r) 0 <
          cols.getD (findDescent cols r - 1) 0)) := by
  intro k
  induction k with
  | zero =>
    intro r h0 hr hk
    have hreq : r = cols.length := by omega
    unfold findDescent
    rw [dif_neg (by omega)]
    omega
  | succ k ih =>
    intro r h0 hr hk
    by_cases hlt : r < cols.length
    · unfold findDescent
      rw [dif_pos hlt]
      by_cases hmon : cols.getD (r - 1) 0 ≤ cols.getD r 0
      · rw [if_pos hmon]
        have := ih (r + 1) (by omega) (by omega) (by omega)
        exact ⟨by omega, this.2.1, this.2.2⟩
      · rw [if_neg hmon]
        exact ⟨Nat.le_refl r, by omega, fun _ => by omega⟩
    · unfold findDescent
      rw [dif_neg hlt]
      omega

theorem initTab_nodup (mu : List (List Nat)) : (initTab mu).Nodup := by
  unfold initTab
  exact List.Nodup.map (fun a b h => by omega) (List.nodup_range _)

theorem mem_initTab (mu : List (List Nat)) (m : Nat) :
    m ∈ initTab mu ↔ 1 ≤ m ∧ m ≤ sizePT mu := by
  unfold initTab
  rw [List.mem_map]
  constructor
  · rintro ⟨x, hx, rfl⟩
    rw [List.mem_range] at hx
    omega
  · rintro ⟨h1, h2⟩
    exact ⟨m - 1, by rw [List.mem_range]; omega, by omega⟩

theorem mem_iff_getD (l : List Nat) (m : Nat) :
    m ∈ l ↔ ∃ q, q < l.length ∧ l.getD q 0 = m := by
  rw [List.mem_iff_getElem]
  constructor
  · rintro ⟨q, hq, rfl⟩
    exact ⟨q, hq, List.getD_eq_getElem l 0 hq⟩
  · rintro ⟨q, hq, hval⟩
    exact ⟨q, hq, by rw [← List.getD_eq_getElem l 0 hq]; exact hval⟩

theorem mem_iff_getD_int (l : List Int) (m : Int) :
    m ∈ l ↔ ∃ q, q < l.length ∧ l.getD q 0 = m := by
  rw [List.mem_iff_getElem]
  constructor
  · rintro ⟨q, hq, rfl⟩
    exact ⟨q, hq, List.getD_eq_getElem l 0 hq⟩
  · rintro ⟨q, hq, hval⟩
    exact ⟨q, hq, by rw [← List.getD_eq_getElem l 0 hq]; exact hval⟩

theorem getD_mem (l : List Nat) (q : Nat) (hq : q < l.length) : l.getD q 0 ∈ l := by
  rw [List.getD_eq_getElem l 0 hq]
  exact List.getElem_mem _

theorem indexOf_spec (tab : List Nat) (m : Nat) (hm : m ∈ tab) :
    tab.indexOf m < tab.length ∧ tab.getD (tab.indexOf m) 0 = m := by
  have h1 : tab.indexOf m < tab.length := List.indexOf_lt_length.mpr hm
  refine ⟨h1, ?_⟩
  rw [List.getD_eq_getElem tab 0 h1]
  exact List.getElem_indexOf h1

theorem indexOf_unique (tab : List Nat) (hnd : tab.Nodup) (i m : Nat)
    (hi : i < tab.length) (him : tab.getD i 0 = m) : tab.indexOf m = i := by
  have hm : m ∈ tab := by rw [← him]; exact getD_mem tab i hi
  obtain ⟨h1, h2⟩ := indexOf_spec tab m hm
  refine List.getElem?_inj h1 hnd ?_
  rw [List.getElem?_eq_getElem h1, List.getElem?_eq_getElem hi,
    ← List.getD_eq_getElem tab 0 h1, ← List.getD_eq_getElem tab 0 hi, h2, him]

theorem sliceP_length {α : Type} (l : List α) (a b : Nat) (hb : b ≤ l.length)
    (hab : a ≤ b) : (sliceP l a b).length = b - a := by
  unfold sliceP
  rw [List.length_take, List.length_drop]
  omega

theorem sliceP_getD (l : List Nat) (a b q : Nat) (hq : q < b - a) :
    (sliceP l a b).getD q 0 = l.getD (a + q) 0 := by
  unfold sliceP
  rw [List.getD_eq_getElem?_getD, List.getElem?_take_of_lt hq,
    List.getElem?_drop, ← List.getD_eq_getElem?_getD]

theorem standard_row_chain (mu : List (List Nat)) (tab : List Nat)
    (hstd : Standard mu tab) (c rr : Nat) (hc : c < mu.length)
    (hrr : rr < (mu.getD c []).length) :
    ∀ col2 col1, col1 < col2 → col2 < (mu.getD c []).getD rr 0 →
    tab.getD (posAt mu c rr col1) 0 < tab.getD (posAt mu c rr col2) 0 := by
  intro col2
  induction col2 with
  | zero => intro col1 h _; omega
  | succ col2 ih =>
    intro col1 h1 h2
    have hstep : tab.getD (posAt mu c rr col2) 0 <
        tab.getD (posAt mu c rr (col2 + 1)) 0 := by
      have hpos := posAt_roundtrip mu c rr col2 hc hrr (by omega)
      have hs := hstd (posAt mu c rr col2) hpos.1
      have hright : hasRight mu (posAt mu c rr col2) := by
        unfold hasRight
        rw [hpos.2.2.1, hpos.2.1, rowsOf_getD mu c rr hc hrr]
        omega
      have hlt := hs.1 hright
      have heq : posAt mu c rr col2 + 1 = posAt mu c rr (col2 + 1) := by
        unfold posAt
        omega
      rw [heq] at hlt
      exact hlt
    rcases Nat.lt_or_ge col1 col2 with h | h
    · exact Nat.lt_trans (ih col1 h (by omega)) hstep
    · rw [show col1 = col2 by omega]
      exact hstep

theorem standard_col_chain (mu : List (List Nat)) (hmu : IsPartitionTuple mu)
    (tab : List Nat) (hstd : Standard mu tab) (c : Nat) (hc : c < mu.length) :
    ∀ rr2 rr1 col, rr1 < rr2 → rr2 < (mu.getD c []).length →
    col < (mu.getD c []).getD rr2 0 →
    tab.getD (posAt mu c rr1 col) 0 < tab.getD (posAt mu c rr2 col) 0 := by
  have hmem : mu.getD c [] ∈ mu := by
    rw [List.getD_eq_getElem mu [] hc]
    exact List.getElem_mem _
  have hsorted := (hmu _ hmem).2
  intro rr2
  induction rr2 with
  | zero => intro rr1 col h _ _; omega
  | succ rr2 ih =>
    intro rr1 col h1 h2 hcol
    have hmono : ∀ rr3, rr3 ≤ rr2 + 1 → col < (mu.getD c []).getD rr3 0 :=
      fun rr3 h3 =>
        Nat.lt_of_lt_of_le hcol (pairwise_ge_getD _ hsorted rr3 (rr2 + 1) h3 h2)
    have hstep : tab.getD (posAt mu c rr2 col) 0 <
        tab.getD (posAt mu c (rr2 + 1) col) 0 := by
      have hpos := posAt_roundtrip mu c rr2 col hc (by omega) (hmono rr2 (by omega))
      have hs := hstd (posAt mu c rr2 col) hpos.1
      have hbelow : hasBelow mu (posAt mu c rr2 col) := by
        unfold hasBelow
        rw [hpos.2.2.2.1, hpos.2.2.2.2, hpos.2.2.1, hpos.2.1]
        refine ⟨h2, ?_⟩
        rw [show psum (lensOf mu) c + rr2 + 1 = psum (lensOf mu) c + (rr2 + 1) by omega,
          rowsOf_getD mu c (rr2 + 1) hc h2]
        exact hcol
      have hb := hs.2 hbelow
      have heq : belowPos mu (posAt mu c rr2 col) = posAt mu c (rr2 + 1) col := by
        unfold belowPos
        rw [hpos.2.1, rowsOf_getD mu c rr2 hc (by omega)]
        unfold posAt
        rw [show psum (lensOf mu) c + (rr2 + 1) = psum (lensOf mu) c + rr2 + 1
            from by omega,
          psum_succ (rowsOf mu) _ (gRow_lt mu c rr2 hc (by omega)),
          rowsOf_getD mu c rr2 hc (by omega)]
        omega
      rw [heq] at hb
      exact hb
    rcases Nat.lt_or_ge rr1 rr2 with h | h
    · exact Nat.lt_trans (ih rr1 col h (by omega) (hmono rr2 (by omega))) hstep
    · rw [show rr1 = rr2 by omega]
      exact hstep

theorem filter_range_pairwise (n : Nat) (p : Nat → Bool) :
    ((List.range n).filter p).Pairwise (· < ·) :=
  List.Pairwise.filter p (List.pairwise_lt_range n)

theorem pairwise_lt_nodup (L : List Nat) (h : L.Pairwise (· < ·)) : L.Nodup :=
  h.imp (fun hlt => Nat.ne_of_lt hlt)

theorem pairwise_lt_getD (L : List Nat) (hL : L.Pairwise (· < ·)) (a b : Nat)
    (hab : a < b) (hb : b < L.length) : L.getD a 0 < L.getD b 0 := by
  rw [List.getD_eq_getElem L 0 hb, List.getD_eq_getElem L 0 (by omega)]
  exact List.pairwise_iff_getElem.mp hL a b (by omega) hb hab

theorem sorted_getD_filter_lt (L : List Nat) (hL : L.Pairwise (· < ·)) (k : Nat)
    (hk : k < L.length) :
    (L.filter fun x => decide (x < L.getD k 0)).length = k := by
  have hpw := List.pairwise_iff_getElem.mp hL
  obtain ⟨v, hv⟩ : ∃ v, L.getD k 0 = v := ⟨_, rfl⟩
  rw [hv]
  conv_lhs => rw [← List.take_append_drop k L]
  rw [List.filter_append, List.length_append]
  have h1 : ((L.take k).filter fun x => decide (x < v)) = L.take k := by
    rw [List.filter_eq_self]
    intro a ha
    rw [List.mem_iff_getElem] at ha
    obtain ⟨idx, hidx, rfl⟩ := ha
    have hidx2 : idx < k := by
      rw [List.length_take] at hidx
      omega
    simp only [List.getElem_take, decide_eq_true_eq]
    rw [← hv, List.getD_eq_getElem L 0 hk]
    exact hpw idx k (by omega) hk hidx2
  have h2 : ((L.drop k).filter fun x => decide (x < v)) = [] := by
    rw [List.filter_eq_nil_iff]
    intro a ha
    rw [List.mem_iff_getElem] at ha
    obtain ⟨idx, hidx, rfl⟩ := ha
    have hidx2 : k + idx < L.length := by
      rw [List.length_drop] at hidx
      omega
    simp only [List.getElem_drop, decide_eq_true_eq, Nat.not_lt]
    rw [← hv, List.getD_eq_getElem L 0 hk]
    rcases Nat.eq_zero_or_pos idx with h0 | h0
    · subst h0
      simp
    · exact Nat.le_of_lt (hpw k (k + idx) hk hidx2 (by omega))
  rw [h1, h2, List.length_take]
  simp
  omega

theorem sorted_mem_lt (L : List Nat) (hL : L.Pairwise (· < ·)) (k : Nat)
    (hk : k < L.length) (x : Nat) (hx : x ∈ L) (hlt : x < L.getD k 0) :
    ∃ j, j < k ∧ L.getD j 0 = x := by
  obtain ⟨j, hj, hval⟩ := (mem_iff_getD L x).mp hx
  refine ⟨j, ?_, hval⟩
  by_contra h
  push_neg at h
  rcases Nat.eq_or_lt_of_le h with h2 | h2
  · subst h2
    omega
  · have := pairwise_lt_getD L hL k j h2 hj
    omega

theorem find?_range' (p : Nat → Bool) (j : Nat) (hp : p j = true) :
    ∀ b a, a ≤ j → j < a + b → (∀ i, a ≤ i → i < j → p i = false) →
    (List.range' a b).find? p = some j := by
  intro b
  induction b with
  | zero => intro a h1 h2 _; omega
  | succ b ih =>
    intro a h1 h2 hlt
    rw [List.range'_succ]
    by_cases ha : a = j
    · subst ha
      rw [List.find?_cons_of_pos _ hp]
    · have hpa : p a = false := hlt a (Nat.le_refl a) (by omega)
      rw [List.find?_cons_of_neg _ (by rw [hpa]; exact Bool.false_ne_true)]
      exact ih (a + 1) (by omega) (by omega) (fun i hi1 hi2 => hlt i (by omega) hi2)

theorem find?_range (p : Nat → Bool) (n j : Nat) (hj : j < n) (hp : p j = true)
    (hlt : ∀ i, i < j → p i = false) :
    (List.range n).find? p = some j := by
  rw [List.range_eq_range']
  exact find?_range' p j hp n 0 (by omega) (by omega) (fun i _ h2 => hlt i h2)

theorem filter_getLast_spec (p : Nat → Bool) :
    ∀ L : List Nat, ∀ x : Nat, (L.filter p).getLast? = some x →
    p x = true ∧ ∃ q, q < L.length ∧ L.getD q 0 = x ∧
      (∀ q2, q < q2 → q2 < L.length → p (L.getD q2 0) = false) := by
  intro L
  induction L with
  | nil => intro x h; simp at h
  | cons y ys ih =>
    intro x h
    by_cases hys : ys.filter p = []
    · have hfail : ∀ a ∈ ys, p a = false := by
        intro a ha
        have := List.filter_eq_nil_iff.mp hys a ha
        exact Bool.eq_false_iff.mpr this
      by_cases hy : p y
      · have hfy : (y :: ys).filter p = [y] := by
          rw [List.filter_cons_of_pos hy, hys]
        rw [hfy] at h
        have hxy : x = y := by simpa using h.symm
        subst hxy
        refine ⟨hy, 0, by simp, rfl, ?_⟩
        intro q2 hq1 hq2
        rw [show q2 = (q2 - 1) + 1 by omega, List.getD_cons_succ]
        refine hfail _ (getD_mem ys (q2 - 1) ?_)
        rw [List.length_cons] at hq2
        omega
      · rw [List.filter_cons_of_neg hy, hys] at h
        simp at h
    · have hh : (ys.filter p).getLast? = some x := by
        by_cases hy : p y
        · rw [List.filter_cons_of_pos hy, List.getLast?_cons] at h
          obtain ⟨z, hgl⟩ : ∃ z, (ys.filter p).getLast? = some z := by
            rcases hgl2 : (ys.filter p).getLast? with _ | z
            · exact absurd (List.getLast?_eq_none_iff.mp hgl2) hys
            · exact ⟨z, rfl⟩
          rw [hgl] at h
          rw [hgl]
          simpa using h
        · rw [List.filter_cons_of_neg hy] at h
          exact h
      obtain ⟨hpx, q, hq, hval, hafter⟩ := ih x hh
      refine ⟨hpx, q + 1, by rw [List.length_cons]; omega,
        by rw [List.getD_cons_succ]; exact hval, ?_⟩
      intro q2 hq1 hq2
      rw [show q2 = (q2 - 1) + 1 by omega, List.getD_cons_succ]
      refine hafter (q2 - 1) (by omega) ?_
      rw [List.length_cons] at hq2
      omega

theorem lePositions_pairwise (mu : List (List Nat)) (tab : List Nat) (r : Nat) :
    (lePositions mu tab r).Pairwise (· < ·) :=
  filter_range_pairwise _ _

theorem mem_lePositions (mu : List (List Nat)) (tab : List Nat) (r i : Nat) :
    i ∈ lePositions mu tab r ↔ i < sizePT mu ∧ tab.getD i 0 ≤ r := by
  unfold lePositions
  rw [List.mem_filter, List.mem_range]
  simp

theorem lePositions_length (mu : List (List Nat)) (tab cols : List Nat)
    (hinv : IterInv mu tab cols) (r : Nat) (hr : r ≤ sizePT mu) :
    (lePositions mu tab r).length = r := by
  have h1 : (lePositions mu tab r).length =
      tab.countP (fun m => decide (m ≤ r)) := by
    unfold lePositions
    rw [List.countP_eq_length_filter]
    conv_rhs => rw [← map_getD_range tab 0]
    rw [List.filter_map, List.length_map, hinv.1]
    rfl
  have h2 : tab.countP (fun m => decide (m ≤ r)) =
      (initTab mu).countP (fun m => decide (m ≤ r)) :=
    hinv.2.2.2.1.countP_eq _
  have h3 : (initTab mu).countP (fun m => decide (m ≤ r)) = r := by
    unfold initTab
    rw [List.countP_map]
    have hcong : (List.range (sizePT mu)).countP
        ((fun m => decide (m ≤ r)) ∘ (· + 1)) =
        (List.range (sizePT mu)).countP (fun c => decide (c < r)) := by
      refine List.countP_congr ?_
      intro x _
      simp only [Function.comp_apply, decide_eq_true_eq]
      omega
    rw [hcong, countP_range_lt]
    omega
  omega

theorem lePositions_getD_mem (mu : List (List Nat)) (tab : List Nat) (r k : Nat)
    (hk : k < (lePositions mu tab r).length) :
    (lePositions mu tab r).getD k 0 < sizePT mu ∧
    tab.getD ((lePositions mu tab r).getD k 0) 0 ≤ r := by
  have := getD_mem (lePositions mu tab r) k hk
  exact (mem_lePositions mu tab r _).mp this

theorem maxRowInComp_extract (mu : List (List Nat)) (tab cols : List Nat) (r : Nat) :
    ∀ c s, maxRowInComp mu tab cols r c = some s →
    ∃ c2, 1 ≤ c2 ∧ c2 ≤ c ∧
      (mriCand mu tab cols r c2).getLast? = some s := by
  intro c
  induction c with
  | zero => intro s h; simp [maxRowInComp] at h
  | succ c ih =>
    intro s h
    unfold maxRowInComp at h
    simp only at h
    by_cases he : (mriCand mu tab cols r (c + 1)).isEmpty
    · rw [if_pos he] at h
      obtain ⟨c2, h1, h2, h3⟩ := ih s h
      exact ⟨c2, h1, by omega, h3⟩
    · rw [if_neg he] at h
      exact ⟨c + 1, by omega, Nat.le_refl _, h⟩

theorem maxRowInComp_safe (mu : List (List Nat)) (tab cols : List Nat) (r c1 : Nat)
    (hc1 : 1 ≤ c1) (hne : ¬(mriCand mu tab cols r c1).isEmpty) :
    ∀ c, c1 ≤ c → (maxRowInComp mu tab cols r c).isSome := by
  intro c
  induction c with
  | zero => intro h; omega
  | succ c ih =>
    intro h
    unfold maxRowInComp
    simp only
    by_cases he : (mriCand mu tab cols r (c + 1)).isEmpty
    · rw [if_pos he]
      refine ih ?_
      rcases Nat.eq_or_lt_of_le h with h2 | h2
      · rw [← h2] at he; exact absurd he hne
      · omega
    · rw [if_neg he]
      rw [Option.isSome_iff_exists]
      have hnn : mriCand mu tab cols r (c + 1) ≠ [] := by
        intro hnil
        rw [hnil] at he
        exact he rfl
      rw [← List.getLast?_isSome, Option.isSome_iff_exists] at hnn
      exact hnn

theorem mriCand_last_facts (mu : List (List Nat)) (tab cols : List Nat)
    (r c2 s : Nat) (htlen : tab.length = sizePT mu) (hc2a : 1 ≤ c2)
    (hc2b : c2 ≤ mu.length)
    (h : (mriCand mu tab cols r c2).getLast? = some s) :
    s < r ∧ cols.getD r 0 < cols.getD s 0 ∧
    ∃ q0, clenOf mu (c2 - 1) ≤ q0 ∧ q0 < clenOf mu c2 ∧ q0 < sizePT mu ∧
      tab.getD q0 0 = s ∧
      ∀ q2, q0 < q2 → q2 < clenOf mu c2 →
        ¬(tab.getD q2 0 < r ∧ cols.getD r 0 < cols.getD (tab.getD q2 0) 0) := by
  have hclen : clenOf mu c2 ≤ sizePT mu := by
    rw [← clenOf_full mu]
    exact clenOf_mono mu c2 mu.length hc2b
  have hmono : clenOf mu (c2 - 1) ≤ clenOf mu c2 := clenOf_mono mu _ _ (by omega)
  have hslen : (sliceP tab (clenOf mu (c2 - 1)) (clenOf mu c2)).length =
      clenOf mu c2 - clenOf mu (c2 - 1) :=
    sliceP_length tab _ _ (by omega) hmono
  obtain ⟨hps, q, hq, hval, hafter⟩ := filter_getLast_spec _ _ s h
  rw [hslen] at hq
  have hps2 : s < r ∧ cols.getD r 0 < cols.getD s 0 := of_decide_eq_true hps
  have hval2 : tab.getD (clenOf mu (c2 - 1) + q) 0 = s := by
    rw [← sliceP_getD tab _ _ q hq]
    exact hval
  refine ⟨hps2.1, hps2.2, clenOf mu (c2 - 1) + q, by omega, by omega, by omega,
    hval2, ?_⟩
  intro q2 hq2a hq2b
  have hq2' : q2 - clenOf mu (c2 - 1) < (sliceP tab (clenOf mu (c2 - 1))
      (clenOf mu c2)).length := by
    rw [hslen]
    omega
  have := hafter (q2 - clenOf mu (c2 - 1)) (by omega) hq2'
  rw [sliceP_getD tab _ _ _ (by rw [hslen] at hq2'; omega)] at this
  rw [show clenOf mu (c2 - 1) + (q2 - clenOf mu (c2 - 1)) = q2 by omega] at this
  intro hcon
  rw [decide_eq_false_iff_not] at this
  exact this hcon

theorem step_beta_right (mu : List (List Nat)) (hmu : IsPartitionTuple mu)
    (tab cols : List Nat) (hinv : IterInv mu tab cols) (r s q0 : Nat)
    (hscol : cols.getD r 0 < cols.getD s 0)
    (hq0n : q0 < sizePT mu) (hq0v : tab.getD q0 0 = s)
    (hlast : ∀ q2, q0 < q2 → q2 < clenOf mu (compPos mu q0 + 1) →
      ¬(tab.getD q2 0 < r ∧ cols.getD r 0 < cols.getD (tab.getD q2 0) 0)) :
    ∀ j, j < sizePT mu → compPos mu j = compPos mu q0 → rrPos mu j = rrPos mu q0 →
      cPos mu q0 < cPos mu j → r < tab.getD j 0 := by
  intro j hj hcomp hrr hcol
  by_contra hle
  push_neg at hle
  obtain ⟨hc0, hrr0, hcol0, hg0, hs0, hrows0⟩ := pos_decomp mu q0 hq0n
  obtain ⟨hcj, hrrj, hcolj, hgjj, hsjj, hrowsj⟩ := pos_decomp mu j hj
  rw [hcomp, hrr] at hcolj
  have hq0pos : posAt mu (compPos mu q0) (rrPos mu q0) (cPos mu q0) = q0 :=
    posAt_decomp mu q0 hq0n
  have hjpos : posAt mu (compPos mu q0) (rrPos mu q0) (cPos mu j) = j := by
    rw [← hcomp, ← hrr]
    exact posAt_decomp mu j hj
  have hvrt := posAt_roundtrip mu (compPos mu q0) (rrPos mu q0) (cPos mu q0 + 1)
    hc0 hrr0 (by omega)
  have hstd := hinv.2.2.2.2.2
  have hv_gt_s : s < tab.getD (posAt mu (compPos mu q0) (rrPos mu q0)
      (cPos mu q0 + 1)) 0 := by
    have hs := hstd q0 hq0n
    have hright : hasRight mu q0 := by
      unfold hasRight
      rw [hrows0]
      omega
    have hq1 : q0 + 1 = posAt mu (compPos mu q0) (rrPos mu q0) (cPos mu q0 + 1) := by
      unfold posAt
      rw [← hg0]
      omega
    have hlt := hs.1 hright
    rw [hq1] at hlt
    rw [← hq0v]
    exact hlt
  have hv_le : tab.getD (posAt mu (compPos mu q0) (rrPos mu q0)
      (cPos mu q0 + 1)) 0 ≤ tab.getD j 0 := by
    rcases Nat.eq_or_lt_of_le (show cPos mu q0 + 1 ≤ cPos mu j by omega) with he | hlt
    · rw [he, hjpos]
    · have hch := standard_row_chain mu tab hstd (compPos mu q0) (rrPos mu q0)
        hc0 hrr0 (cPos mu j) (cPos mu q0 + 1) hlt hcolj
      rw [hjpos] at hch
      omega
  have hcolsv : cols.getD (tab.getD (posAt mu (compPos mu q0) (rrPos mu q0)
      (cPos mu q0 + 1)) 0) 0 = cPos mu q0 + 1 + offsetOf mu (compPos mu q0) := by
    have hcl := hinv.2.2.2.2.1 _ hvrt.1
    rw [hcl]
    unfold colIndex
    rw [hvrt.2.2.1, hvrt.2.2.2.1]
  have hcolss : cols.getD s 0 = cPos mu q0 + offsetOf mu (compPos mu q0) := by
    have hcl := hinv.2.2.2.2.1 q0 hq0n
    rw [hq0v] at hcl
    rw [hcl]
    rfl
  have hvin : posAt mu (compPos mu q0) (rrPos mu q0) (cPos mu q0 + 1) <
      clenOf mu (compPos mu q0 + 1) := by
    have hint := compPos_interval mu _ hvrt.1
    rw [hvrt.2.2.2.1] at hint
    exact hint.2
  have hgt : q0 < posAt mu (compPos mu q0) (rrPos mu q0) (cPos mu q0 + 1) := by
    unfold posAt
    rw [← hg0]
    omega
  rcases Nat.eq_or_lt_of_le (show tab.getD (posAt mu (compPos mu q0) (rrPos mu q0)
      (cPos mu q0 + 1)) 0 ≤ r by omega) with he | hlt
  · rw [he] at hcolsv
    omega
  · exact hlast _ hgt hvin ⟨hlt, by omega⟩

theorem step_beta_below (mu : List (List Nat)) (hmu : IsPartitionTuple mu)
    (tab cols : List Nat) (hinv : IterInv mu tab cols) (r s q0 : Nat)
    (hscol : cols.getD r 0 < cols.getD s 0)
    (hq0n : q0 < sizePT mu) (hq0v : tab.getD q0 0 = s)
    (hlast : ∀ q2, q0 < q2 → q2 < clenOf mu (compPos mu q0 + 1) →
      ¬(tab.getD q2 0 < r ∧ cols.getD r 0 < cols.getD (tab.getD q2 0) 0)) :
    ∀ j, j < sizePT mu → compPos mu j = compPos mu q0 → cPos mu j = cPos mu q0 →
      rrPos mu q0 < rrPos mu j → r < tab.getD j 0 := by
  intro j hj hcomp hcol hrr
  by_contra hle
  push_neg at hle
  obtain ⟨hc0, hrr0, hcol0, hg0, hs0, hrows0⟩ := pos_decomp mu q0 hq0n
  obtain ⟨hcj, hrrj, hcolj, hgjj, hsjj, hrowsj⟩ := pos_decomp mu j hj
  rw [hcomp] at hrrj hcolj
  rw [hcol] at hcolj
  have hmem : mu.getD (compPos mu q0) [] ∈ mu := by
    rw [List.getD_eq_getElem mu [] hc0]
    exact List.getElem_mem _
  have hsorted := (hmu _ hmem).2
  have hrow1 : cPos mu q0 < (mu.getD (compPos mu q0) []).getD (rrPos mu q0 + 1) 0 :=
    Nat.lt_of_lt_of_le hcolj
      (pairwise_ge_getD _ hsorted (rrPos mu q0 + 1) (rrPos mu j) (by omega) hrrj)
  have hq0pos : posAt mu (compPos mu q0) (rrPos mu q0) (cPos mu q0) = q0 :=
    posAt_decomp mu q0 hq0n
  have hjpos : posAt mu (compPos mu q0) (rrPos mu j) (cPos mu q0) = j := by
    rw [← hcomp, ← hcol]
    exact posAt_decomp mu j hj
  have hwrt := posAt_roundtrip mu (compPos mu q0) (rrPos mu q0 + 1) (cPos mu q0)
    hc0 (by omega) hrow1
  have hstd := hinv.2.2.2.2.2
  have hw_gt_s : s < tab.getD (posAt mu (compPos mu q0) (rrPos mu q0 + 1)
      (cPos mu q0)) 0 := by
    have hs := hstd q0 hq0n
    have hbelow : hasBelow mu q0 := by
      unfold hasBelow
      refine ⟨by omega, ?_⟩
      rw [hg0, show psum (lensOf mu) (compPos mu q0) + rrPos mu q0 + 1 =
        psum (lensOf mu) (compPos mu q0) + (rrPos mu q0 + 1) by omega,
        rowsOf_getD mu _ _ hc0 (by omega)]
      exact hrow1
    have hq1 : belowPos mu q0 = posAt mu (compPos mu q0) (rrPos mu q0 + 1)
        (cPos mu q0) := by
      have hglt : gPos mu q0 < (rowsOf mu).length := by
        rw [hg0]
        exact gRow_lt mu _ _ hc0 hrr0
      unfold belowPos posAt
      rw [show psum (lensOf mu) (compPos mu q0) + (rrPos mu q0 + 1) =
        gPos mu q0 + 1 by omega, psum_succ (rowsOf mu) _ hglt]
      omega
    have hlt := hs.2 hbelow
    rw [hq1] at hlt
    rw [← hq0v]
    exact hlt
  have hw_le : tab.getD (posAt mu (compPos mu q0) (rrPos mu q0 + 1)
      (cPos mu q0)) 0 ≤ tab.getD j 0 := by
    rcases Nat.eq_or_lt_of_le (show rrPos mu q0 + 1 ≤ rrPos mu j by omega) with he | hlt
    · rw [he, hjpos]
    · have hch := standard_col_chain mu hmu tab hstd (compPos mu q0) hc0
        (rrPos mu j) (rrPos mu q0 + 1) (cPos mu q0) hlt hrrj hcolj
      rw [hjpos] at hch
      omega
  have hcolsw : cols.getD (tab.getD (posAt mu (compPos mu q0) (rrPos mu q0 + 1)
      (cPos mu q0)) 0) 0 = cPos mu q0 + offsetOf mu (compPos mu q0) := by
    have hcl := hinv.2.2.2.2.1 _ hwrt.1
    rw [hcl]
    unfold colIndex
    rw [hwrt.2.2.1, hwrt.2.2.2.1]
  have hcolss : cols.getD s 0 = cPos mu q0 + offsetOf mu (compPos mu q0) := by
    have hcl := hinv.2.2.2.2.1 q0 hq0n
    rw [hq0v] at hcl
    rw [hcl]
    rfl
  have hwin : posAt mu (compPos mu q0) (rrPos mu q0 + 1) (cPos mu q0) <
      clenOf mu (compPos mu q0 + 1) := by
    have hint := compPos_interval mu _ hwrt.1
    rw [hwrt.2.2.2.1] at hint
    exact hint.2
  have hgt : q0 < posAt mu (compPos mu q0) (rrPos mu q0 + 1) (cPos mu q0) := by
    have hglt : gPos mu q0 < (rowsOf mu).length := by
      rw [hg0]
      exact gRow_lt mu _ _ hc0 hrr0
    unfold posAt
    rw [show psum (lensOf mu) (compPos mu q0) + (rrPos mu q0 + 1) =
      gPos mu q0 + 1 by omega, psum_succ (rowsOf mu) _ hglt, hrows0]
    omega
  rcases Nat.eq_or_lt_of_le (show tab.getD (posAt mu (compPos mu q0)
      (rrPos mu q0 + 1) (cPos mu q0)) 0 ≤ r by omega) with he | hlt
  · rw [he] at hcolsw
    omega
  · exact hlast _ hgt hwin ⟨hlt, by omega⟩

theorem rank_mins (mu : List (List Nat)) (hmu : IsPartitionTuple mu)
    (tab cols : List Nat) (hinv : IterInv mu tab cols) (r s q0 : Nat)
    (hscol : cols.getD r 0 < cols.getD s 0) (hsr : s < r)
    (hq0n : q0 < sizePT mu) (hq0v : tab.getD q0 0 = s)
    (hlast : ∀ q2, q0 < q2 → q2 < clenOf mu (compPos mu q0 + 1) →
      ¬(tab.getD q2 0 < r ∧ cols.getD r 0 < cols.getD (tab.getD q2 0) 0)) :
    ∀ k, k < (lePositions mu tab r).length →
      minsPos mu ((lePositions mu tab r).getD k 0) ≤ k ∧
      (q0 < (lePositions mu tab r).getD k 0 →
        minsPos mu ((lePositions mu tab r).getD k 0) + 1 ≤ k) := by
  intro k hk
  obtain ⟨hjn, hjval⟩ := lePositions_getD_mem mu tab r k hk
  obtain ⟨hcj, hrrj, hcolj, hgj, hsj, hrowsj⟩ :=
    pos_decomp mu ((lePositions mu tab r).getD k 0) hjn
  have hjpos : posAt mu (compPos mu ((lePositions mu tab r).getD k 0))
      (rrPos mu ((lePositions mu tab r).getD k 0))
      (cPos mu ((lePositions mu tab r).getD k 0)) =
      (lePositions mu tab r).getD k 0 := posAt_decomp mu _ hjn
  have hmem : mu.getD (compPos mu ((lePositions mu tab r).getD k 0)) [] ∈ mu := by
    rw [List.getD_eq_getElem mu [] hcj]
    exact List.getElem_mem _
  have hsorted := (hmu _ hmem).2
  have hrowge : ∀ rrx, rrx ≤ rrPos mu ((lePositions mu tab r).getD k 0) →
      cPos mu ((lePositions mu tab r).getD k 0) <
        (mu.getD (compPos mu ((lePositions mu tab r).getD k 0)) []).getD rrx 0 :=
    fun rrx h => Nat.lt_of_lt_of_le hcolj
      (pairwise_ge_getD _ hsorted rrx _ h hrrj)
  have hstd := hinv.2.2.2.2.2
  have hJfl : ((lePositions mu tab r).filter fun x =>
      decide (x < (lePositions mu tab r).getD k 0)).length = k :=
    sorted_getD_filter_lt _ (lePositions_pairwise mu tab r) k hk
  have hmemJf : ∀ x, x < sizePT mu → tab.getD x 0 ≤ r →
      x < (lePositions mu tab r).getD k 0 →
      x ∈ (lePositions mu tab r).filter fun x2 =>
        decide (x2 < (lePositions mu tab r).getD k 0) := by
    intro x h1 h2 h3
    rw [List.mem_filter]
    exact ⟨(mem_lePositions mu tab r x).mpr ⟨h1, h2⟩, decide_eq_true h3⟩
  have habove_facts : ∀ rrx, rrx < rrPos mu ((lePositions mu tab r).getD k 0) →
      posAt mu (compPos mu ((lePositions mu tab r).getD k 0)) rrx
        (cPos mu ((lePositions mu tab r).getD k 0)) < sizePT mu ∧
      tab.getD (posAt mu (compPos mu ((lePositions mu tab r).getD k 0)) rrx
        (cPos mu ((lePositions mu tab r).getD k 0))) 0 ≤ r ∧
      posAt mu (compPos mu ((lePositions mu tab r).getD k 0)) rrx
        (cPos mu ((lePositions mu tab r).getD k 0)) <
        (lePositions mu tab r).getD k 0 := by
    intro rrx h
    have hrt := posAt_roundtrip mu _ rrx _ hcj (by omega) (hrowge rrx (by omega))
    have hchain := standard_col_chain mu hmu tab hstd _ hcj
      (rrPos mu ((lePositions mu tab r).getD k 0)) rrx
      (cPos mu ((lePositions mu tab r).getD k 0)) h hrrj hcolj
    rw [hjpos] at hchain
    refine ⟨hrt.1, by omega, ?_⟩
    conv_rhs => rw [← hjpos]
    exact posAt_mono mu _ rrx _ _ _ _ hcj (by omega) (hrowge rrx (by omega))
      (Or.inr (Or.inl ⟨rfl, h⟩))
  have hleft_facts : ∀ colx, colx < cPos mu ((lePositions mu tab r).getD k 0) →
      posAt mu (compPos mu ((lePositions mu tab r).getD k 0))
        (rrPos mu ((lePositions mu tab r).getD k 0)) colx < sizePT mu ∧
      tab.getD (posAt mu (compPos mu ((lePositions mu tab r).getD k 0))
        (rrPos mu ((lePositions mu tab r).getD k 0)) colx) 0 ≤ r ∧
      posAt mu (compPos mu ((lePositions mu tab r).getD k 0))
        (rrPos mu ((lePositions mu tab r).getD k 0)) colx <
        (lePositions mu tab r).getD k 0 := by
    intro colx h
    have hrt := posAt_roundtrip mu _ _ colx hcj hrrj (by omega)
    have hchain := standard_row_chain mu tab hstd _ _ hcj hrrj
      (cPos mu ((lePositions mu tab r).getD k 0)) colx h hcolj
    rw [hjpos] at hchain
    refine ⟨hrt.1, by omega, ?_⟩
    conv_rhs => rw [← hjpos]
    exact posAt_mono mu _ _ colx _ _ _ hcj hrrj (by omega)
      (Or.inr (Or.inr ⟨rfl, rfl, h⟩))
  have hApw : (((List.range (rrPos mu ((lePositions mu tab r).getD k 0))).map
      fun rrx => posAt mu (compPos mu ((lePositions mu tab r).getD k 0)) rrx
        (cPos mu ((lePositions mu tab r).getD k 0))) ++
      ((List.range (cPos mu ((lePositions mu tab r).getD k 0))).map
      fun colx => posAt mu (compPos mu ((lePositions mu tab r).getD k 0))
        (rrPos mu ((lePositions mu tab r).getD k 0)) colx)).Pairwise (· < ·) := by
    rw [List.pairwise_append]
    refine ⟨?_, ?_, ?_⟩
    · rw [List.pairwise_iff_getElem]
      intro i1 i2 h1 h2 hlt
      simp only [List.length_map, List.length_range] at h1 h2
      simp only [List.getElem_map, List.getElem_range]
      exact posAt_mono mu _ i1 _ _ i2 _ hcj (by omega)
        (hrowge i1 (by omega)) (Or.inr (Or.inl ⟨rfl, hlt⟩))
    · rw [List.pairwise_iff_getElem]
      intro i1 i2 h1 h2 hlt
      simp only [List.length_map, List.length_range] at h1 h2
      simp only [List.getElem_map, List.getElem_range]
      exact posAt_mono mu _ _ i1 _ _ i2 hcj hrrj (by omega)
        (Or.inr (Or.inr ⟨rfl, rfl, hlt⟩))
    · intro x hx y hy
      rw [List.mem_map] at hx hy
      obtain ⟨rrx, hrrx, rfl⟩ := hx
      obtain ⟨colx, hcolx, rfl⟩ := hy
      rw [List.mem_range] at hrrx hcolx
      exact posAt_mono mu _ rrx _ _ _ colx hcj (by omega)
        (hrowge rrx (by omega)) (Or.inr (Or.inl ⟨rfl, hrrx⟩))
  have hAsub : ∀ x ∈ ((List.range (rrPos mu ((lePositions mu tab r).getD k 0))).map
      fun rrx => posAt mu (compPos mu ((lePositions mu tab r).getD k 0)) rrx
        (cPos mu ((lePositions mu tab r).getD k 0))) ++
      ((List.range (cPos mu ((lePositions mu tab r).getD k 0))).map
      fun colx => posAt mu (compPos mu ((lePositions mu tab r).getD k 0))
        (rrPos mu ((lePositions mu tab r).getD k 0)) colx),
      x ∈ (lePositions mu tab r).filter fun x2 =>
        decide (x2 < (lePositions mu tab r).getD k 0) := by
    intro x hx
    rw [List.mem_append] at hx
    rcases hx with hx | hx
    · rw [List.mem_map] at hx
      obtain ⟨rrx, hrrx, rfl⟩ := hx
      rw [List.mem_range] at hrrx
      obtain ⟨h1, h2, h3⟩ := habove_facts rrx hrrx
      exact hmemJf _ h1 h2 h3
    · rw [List.mem_map] at hx
      obtain ⟨colx, hcolx, rfl⟩ := hx
      rw [List.mem_range] at hcolx
      obtain ⟨h1, h2, h3⟩ := hleft_facts colx hcolx
      exact hmemJf _ h1 h2 h3
  have hAlen : (((List.range (rrPos mu ((lePositions mu tab r).getD k 0))).map
      fun rrx => posAt mu (compPos mu ((lePositions mu tab r).getD k 0)) rrx
        (cPos mu ((lePositions mu tab r).getD k 0))) ++
      ((List.range (cPos mu ((lePositions mu tab r).getD k 0))).map
      fun colx => posAt mu (compPos mu ((lePositions mu tab r).getD k 0))
        (rrPos mu ((lePositions mu tab r).getD k 0)) colx)).length =
      minsPos mu ((lePositions mu tab r).getD k 0) := by
    rw [List.length_append, List.length_map, List.length_map,
      List.length_range, List.length_range]
    rfl
  constructor
  · have hsp := List.subperm_of_subset (pairwise_lt_nodup _ hApw) hAsub
    have := hsp.length_le
    rw [hAlen, hJfl] at this
    exact this
  · intro hq0j
    have hq0notA : q0 ∉ ((List.range (rrPos mu ((lePositions mu tab r).getD k 0))).map
        fun rrx => posAt mu (compPos mu ((lePositions mu tab r).getD k 0)) rrx
          (cPos mu ((lePositions mu tab r).getD k 0))) ++
        ((List.range (cPos mu ((lePositions mu tab r).getD k 0))).map
        fun colx => posAt mu (compPos mu ((lePositions mu tab r).getD k 0))
          (rrPos mu ((lePositions mu tab r).getD k 0)) colx) := by
      intro hmem2
      rw [List.mem_append] at hmem2
      rcases hmem2 with hx | hx
      · rw [List.mem_map] at hx
        obtain ⟨rrx, hrrx, hxeq⟩ := hx
        rw [List.mem_range] at hrrx
        have hrt := posAt_roundtrip mu _ rrx _ hcj (by omega) (hrowge rrx (by omega))
        have hbeta := step_beta_below mu hmu tab cols hinv r s q0 hscol hq0n hq0v
          hlast ((lePositions mu tab r).getD k 0) hjn
          (by rw [← hxeq, hrt.2.2.2.1]) (by rw [← hxeq, hrt.2.2.1])
          (by rw [← hxeq, hrt.2.2.2.2]; exact hrrx)
        omega
      · rw [List.mem_map] at hx
        obtain ⟨colx, hcolx, hxeq⟩ := hx
        rw [List.mem_range] at hcolx
        have hrt := posAt_roundtrip mu _ _ colx hcj hrrj (by omega)
        have hbeta := step_beta_right mu hmu tab cols hinv r s q0 hscol hq0n hq0v
          hlast ((lePositions mu tab r).getD k 0) hjn
          (by rw [← hxeq, hrt.2.2.2.1]) (by rw [← hxeq, hrt.2.2.2.2])
          (by rw [← hxeq, hrt.2.2.1]; exact hcolx)
        omega
    have hnodupB : (((List.range (rrPos mu ((lePositions mu tab r).getD k 0))).map
        fun rrx => posAt mu (compPos mu ((lePositions mu tab r).getD k 0)) rrx
          (cPos mu ((lePositions mu tab r).getD k 0))) ++
        ((List.range (cPos mu ((lePositions mu tab r).getD k 0))).map
        fun colx => posAt mu (compPos mu ((lePositions mu tab r).getD k 0))
          (rrPos mu ((lePositions mu tab r).getD k 0)) colx) ++ [q0]).Nodup := by
      rw [List.nodup_append]
      refine ⟨pairwise_lt_nodup _ hApw, List.nodup_singleton q0, ?_⟩
      intro x hxA hxB
      rw [List.mem_singleton] at hxB
      subst hxB
      exact hq0notA hxA
    have hBsub : ∀ x ∈ (((List.range (rrPos mu ((lePositions mu tab r).getD k 0))).map
        fun rrx => posAt mu (compPos mu ((lePositions mu tab r).getD k 0)) rrx
          (cPos mu ((lePositions mu tab r).getD k 0))) ++
        ((List.range (cPos mu ((lePositions mu tab r).getD k 0))).map
        fun colx => posAt mu (compPos mu ((lePositions mu tab r).getD k 0))
          (rrPos mu ((lePositions mu tab r).getD k 0)) colx) ++ [q0]),
        x ∈ (lePositions mu tab r).filter fun x2 =>
          decide (x2 < (lePositions mu tab r).getD k 0) := by
      intro x hx
      rw [List.mem_append] at hx
      rcases hx with hx | hx
      · exact hAsub x hx
      · rw [List.mem_singleton] at hx
        subst hx
        exact hmemJf _ hq0n (by rw [hq0v]; omega) hq0j
    have hsp := List.subperm_of_subset hnodupB hBsub
    have hle := hsp.length_le
    rw [List.length_append, hAlen, hJfl] at hle
    simpa using hle

theorem homePos_idx_lt (r qi t : Nat) (ht2 : t < r) :
    (if t - 1 < qi then t - 1 else t) < r := by
  by_cases h : t - 1 < qi
  · rw [if_pos h]; omega
  · rw [if_neg h]; omega

theorem homePos_valid (mu : List (List Nat)) (tab : List Nat) (r qi t : Nat)
    (hJr : (lePositions mu tab r).length = r) (ht2 : t < r) :
    homePos mu tab r qi t < sizePT mu ∧
    tab.getD (homePos mu tab r qi t) 0 ≤ r := by
  unfold homePos
  exact lePositions_getD_mem mu tab r _ (by rw [hJr]; exact homePos_idx_lt r qi t ht2)

theorem homePos_mono (mu : List (List Nat)) (tab : List Nat) (r qi : Nat)
    (hJr : (lePositions mu tab r).length = r) (hqir : qi < r)
    (t2 t3 : Nat) (h1 : 1 ≤ t2) (h2 : t2 < t3) (h3 : t3 < r) :
    homePos mu tab r qi t2 < homePos mu tab r qi t3 := by
  unfold homePos
  have hidx : (if t2 - 1 < qi then t2 - 1 else t2) <
      (if t3 - 1 < qi then t3 - 1 else t3) := by
    by_cases ha : t2 - 1 < qi
    · rw [if_pos ha]
      by_cases hb : t3 - 1 < qi
      · rw [if_pos hb]; omega
      · rw [if_neg hb]; omega
    · rw [if_neg ha]
      rw [if_neg (by omega)]
      omega
  exact pairwise_lt_getD _ (lePositions_pairwise mu tab r) _ _ hidx
    (by rw [hJr]; exact homePos_idx_lt r qi t3 h3)

theorem homePos_ne_swap (mu : List (List Nat)) (tab : List Nat) (r qi t : Nat)
    (hJr : (lePositions mu tab r).length = r) (hqir : qi < r)
    (ht1 : 1 ≤ t) (ht2 : t < r) :
    homePos mu tab r qi t ≠ (lePositions mu tab r).getD qi 0 := by
  unfold homePos
  by_cases h : t - 1 < qi
  · rw [if_pos h]
    intro heq
    have := pairwise_lt_getD _ (lePositions_pairwise mu tab r) (t - 1) qi h
      (by omega)
    omega
  · rw [if_neg h]
    intro heq
    have := pairwise_lt_getD _ (lePositions_pairwise mu tab r) qi t (by omega)
      (by omega)
    omega

theorem homePos_mins (mu : List (List Nat)) (tab : List Nat) (r qi : Nat)
    (hJr : (lePositions mu tab r).length = r) (hqir : qi < r)
    (hmins : ∀ k, k < (lePositions mu tab r).length →
      minsPos mu ((lePositions mu tab r).getD k 0) ≤ k ∧
      ((lePositions mu tab r).getD qi 0 < (lePositions mu tab r).getD k 0 →
        minsPos mu ((lePositions mu tab r).getD k 0) + 1 ≤ k))
    (t : Nat) (ht1 : 1 ≤ t) (ht2 : t < r) :
    minsPos mu (homePos mu tab r qi t) < t := by
  unfold homePos
  by_cases h : t - 1 < qi
  · rw [if_pos h]
    have := (hmins (t - 1) (by omega)).1
    omega
  · rw [if_neg h]
    have hq0lt : (lePositions mu tab r).getD qi 0 <
        (lePositions mu tab r).getD t 0 :=
      pairwise_lt_getD _ (lePositions_pairwise mu tab r) qi t (by omega) (by omega)
    have := (hmins t (by omega)).2 hq0lt
    omega

theorem homePos_cover (mu : List (List Nat)) (tab : List Nat) (r qi : Nat)
    (hJr : (lePositions mu tab r).length = r) (hqir : qi < r)
    (t : Nat) (ht1 : 1 ≤ t) (ht2 : t < r)
    (i : Nat) (hiJ : i ∈ lePositions mu tab r)
    (hine : i ≠ (lePositions mu tab r).getD qi 0)
    (hilt : i < homePos mu tab r qi t) :
    ∃ t3, 1 ≤ t3 ∧ t3 < t ∧ i = homePos mu tab r qi t3 := by
  have hidxlt : (if t - 1 < qi then t - 1 else t) < (lePositions mu tab r).length := by
    rw [hJr]; exact homePos_idx_lt r qi t ht2
  obtain ⟨k2, hk2, hk2v⟩ := sorted_mem_lt _ (lePositions_pairwise mu tab r) _
    hidxlt i hiJ hilt
  have hk2ne : k2 ≠ qi := by
    intro heq
    rw [heq] at hk2v
    exact hine hk2v.symm
  rcases Nat.lt_or_ge k2 qi with hlt | hge
  · refine ⟨k2 + 1, by omega, ?_, ?_⟩
    · by_cases h : t - 1 < qi
      · rw [if_pos h] at hk2
        omega
      · rw [if_neg h] at hk2
        omega
    · unfold homePos
      rw [if_pos (by omega)]
      rw [show k2 + 1 - 1 = k2 by omega]
      exact hk2v.symm
  · have hgt : qi < k2 := by omega
    refine ⟨k2, by omega, ?_, ?_⟩
    · by_cases h : t - 1 < qi
      · rw [if_pos h] at hk2
        omega
      · rw [if_neg h] at hk2
        omega
    · unfold homePos
      rw [if_neg (by omega)]
      exact hk2v.symm

theorem findSpot_eq_home (mu : List (List Nat)) (tab cols : List Nat)
    (htlen : tab.length = sizePT mu) (r qi : Nat)
    (hJr : (lePositions mu tab r).length = r) (hqir : qi < r)
    (hmins2 : ∀ t2, 1 ≤ t2 → t2 < r → minsPos mu (homePos mu tab r qi t2) < t2)
    (t : Nat) (ht1 : 1 ≤ t) (ht2 : t < r)
    (changed : List Int)
    (hfwd : ∀ x : Int, x ∈ changed → x = -1 ∨
      x = (((lePositions mu tab r).getD qi 0 : Nat) : Int) ∨
      ∃ t2, 1 ≤ t2 ∧ t2 < t ∧ x = ((homePos mu tab r qi t2 : Nat) : Int))
    (hbq0 : (((lePositions mu tab r).getD qi 0 : Nat) : Int) ∈ changed)
    (hbh : ∀ t2, 1 ≤ t2 → t2 < t →
      ((homePos mu tab r qi t2 : Nat) : Int) ∈ changed) :
    findSpot tab (minsOf mu) changed t r = some (homePos mu tab r qi t) := by
  have hhv := homePos_valid mu tab r qi t hJr ht2
  unfold findSpot
  refine find?_range _ tab.length (homePos mu tab r qi t) (by omega) ?_ ?_
  · rw [decide_eq_true_eq]
    intro hcon
    rcases hcon with hc | hc | hc
    · rw [minsOf_getD mu _ hhv.1] at hc
      have := hmins2 t ht1 ht2
      omega
    · omega
    · rcases hfwd _ hc with h1 | h1 | h1
      · omega
      · have := homePos_ne_swap mu tab r qi t hJr hqir ht1 ht2
        rw [Int.natCast_inj] at h1
        exact this h1
      · obtain ⟨t2, ha, hb, hc2⟩ := h1
        rw [Int.natCast_inj] at hc2
        have := homePos_mono mu tab r qi hJr hqir t2 t ha hb ht2
        omega
  · intro i hi
    rw [decide_eq_false_iff_not]
    intro hcon
    push_neg at hcon
    obtain ⟨hm, htab, hch⟩ := hcon
    have hiJ : i ∈ lePositions mu tab r := by
      rw [mem_lePositions]
      exact ⟨by omega, by omega⟩
    by_cases hiq : i = (lePositions mu tab r).getD qi 0
    · subst hiq
      exact hch hbq0
    · obtain ⟨t3, h1, h2, h3⟩ := homePos_cover mu tab r qi hJr hqir t ht1 ht2
        i hiJ hiq hi
      rw [h3] at hch
      exact hch (hbh t3 h1 (by omega))

theorem getD_replicate_gen {α : Type} (m q : Nat) (v d : α) (hq : q < m) :
    (List.replicate m v).getD q d = v := by
  rw [List.getD_eq_getElem _ _ (by rw [List.length_replicate]; exact hq)]
  exact List.getElem_replicate v _

theorem placeLoop_spec (mu : List (List Nat)) (tab cols : List Nat)
    (htlen : tab.length = sizePT mu) (hclen : cols.length = sizePT mu + 1)
    (hcolsinv : ∀ i, i < sizePT mu → cols.getD (tab.getD i 0) 0 = colIndex mu i)
    (r qi : Nat) (hrn : r ≤ sizePT mu)
    (hJr : (lePositions mu tab r).length = r) (hqir : qi < r)
    (hmins2 : ∀ t2, 1 ≤ t2 → t2 < r → minsPos mu (homePos mu tab r qi t2) < t2)
    (v0 : Nat) :
    ∀ cnt t0, 1 ≤ t0 → t0 + cnt = r →
    ∀ (ntab ncols : List Nat) (changed : List Int),
    ntab.length = sizePT mu → ncols.length = sizePT mu + 1 →
    changed.length = r →
    changed.getD (r - 1) 0 = (((lePositions mu tab r).getD qi 0 : Nat) : Int) →
    (∀ t2, 1 ≤ t2 → t2 < t0 →
      changed.getD (t2 - 1) 0 = ((homePos mu tab r qi t2 : Nat) : Int)) →
    (∀ k2, t0 - 1 ≤ k2 → k2 < r - 1 → changed.getD k2 0 = -1) →
    (∀ i, i < sizePT mu →
      (i = (lePositions mu tab r).getD qi 0 → ntab.getD i 0 = r) ∧
      (∀ t2, 1 ≤ t2 → t2 < t0 → i = homePos mu tab r qi t2 →
        ntab.getD i 0 = t2) ∧
      (i ≠ (lePositions mu tab r).getD qi 0 →
        (∀ t2, 1 ≤ t2 → t2 < t0 → i ≠ homePos mu tab r qi t2) →
        ntab.getD i 0 = tab.getD i 0)) →
    (∀ t2, 1 ≤ t2 → t2 < t0 →
      ncols.getD t2 0 = colIndex mu (homePos mu tab r qi t2)) →
    (∀ m, m ≠ r → (∀ t2, 1 ≤ t2 → t2 < t0 → m ≠ t2) →
      ncols.getD m 0 = cols.getD m 0) →
    ncols.getD r 0 = v0 →
    ∃ tb cl, placeLoop tab cols (minsOf mu) r (List.range' t0 cnt)
        ntab ncols changed = some (tb, cl) ∧
      tb.length = sizePT mu ∧ cl.length = sizePT mu + 1 ∧
      (∀ i, i < sizePT mu →
        (i = (lePositions mu tab r).getD qi 0 → tb.getD i 0 = r) ∧
        (∀ t2, 1 ≤ t2 → t2 < r → i = homePos mu tab r qi t2 →
          tb.getD i 0 = t2) ∧
        (i ≠ (lePositions mu tab r).getD qi 0 →
          (∀ t2, 1 ≤ t2 → t2 < r → i ≠ homePos mu tab r qi t2) →
          tb.getD i 0 = tab.getD i 0)) ∧
      (∀ t2, 1 ≤ t2 → t2 < r →
        cl.getD t2 0 = colIndex mu (homePos mu tab r qi t2)) ∧
      (∀ m, m ≠ r → (∀ t2, 1 ≤ t2 → t2 < r → m ≠ t2) →
        cl.getD m 0 = cols.getD m 0) ∧
      cl.getD r 0 = v0 := by
  intro cnt
  induction cnt with
  | zero =>
    intro t0 ht0 htr ntab ncols changed hntl hncl hchl hch1 hch2 hch3 hntd hncd1
      hncd2 hncr
    have ht0r : t0 = r := by omega
    subst ht0r
    refine ⟨ntab, ncols, rfl, hntl, hncl, ?_, ?_, ?_, hncr⟩
    · intro i hi
      exact hntd i hi
    · exact hncd1
    · exact hncd2
  | succ cnt ih =>
    intro t0 ht0 htr ntab ncols changed hntl hncl hchl hch1 hch2 hch3 hntd hncd1
      hncd2 hncr
    have ht0r : t0 < r := by omega
    have hhv := homePos_valid mu tab r qi t0 hJr ht0r
    have hfs : findSpot tab (minsOf mu) changed t0 r =
        some (homePos mu tab r qi t0) := by
      refine findSpot_eq_home mu tab cols htlen r qi hJr hqir hmins2 t0 ht0 ht0r
        changed ?_ ?_ ?_
      · intro x hx
        obtain ⟨k, hk, hkv⟩ := (mem_iff_getD_int changed x).mp hx
        rw [hchl] at hk
        rcases Nat.lt_or_ge k (t0 - 1) with hlt | hge
        · right; right
          exact ⟨k + 1, by omega, by omega,
            by rw [← hch2 (k + 1) (by omega) (by omega),
              show k + 1 - 1 = k by omega, hkv]⟩
        · by_cases hkr : k = r - 1
          · right; left
            subst hkr
            rw [← hch1]
            exact hkv.symm
          · left
            rw [← hch3 k (by omega) (by omega)]
            exact hkv.symm
      · rw [← hch1]
        refine (mem_iff_getD_int changed _).mpr ⟨r - 1, by omega, rfl⟩
      · intro t2 h1 h2
        rw [← hch2 t2 h1 h2]
        refine (mem_iff_getD_int changed _).mpr ⟨t2 - 1, by omega, rfl⟩
    have hq0n : (lePositions mu tab r).getD qi 0 < sizePT mu :=
      (lePositions_getD_mem mu tab r qi (by omega)).1
    obtain ⟨tb, cl, hrun, hres1, hres2, hres3, hres4, hres5, hres6⟩ :=
      ih (t0 + 1) (by omega) (by omega)
        (ntab.set (homePos mu tab r qi t0) t0)
        (ncols.set t0 (cols.getD (tab.getD (homePos mu tab r qi t0) 0) 0))
        (changed.set (t0 - 1) ((homePos mu tab r qi t0 : Nat) : Int))
        (by rw [List.length_set]; exact hntl)
        (by rw [List.length_set]; exact hncl)
        (by rw [List.length_set]; exact hchl)
        (by rw [getD_set_ne _ _ _ _ _ (by omega)]; exact hch1)
        (by
          intro t2 h1 h2
          rcases Nat.lt_or_ge t2 t0 with hlt | hge
          · rw [getD_set_ne _ _ _ _ _ (by omega)]
            exact hch2 t2 h1 hlt
          · have ht2e : t2 = t0 := by omega
            subst ht2e
            rw [getD_set_self _ _ _ _ (by rw [hchl]; omega)])
        (by
          intro k2 hk1 hk2
          rw [getD_set_ne _ _ _ _ _ (by omega)]
          exact hch3 k2 (by omega) hk2)
        (by
          intro i hi
          refine ⟨?_, ?_, ?_⟩
          · intro hiq
            rw [getD_set_ne _ _ _ _ _ (by
              intro heq
              exact (homePos_ne_swap mu tab r qi t0 hJr hqir ht0 ht0r)
                (by rw [heq, hiq]))]
            exact (hntd i hi).1 hiq
          · intro t2 h1 h2 hih
            rcases Nat.lt_or_ge t2 t0 with hlt | hge
            · rw [getD_set_ne _ _ _ _ _ (by
                intro heq
                have := homePos_mono mu tab r qi hJr hqir t2 t0 h1 hlt ht0r
                rw [hih] at heq
                omega)]
              exact (hntd i hi).2.1 t2 h1 hlt hih
            · have ht2e : t2 = t0 := by omega
              subst ht2e
              rw [hih, getD_set_self _ _ _ _ (by rw [hntl]; exact hhv.1)]
          · intro hne hnh
            rw [getD_set_ne _ _ _ _ _ (by
              intro heq
              exact hnh t0 ht0 (by omega) heq.symm)]
            exact (hntd i hi).2.2 hne
              (fun t2 h1 h2 => hnh t2 h1 (by omega))
        )
        (by
          intro t2 h1 h2
          rcases Nat.lt_or_ge t2 t0 with hlt | hge
          · rw [getD_set_ne _ _ _ _ _ (by omega)]
            exact hncd1 t2 h1 hlt
          · have ht2e : t2 = t0 := by omega
            subst ht2e
            rw [getD_set_self _ _ _ _ (by rw [hncl]; omega)]
            exact hcolsinv _ hhv.1)
        (by
          intro m hm1 hm2
          rw [getD_set_ne _ _ _ _ _ (by
            intro heq
            exact hm2 t0 ht0 (by omega) heq.symm)]
          exact hncd2 m hm1 (fun t2 h1 h2 => hm2 t2 h1 (by omega)))
        (by
          rw [getD_set_ne _ _ _ _ _ (by omega)]
          exact hncr)
    refine ⟨tb, cl, ?_, hres1, hres2, hres3, hres4, hres5, hres6⟩
    rw [List.range'_succ]
    simp only [placeLoop]
    rw [hfs]
    exact hrun

theorem range_map_succ_eq (n : Nat) :
    (List.range n).map (· + 1) = List.range' 1 n := by
  rw [List.range'_eq_map_range]
  refine List.map_congr_left ?_
  intro a _
  omega

theorem countP_positions (l : List Nat) (p : Nat → Bool) :
    l.countP p = ((List.range l.length).filter fun i => p (l.getD i 0)).length := by
  rw [List.countP_eq_length_filter]
  conv_lhs => rw [← map_getD_range l 0]
  rw [List.filter_map, List.length_map]
  rfl

theorem length_le_one_of_all_eq (L : List Nat) (i0 : Nat) (hnd : L.Nodup)
    (hall : ∀ x ∈ L, x = i0) : L.length ≤ 1 := by
  cases L with
  | nil => simp
  | cons x ys =>
    cases ys with
    | nil => simp
    | cons y zs =>
      have hx : x = i0 := hall x (by simp)
      have hy : y = i0 := hall y (by simp)
      rw [List.nodup_cons] at hnd
      exact absurd (by rw [hx, hy]; simp : x ∈ y :: zs) hnd.1

theorem count_one_of_unique (l : List Nat) (a i0 : Nat) (hi0 : i0 < l.length)
    (hv : l.getD i0 0 = a)
    (huniq : ∀ i, i < l.length → l.getD i 0 = a → i = i0) : l.count a = 1 := by
  have h1 : l.count a = ((List.range l.length).filter
      fun i => decide (l.getD i 0 = a)).length := by
    rw [List.count]
    rw [countP_positions l (· == a)]
    refine congrArg List.length (List.filter_congr ?_)
    intro x _
    refine Bool.eq_iff_iff.mpr ?_
    rw [beq_iff_eq, decide_eq_true_eq]
  rw [h1]
  have hnd : ((List.range l.length).filter
      fun i => decide (l.getD i 0 = a)).Nodup :=
    pairwise_lt_nodup _ (filter_range_pairwise _ _)
  have hmem : i0 ∈ (List.range l.length).filter
      fun i => decide (l.getD i 0 = a) := by
    rw [List.mem_filter, List.mem_range]
    exact ⟨hi0, decide_eq_true hv⟩
  have hall : ∀ x ∈ (List.range l.length).filter
      fun i => decide (l.getD i 0 = a), x = i0 := by
    intro x hx
    rw [List.mem_filter, List.mem_range] at hx
    exact huniq x hx.1 (of_decide_eq_true hx.2)
  have hle := length_le_one_of_all_eq _ i0 hnd hall
  have hge : 1 ≤ ((List.range l.length).filter
      fun i => decide (l.getD i 0 = a)).length := by
    rcases hcase : (List.range l.length).filter
        fun i => decide (l.getD i 0 = a) with _ | ⟨z, zs⟩
    · rw [hcase] at hmem
      simp at hmem
    · rw [List.length_cons]
      omega
  omega

theorem homePos_surj (mu : List (List Nat)) (tab : List Nat) (r qi : Nat)
    (hJr : (lePositions mu tab r).length = r) (hqir : qi < r)
    (i : Nat) (hiJ : i ∈ lePositions mu tab r)
    (hine : i ≠ (lePositions mu tab r).getD qi 0) :
    ∃ t2, 1 ≤ t2 ∧ t2 < r ∧ i = homePos mu tab r qi t2 := by
  obtain ⟨k, hk, hkv⟩ := (mem_iff_getD _ i).mp hiJ
  rw [hJr] at hk
  have hkne : k ≠ qi := by
    intro heq
    rw [heq] at hkv
    exact hine hkv.symm
  rcases Nat.lt_or_ge k qi with hlt | hge
  · refine ⟨k + 1, by omega, by omega, ?_⟩
    unfold homePos
    rw [if_pos (by omega), show k + 1 - 1 = k by omega]
    exact hkv.symm
  · refine ⟨k, by omega, by omega, ?_⟩
    unfold homePos
    rw [if_neg (by omega)]
    exact hkv.symm

theorem homePos_lt_iff (mu : List (List Nat)) (tab : List Nat) (r qi : Nat)
    (hJr : (lePositions mu tab r).length = r) (hqir : qi < r)
    (t2 t3 : Nat) (h1 : 1 ≤ t2) (h2 : 1 ≤ t3) (h3 : t2 < r) (h4 : t3 < r)
    (hlt : homePos mu tab r qi t2 < homePos mu tab r qi t3) : t2 < t3 := by
  by_contra h
  push_neg at h
  rcases Nat.eq_or_lt_of_le h with heq | hgt
  · rw [heq] at hlt
    omega
  · have := homePos_mono mu tab r qi hJr hqir t3 t2 h2 hgt h3
    omega

theorem newInv_of_descs (mu : List (List Nat)) (hmu : IsPartitionTuple mu)
    (tab cols : List Nat) (hinv : IterInv mu tab cols) (r qi : Nat)
    (hr2 : 2 ≤ r) (hrn : r ≤ sizePT mu)
    (hJr : (lePositions mu tab r).length = r) (hqir : qi < r)
    (hbR : ∀ j, j < sizePT mu →
      compPos mu j = compPos mu ((lePositions mu tab r).getD qi 0) →
      rrPos mu j = rrPos mu ((lePositions mu tab r).getD qi 0) →
      cPos mu ((lePositions mu tab r).getD qi 0) < cPos mu j →
      r < tab.getD j 0)
    (hbB : ∀ j, j < sizePT mu →
      compPos mu j = compPos mu ((lePositions mu tab r).getD qi 0) →
      cPos mu j = cPos mu ((lePositions mu tab r).getD qi 0) →
      rrPos mu ((lePositions mu tab r).getD qi 0) < rrPos mu j →
      r < tab.getD j 0)
    (tb cl : List Nat)
    (htbl : tb.length = sizePT mu) (hcll : cl.length = sizePT mu + 1)
    (htbd : ∀ i, i < sizePT mu →
      (i = (lePositions mu tab r).getD qi 0 → tb.getD i 0 = r) ∧
      (∀ t2, 1 ≤ t2 → t2 < r → i = homePos mu tab r qi t2 → tb.getD i 0 = t2) ∧
      (i ≠ (lePositions mu tab r).getD qi 0 →
        (∀ t2, 1 ≤ t2 → t2 < r → i ≠ homePos mu tab r qi t2) →
        tb.getD i 0 = tab.getD i 0))
    (hcld1 : ∀ t2, 1 ≤ t2 → t2 < r →
      cl.getD t2 0 = colIndex mu (homePos mu tab r qi t2))
    (hcld2 : ∀ m, m ≠ r → (∀ t2, 1 ≤ t2 → t2 < r → m ≠ t2) →
      cl.getD m 0 = cols.getD m 0)
    (hclr : cl.getD r 0 = colIndex mu ((lePositions mu tab r).getD qi 0)) :
    IterInv mu tb cl := by
  obtain ⟨htlen, hclen, hc00, hperm, hcolsI, hstd⟩ := hinv
  have hq0n : (lePositions mu tab r).getD qi 0 < sizePT mu :=
    (lePositions_getD_mem mu tab r qi (by omega)).1
  have hq0J : tab.getD ((lePositions mu tab r).getD qi 0) 0 ≤ r :=
    (lePositions_getD_mem mu tab r qi (by omega)).2
  have hnd : tab.Nodup := hperm.nodup_iff.mpr (initTab_nodup mu)
  have hmemt : ∀ m, m ∈ tab ↔ 1 ≤ m ∧ m ≤ sizePT mu := by
    intro m
    rw [hperm.mem_iff, mem_initTab]
  have hclass : ∀ i, i < sizePT mu →
      i = (lePositions mu tab r).getD qi 0 ∨
      (∃ t2, 1 ≤ t2 ∧ t2 < r ∧ i = homePos mu tab r qi t2) ∨
      (r < tab.getD i 0 ∧ tb.getD i 0 = tab.getD i 0) := by
    intro i hi
    by_cases h1 : i = (lePositions mu tab r).getD qi 0
    · exact Or.inl h1
    · by_cases h2 : tab.getD i 0 ≤ r
      · refine Or.inr (Or.inl ?_)
        exact homePos_surj mu tab r qi hJr hqir i
          ((mem_lePositions mu tab r i).mpr ⟨hi, h2⟩) h1
      · refine Or.inr (Or.inr ⟨by omega, ?_⟩)
        refine (htbd i hi).2.2 h1 ?_
        intro t2 ha hb heq
        have := (homePos_valid mu tab r qi t2 hJr hb).2
        rw [← heq] at this
        omega
  have hentval : ∀ i, i < sizePT mu → 1 ≤ tab.getD i 0 ∧
      tab.getD i 0 ≤ sizePT mu := by
    intro i hi
    have : tab.getD i 0 ∈ tab := getD_mem tab i (by omega)
    rw [hmemt] at this
    exact this
  have hval_lt : ∀ i i2, i < sizePT mu → i2 < sizePT mu → i < i2 →
      tab.getD i 0 < tab.getD i2 0 →
      (i = (lePositions mu tab r).getD qi 0 → r < tab.getD i2 0) →
      tb.getD i 0 < tb.getD i2 0 := by
    intro i i2 hi hi2 hlt hold hbeta
    rcases hclass i hi with hA | ⟨a, ha1, ha2, ha3⟩ | ⟨hA, hAv⟩
    · -- i is the swap position: value r
      have hv1 : tb.getD i 0 = r := (htbd i hi).1 hA
      rcases hclass i2 hi2 with hB | ⟨b, hb1, hb2, hb3⟩ | ⟨hB, hBv⟩
      · rw [hA, hB] at hlt
        omega
      · have := (homePos_valid mu tab r qi b hJr hb2).2
        rw [← hb3] at this
        have := hbeta hA
        omega
      · have hv2 : tb.getD i2 0 = tab.getD i2 0 := hBv
        omega
    · have hv1 : tb.getD i 0 = a := (htbd i hi).2.1 a ha1 ha2 ha3
      rcases hclass i2 hi2 with hB | ⟨b, hb1, hb2, hb3⟩ | ⟨hB, hBv⟩
      · have hv2 : tb.getD i2 0 = r := (htbd i2 hi2).1 hB
        omega
      · have hv2 : tb.getD i2 0 = b := (htbd i2 hi2).2.1 b hb1 hb2 hb3
        have hab : a < b := by
          refine homePos_lt_iff mu tab r qi hJr hqir a b ha1 hb1 ha2 hb2 ?_
          rw [← ha3, ← hb3]
          exact hlt
        omega
      · have hv2 : tb.getD i2 0 = tab.getD i2 0 := hBv
        omega
    · -- tab[i] > r: old standard forces tab[i2] > tab[i] > r, so i2 untouched
      have hv1 : tb.getD i 0 = tab.getD i 0 := hAv
      rcases hclass i2 hi2 with hB | ⟨b, hb1, hb2, hb3⟩ | ⟨hB, hBv⟩
      · rw [hB] at hold
        omega
      · have := (homePos_valid mu tab r qi b hJr hb2).2
        rw [← hb3] at this
        omega
      · have hv2 : tb.getD i2 0 = tab.getD i2 0 := hBv
        omega
  refine ⟨htbl, hcll, ?_, ?_, ?_, ?_⟩
  · -- cl[0] = 0
    rw [hcld2 0 (by omega) (fun t2 h1 _ => by omega)]
    exact hc00
  · -- permutation
    rw [List.perm_iff_count]
    intro a
    by_cases han : 1 ≤ a ∧ a ≤ sizePT mu
    · have hinit : (initTab mu).count a = 1 := by
        refine count_one_of_unique _ a (a - 1)
          (by rw [initTab_length]; omega)
          (by rw [initTab_getD mu (a - 1) (by omega)]; omega) ?_
        intro i hi hv
        rw [initTab_length] at hi
        rw [initTab_getD mu i hi] at hv
        omega
      rw [hinit]
      rcases Nat.lt_trichotomy a r with hlt | heq | hgt
      · -- a < r: unique position homePos a
        refine count_one_of_unique _ a (homePos mu tab r qi a)
          (by rw [htbl]; exact (homePos_valid mu tab r qi a hJr hlt).1)
          ((htbd _ (homePos_valid mu tab r qi a hJr hlt).1).2.1 a
            (by omega) hlt rfl) ?_
        intro i hi hv
        rw [htbl] at hi
        rcases hclass i hi with hA | ⟨b, hb1, hb2, hb3⟩ | ⟨hA, hAv⟩
        · rw [(htbd i hi).1 hA] at hv
          omega
        · rw [(htbd i hi).2.1 b hb1 hb2 hb3] at hv
          rw [hv] at hb3
          exact hb3
        · rw [hAv] at hv
          omega
      · -- a = r: unique position is the swap position
        refine count_one_of_unique _ a ((lePositions mu tab r).getD qi 0)
          (by rw [htbl]; exact hq0n)
          (by rw [(htbd _ hq0n).1 rfl, heq]) ?_
        intro i hi hv
        rw [htbl] at hi
        rcases hclass i hi with hA | ⟨b, hb1, hb2, hb3⟩ | ⟨hA, hAv⟩
        · exact hA
        · rw [(htbd i hi).2.1 b hb1 hb2 hb3] at hv
          omega
        · rw [hAv] at hv
          omega
      · -- a > r: unique position is the old position of a
        have hamem : a ∈ tab := (hmemt a).mpr ⟨by omega, by omega⟩
        obtain ⟨hidx, hidxv⟩ := indexOf_spec tab a hamem
        have huntouched : tb.getD (tab.indexOf a) 0 = a := by
          rcases hclass (tab.indexOf a) (by omega) with hA | ⟨b, hb1, hb2, hb3⟩ |
            ⟨hA, hAv⟩
          · rw [hA] at hidxv
            rw [hidxv] at hq0J
            omega
          · have := (homePos_valid mu tab r qi b hJr hb2).2
            rw [← hb3, hidxv] at this
            omega
          · rw [hAv]
            exact hidxv
        refine count_one_of_unique _ a (tab.indexOf a) (by omega) huntouched ?_
        intro i hi hv
        rw [htbl] at hi
        rcases hclass i hi with hA | ⟨b, hb1, hb2, hb3⟩ | ⟨hA, hAv⟩
        · rw [(htbd i hi).1 hA] at hv
          omega
        · rw [(htbd i hi).2.1 b hb1 hb2 hb3] at hv
          omega
        · rw [hAv] at hv
          exact (indexOf_unique tab hnd i a (by omega) hv).symm
    · -- a outside 1..n occurs in neither list
      have h1 : (initTab mu).count a = 0 := by
        rw [List.count_eq_zero]
        rw [mem_initTab]
        omega
      have h2 : tb.count a = 0 := by
        rw [List.count_eq_zero]
        intro hmem2
        obtain ⟨i, hi, hiv⟩ := (mem_iff_getD tb a).mp hmem2
        rw [htbl] at hi
        rcases hclass i hi with hA | ⟨b, hb1, hb2, hb3⟩ | ⟨hA, hAv⟩
        · rw [(htbd i hi).1 hA] at hiv
          omega
        · rw [(htbd i hi).2.1 b hb1 hb2 hb3] at hiv
          omega
        · rw [hAv] at hiv
          have := hentval i hi
          omega
      rw [h1, h2]
  · -- the cols clause
    intro i hi
    rcases hclass i hi with hA | ⟨b, hb1, hb2, hb3⟩ | ⟨hA, hAv⟩
    · rw [(htbd i hi).1 hA, hclr, hA]
    · rw [(htbd i hi).2.1 b hb1 hb2 hb3, hcld1 b hb1 hb2, hb3]
    · rw [hAv, hcld2 (tab.getD i 0) (by omega) (fun t2 h1 h2 => by omega)]
      exact hcolsI i hi
  · -- standardness
    intro i hi
    obtain ⟨hci, hrri, hcoli, hgi, hsi, hrowsi⟩ := pos_decomp mu i hi
    constructor
    · intro hright
      unfold hasRight at hright
      have hrt := posAt_roundtrip mu (compPos mu i) (rrPos mu i) (cPos mu i + 1)
        hci hrri (by rw [← hrowsi]; exact hright)
      have hip1 : posAt mu (compPos mu i) (rrPos mu i) (cPos mu i + 1) = i + 1 := by
        unfold posAt
        rw [← hgi]
        omega
      refine hval_lt i (i + 1) hi (by rw [← hip1]; exact hrt.1) (by omega)
        ((hstd i hi).1 hright) ?_
      intro hA
      refine hbR (i + 1) (by rw [← hip1]; exact hrt.1) ?_ ?_ ?_
      · rw [← hip1, hrt.2.2.2.1, hA]
      · rw [← hip1, hrt.2.2.2.2, hA]
      · rw [← hip1, hrt.2.2.1, ← hA]
        omega
    · intro hbelow
      unfold hasBelow at hbelow
      obtain ⟨hb1, hb2⟩ := hbelow
      have hrow2 : cPos mu i < (mu.getD (compPos mu i) []).getD (rrPos mu i + 1) 0 := by
        rw [hgi] at hb2
        rw [show psum (lensOf mu) (compPos mu i) + rrPos mu i + 1 =
          psum (lensOf mu) (compPos mu i) + (rrPos mu i + 1) by omega] at hb2
        rw [← rowsOf_getD mu _ _ hci hb1]
        exact hb2
      have hrt := posAt_roundtrip mu (compPos mu i) (rrPos mu i + 1) (cPos mu i)
        hci hb1 hrow2
      have hbp : posAt mu (compPos mu i) (rrPos mu i + 1) (cPos mu i) =
          belowPos mu i := by
        have hglt : gPos mu i < (rowsOf mu).length := by
          rw [hgi]
          exact gRow_lt mu _ _ hci hrri
        unfold belowPos posAt
        rw [show psum (lensOf mu) (compPos mu i) + (rrPos mu i + 1) =
          gPos mu i + 1 by omega, psum_succ (rowsOf mu) _ hglt]
        omega
      have hblt : i < belowPos mu i := by
        unfold belowPos
        rw [hrowsi]
        omega
      refine hval_lt i (belowPos mu i) hi (by rw [← hbp]; exact hrt.1) hblt
        ((hstd i hi).2 ⟨hb1, hb2⟩) ?_
      intro hA
      refine hbB (belowPos mu i) (by rw [← hbp]; exact hrt.1) ?_ ?_ ?_
      · rw [← hbp, hrt.2.2.2.1, hA]
      · rw [← hbp, hrt.2.2.1, hA]
      · rw [← hbp, hrt.2.2.2.2, ← hA]
        omega

theorem iterStep_cases (mu : List (List Nat)) (hmu : IsPartitionTuple mu)
    (tab cols : List Nat) (hinv : IterInv mu tab cols) :
    iterStep mu tab cols = StepRes.stop ∨
    ∃ tb cl r2, iterStep mu tab cols = StepRes.next tb cl ∧ IterInv mu tb cl ∧
      2 ≤ r2 ∧ r2 ≤ sizePT mu ∧ cols.getD r2 0 < cl.getD r2 0 ∧
      (∀ m, r2 < m → cl.getD m 0 = cols.getD m 0) := by
  obtain ⟨htlen, hclen, hc00, hperm, hcolsI, hstd⟩ := hinv
  have hinv2 : IterInv mu tab cols := ⟨htlen, hclen, hc00, hperm, hcolsI, hstd⟩
  obtain ⟨hfd1, hfd2, hfd3⟩ := findDescent_props cols cols.length 1 (by omega)
    (by rw [hclen]; omega) (by omega)
  set r := findDescent cols 1 with hrdef
  by_cases hstop : r = cols.length
  · left
    unfold iterStep
    simp only []
    rw [← hrdef, if_pos hstop]
  · right
    have hfdlt : r < cols.length := by omega
    have hdesc2 := hfd3 hfdlt
    have hrn : r ≤ sizePT mu := by omega
    have hr2 : 2 ≤ r := by
      by_contra h
      push_neg at h
      have hr1 : r = 1 := by omega
      rw [hr1, show (1 : Nat) - 1 = 0 by omega, hc00] at hdesc2
      omega
    have hnd : tab.Nodup := hperm.nodup_iff.mpr (initTab_nodup mu)
    have hmemt : ∀ m, m ∈ tab ↔ 1 ≤ m ∧ m ≤ sizePT mu := by
      intro m
      rw [hperm.mem_iff, mem_initTab]
    have hrmem : r ∈ tab := (hmemt r).mpr ⟨by omega, hrn⟩
    obtain ⟨hpr, hprv⟩ := indexOf_spec tab r hrmem
    have hr1mem : r - 1 ∈ tab := (hmemt _).mpr ⟨by omega, by omega⟩
    obtain ⟨hpr1, hpr1v⟩ := indexOf_spec tab (r - 1) hr1mem
    have hcolr : cols.getD r 0 = colIndex mu (tab.indexOf r) := by
      have h := hcolsI (tab.indexOf r) (by omega)
      rw [hprv] at h
      exact h
    have hcolr1 : cols.getD (r - 1) 0 = colIndex mu (tab.indexOf (r - 1)) := by
      have h := hcolsI (tab.indexOf (r - 1)) (by omega)
      rw [hpr1v] at h
      exact h
    have hcomp_le : compPos mu (tab.indexOf (r - 1)) ≤
        compPos mu (tab.indexOf r) := by
      by_contra h
      push_neg at h
      have := colIndex_comp_lt mu hmu (tab.indexOf r) (tab.indexOf (r - 1))
        (by omega) (by omega) h
      rw [← hcolr1, ← hcolr] at this
      omega
    have hint1 := compPos_interval mu (tab.indexOf (r - 1)) (by omega)
    have hcomp1lt : compPos mu (tab.indexOf (r - 1)) < mu.length :=
      (pos_decomp mu _ (by omega)).1
    have hclen2 : clenOf mu (compPos mu (tab.indexOf (r - 1)) + 1) ≤ sizePT mu := by
      rw [← clenOf_full mu]
      exact clenOf_mono _ _ _ (by omega)
    have hr1cand : r - 1 ∈ mriCand mu tab cols r
        (compPos mu (tab.indexOf (r - 1)) + 1) := by
      unfold mriCand
      rw [List.mem_filter]
      constructor
      · rw [show compPos mu (tab.indexOf (r - 1)) + 1 - 1 =
          compPos mu (tab.indexOf (r - 1)) by omega]
        refine (mem_iff_getD _ _).mpr
          ⟨tab.indexOf (r - 1) - clenOf mu (compPos mu (tab.indexOf (r - 1))), ?_, ?_⟩
        · rw [sliceP_length tab _ _ (by omega) (clenOf_mono _ _ _ (by omega))]
          omega
        · rw [sliceP_getD tab _ _ _ (by omega),
            show clenOf mu (compPos mu (tab.indexOf (r - 1))) +
              (tab.indexOf (r - 1) - clenOf mu (compPos mu (tab.indexOf (r - 1)))) =
              tab.indexOf (r - 1) by omega]
          exact hpr1v
      · rw [decide_eq_true_eq]
        exact ⟨by omega, hdesc2⟩
    have hcne : ¬(mriCand mu tab cols r
        (compPos mu (tab.indexOf (r - 1)) + 1)).isEmpty = true := by
      rw [List.isEmpty_iff]
      exact List.ne_nil_of_mem hr1cand
    have hc0eq : (componentList mu).getD (tab.indexOf r) 0 =
        compPos mu (tab.indexOf r) + 1 := componentList_getD mu _ (by omega)
    have hsafe := maxRowInComp_safe mu tab cols r
      (compPos mu (tab.indexOf (r - 1)) + 1) (by omega) hcne
      ((componentList mu).getD (tab.indexOf r) 0) (by rw [hc0eq]; omega)
    obtain ⟨s, hs⟩ := Option.isSome_iff_exists.mp hsafe
    obtain ⟨c2, hc2a, hc2b, hc2last⟩ := maxRowInComp_extract mu tab cols r _ s hs
    have hc2mu : c2 ≤ mu.length := by
      rw [hc0eq] at hc2b
      have := (pos_decomp mu (tab.indexOf r) (by omega)).1
      omega
    obtain ⟨hsr, hscol, q0, hq0a, hq0b, hq0n, hq0v, hlast0⟩ :=
      mriCand_last_facts mu tab cols r c2 s htlen hc2a hc2mu hc2last
    have hq0comp : compPos mu q0 = c2 - 1 :=
      compPos_of_interval mu q0 (c2 - 1) hq0n hq0a
        (by rw [show c2 - 1 + 1 = c2 by omega]; exact hq0b)
    have hlast : ∀ q2, q0 < q2 → q2 < clenOf mu (compPos mu q0 + 1) →
        ¬(tab.getD q2 0 < r ∧ cols.getD r 0 < cols.getD (tab.getD q2 0) 0) := by
      intro q2 h1 h2
      rw [hq0comp, show c2 - 1 + 1 = c2 by omega] at h2
      exact hlast0 q2 h1 h2
    have hJr : (lePositions mu tab r).length = r :=
      lePositions_length mu tab cols hinv2 r hrn
    have hq0mem : q0 ∈ lePositions mu tab r :=
      (mem_lePositions mu tab r q0).mpr ⟨hq0n, by rw [hq0v]; omega⟩
    obtain ⟨qi, hqi, hqiv⟩ := (mem_iff_getD _ q0).mp hq0mem
    rw [hJr] at hqi
    have hminsall := rank_mins mu hmu tab cols hinv2 r s q0 hscol hsr hq0n hq0v hlast
    have hmins2 : ∀ t2, 1 ≤ t2 → t2 < r →
        minsPos mu (homePos mu tab r qi t2) < t2 := by
      refine homePos_mins mu tab r qi hJr hqi ?_
      intro k hk
      have h := hminsall k hk
      exact ⟨h.1, fun h2 => h.2 (by rw [← hqiv]; exact h2)⟩
    have hseq : tab.indexOf s = q0 := indexOf_unique tab hnd q0 s (by omega) hq0v
    have hbR := step_beta_right mu hmu tab cols hinv2 r s q0 hscol hq0n hq0v hlast
    have hbB := step_beta_below mu hmu tab cols hinv2 r s q0 hscol hq0n hq0v hlast
    have hloop := placeLoop_spec mu tab cols htlen hclen hcolsI r qi hrn hJr hqi
      hmins2 (cols.getD s 0) (r - 1) 1 (by omega) (by omega)
      (tab.set (tab.indexOf s) r) (cols.set r (cols.getD s 0))
      ((List.replicate r (-1 : Int)).set (r - 1) ((tab.indexOf s : Nat) : Int))
      (by rw [List.length_set]; exact htlen)
      (by rw [List.length_set]; exact hclen)
      (by rw [List.length_set, List.length_replicate])
      (by
        rw [getD_set_self _ _ _ _ (by rw [List.length_replicate]; omega)]
        rw [hseq, hqiv])
      (by intro t2 h1 h2; omega)
      (by
        intro k2 hk1 hk2
        rw [getD_set_ne _ _ _ _ _ (by omega)]
        exact getD_replicate_gen r k2 _ _ (by omega))
      (by
        intro i hi
        refine ⟨?_, ?_, ?_⟩
        · intro hiq
          rw [hiq, hqiv, ← hseq,
            getD_set_self _ _ _ _ (by rw [htlen, hseq]; omega)]
        · intro t2 h1 h2
          omega
        · intro hne _
          rw [getD_set_ne _ _ _ _ _ (by
            intro heq
            rw [hseq] at heq
            rw [← heq, ← hqiv] at hne
            exact hne rfl)]
      )
      (by intro t2 h1 h2; omega)
      (by
        intro m hm1 _
        rw [getD_set_ne _ _ _ _ _ (fun heq => hm1 heq.symm)])
      (by rw [getD_set_self _ _ _ _ (by rw [hclen]; omega)])
    obtain ⟨tb, cl, hrun, hres1, hres2, hres3, hres4, hres5, hres6⟩ := hloop
    have hclr : cl.getD r 0 = colIndex mu ((lePositions mu tab r).getD qi 0) := by
      rw [hres6]
      have h := hcolsI q0 hq0n
      rw [hq0v] at h
      rw [h, hqiv]
    have hbR2 : ∀ j, j < sizePT mu →
        compPos mu j = compPos mu ((lePositions mu tab r).getD qi 0) →
        rrPos mu j = rrPos mu ((lePositions mu tab r).getD qi 0) →
        cPos mu ((lePositions mu tab r).getD qi 0) < cPos mu j →
        r < tab.getD j 0 := by
      rw [hqiv]
      exact hbR
    have hbB2 : ∀ j, j < sizePT mu →
        compPos mu j = compPos mu ((lePositions mu tab r).getD qi 0) →
        cPos mu j = cPos mu ((lePositions mu tab r).getD qi 0) →
        rrPos mu ((lePositions mu tab r).getD qi 0) < rrPos mu j →
        r < tab.getD j 0 := by
      rw [hqiv]
      exact hbB
    have hnewInv := newInv_of_descs mu hmu tab cols hinv2 r qi hr2 hrn hJr hqi
      hbR2 hbB2 tb cl hres1 hres2 hres3 hres4 hres5 hclr
    refine ⟨tb, cl, r, ?_, hnewInv, hr2, hrn, ?_, ?_⟩
    · unfold iterStep
      simp only []
      rw [← hrdef, if_neg hstop, hs]
      simp only []
      rw [range_map_succ_eq, hrun]
    · rw [hres6]
      exact hscol
    · intro m hm
      exact hres5 m (by omega) (fun t2 h1 h2 => by omega)

theorem initInv (mu : List (List Nat)) : IterInv mu (initTab mu) (colsInit mu) := by
  refine ⟨initTab_length mu, colsInit_length mu, rfl, List.Perm.refl _, ?_, ?_⟩
  · intro i hi
    rw [initTab_getD mu i hi, colsInit_getD_succ mu i hi]
  · intro i hi
    obtain ⟨hci, hrri, hcoli, hgi, hsi, hrowsi⟩ := pos_decomp mu i hi
    constructor
    · intro hright
      unfold hasRight at hright
      have hrt := posAt_roundtrip mu (compPos mu i) (rrPos mu i) (cPos mu i + 1)
        hci hrri (by rw [← hrowsi]; exact hright)
      have hip1 : posAt mu (compPos mu i) (rrPos mu i) (cPos mu i + 1) = i + 1 := by
        unfold posAt
        rw [← hgi]
        omega
      rw [initTab_getD mu i hi, initTab_getD mu (i + 1)
        (by rw [← hip1]; exact hrt.1)]
      omega
    · intro hbelow
      unfold hasBelow at hbelow
      obtain ⟨hb1, hb2⟩ := hbelow
      have hrow2 : cPos mu i <
          (mu.getD (compPos mu i) []).getD (rrPos mu i + 1) 0 := by
        rw [hgi] at hb2
        rw [show psum (lensOf mu) (compPos mu i) + rrPos mu i + 1 =
          psum (lensOf mu) (compPos mu i) + (rrPos mu i + 1) by omega] at hb2
        rw [← rowsOf_getD mu _ _ hci hb1]
        exact hb2
      have hrt := posAt_roundtrip mu (compPos mu i) (rrPos mu i + 1) (cPos mu i)
        hci hb1 hrow2
      have hbp : posAt mu (compPos mu i) (rrPos mu i + 1) (cPos mu i) =
          belowPos mu i := by
        have hglt : gPos mu i < (rowsOf mu).length := by
          rw [hgi]
          exact gRow_lt mu _ _ hci hrri
        unfold belowPos posAt
        rw [show psum (lensOf mu) (compPos mu i) + (rrPos mu i + 1) =
          gPos mu i + 1 by omega, psum_succ (rowsOf mu) _ hglt]
        omega
      have hblt : i < belowPos mu i := by
        unfold belowPos
        rw [hrowsi]
        omega
      rw [initTab_getD mu i hi, initTab_getD mu (belowPos mu i)
        (by rw [← hbp]; exact hrt.1)]
      omega

theorem geom_sum_base (B : Nat) :
    ∀ k, ((List.range k).map fun m => B * (B + 1) ^ m).sum = (B + 1) ^ k - 1 := by
  intro k
  induction k with
  | zero => simp
  | succ k ih =>
    rw [List.range_succ, List.map_append, List.sum_append, ih]
    simp only [List.map_cons, List.map_nil, List.sum_cons, List.sum_nil]
    have h1 : 1 ≤ (B + 1) ^ k := Nat.one_le_pow _ _ (by omega)
    have h2 : (B + 1) ^ (k + 1) = B * (B + 1) ^ k + (B + 1) ^ k := by
      rw [pow_succ]
      ring
    omega

theorem cols_entry_bound (mu : List (List Nat)) (hmu : IsPartitionTuple mu)
    (tab cols : List Nat) (hinv : IterInv mu tab cols) :
    ∀ m, 1 ≤ m → m ≤ sizePT mu → cols.getD m 0 ≤ totalWidth mu := by
  obtain ⟨htlen, hclen, hc00, hperm, hcolsI, hstd⟩ := hinv
  intro m h1 h2
  have hmem : m ∈ tab := by
    rw [hperm.mem_iff, mem_initTab]
    omega
  obtain ⟨hidx, hidxv⟩ := indexOf_spec tab m hmem
  have h := hcolsI (tab.indexOf m) (by omega)
  rw [hidxv] at h
  rw [h]
  have := colIndex_lt_total mu hmu (tab.indexOf m) (by omega)
  omega

theorem colsMeasure_bound (mu : List (List Nat)) (hmu : IsPartitionTuple mu)
    (tab cols : List Nat) (hinv : IterInv mu tab cols) :
    colsMeasure mu cols < (totalWidth mu + 1) ^ sizePT mu := by
  have hbd := cols_entry_bound mu hmu tab cols hinv
  unfold colsMeasure
  have hle : ((List.range (sizePT mu)).map fun m =>
      cols.getD (m + 1) 0 * (totalWidth mu + 1) ^ m).sum ≤
      ((List.range (sizePT mu)).map fun m =>
      totalWidth mu * (totalWidth mu + 1) ^ m).sum := by
    refine List.sum_le_sum ?_
    intro i hi
    rw [List.mem_range] at hi
    exact Nat.mul_le_mul_right _ (hbd (i + 1) (by omega) (by omega))
  rw [geom_sum_base] at hle
  have hpow : 1 ≤ (totalWidth mu + 1) ^ sizePT mu := Nat.one_le_pow _ _ (by omega)
  omega

theorem colsMeasure_inc (mu : List (List Nat)) (hmu : IsPartitionTuple mu)
    (tab cols : List Nat) (hinv : IterInv mu tab cols)
    (cl : List Nat) (r2 : Nat) (hr2 : 2 ≤ r2) (hrn : r2 ≤ sizePT mu)
    (hlt : cols.getD r2 0 < cl.getD r2 0)
    (hupper : ∀ m, r2 < m → cl.getD m 0 = cols.getD m 0) :
    colsMeasure mu cols < colsMeasure mu cl := by
  have hbd := cols_entry_bound mu hmu tab cols hinv
  unfold colsMeasure
  have hsplit : List.range (sizePT mu) = (List.range (r2 - 1) ++ [r2 - 1]) ++
      (List.range (sizePT mu - r2)).map (r2 + ·) := by
    rw [← List.range_succ, Nat.succ_eq_add_one, show r2 - 1 + 1 = r2 by omega,
      ← List.range_add, show r2 + (sizePT mu - r2) = sizePT mu by omega]
  rw [hsplit]
  rw [List.map_append, List.map_append, List.sum_append, List.sum_append,
    List.map_append, List.map_append, List.sum_append, List.sum_append]
  have hupper_eq : (((List.range (sizePT mu - r2)).map (r2 + ·)).map fun m =>
      cl.getD (m + 1) 0 * (totalWidth mu + 1) ^ m) =
      (((List.range (sizePT mu - r2)).map (r2 + ·)).map fun m =>
      cols.getD (m + 1) 0 * (totalWidth mu + 1) ^ m) := by
    refine List.map_congr_left ?_
    intro m hm
    rw [List.mem_map] at hm
    obtain ⟨j, _, rfl⟩ := hm
    rw [hupper (r2 + j + 1) (by omega)]
  rw [hupper_eq]
  have hpivot_c : ([r2 - 1].map fun m =>
      cols.getD (m + 1) 0 * (totalWidth mu + 1) ^ m).sum =
      cols.getD r2 0 * (totalWidth mu + 1) ^ (r2 - 1) := by
    simp only [List.map_cons, List.map_nil, List.sum_cons, List.sum_nil]
    rw [show r2 - 1 + 1 = r2 by omega]
    omega
  have hpivot_n : ([r2 - 1].map fun m =>
      cl.getD (m + 1) 0 * (totalWidth mu + 1) ^ m).sum =
      cl.getD r2 0 * (totalWidth mu + 1) ^ (r2 - 1) := by
    simp only [List.map_cons, List.map_nil, List.sum_cons, List.sum_nil]
    rw [show r2 - 1 + 1 = r2 by omega]
    omega
  rw [hpivot_c, hpivot_n]
  have hlower : ((List.range (r2 - 1)).map fun m =>
      cols.getD (m + 1) 0 * (totalWidth mu + 1) ^ m).sum ≤
      (totalWidth mu + 1) ^ (r2 - 1) - 1 := by
    have hle : ((List.range (r2 - 1)).map fun m =>
        cols.getD (m + 1) 0 * (totalWidth mu + 1) ^ m).sum ≤
        ((List.range (r2 - 1)).map fun m =>
        totalWidth mu * (totalWidth mu + 1) ^ m).sum := by
      refine List.sum_le_sum ?_
      intro i hi
      rw [List.mem_range] at hi
      exact Nat.mul_le_mul_right _ (hbd (i + 1) (by omega) (by omega))
    rw [geom_sum_base] at hle
    exact hle
  have hgap : cols.getD r2 0 * (totalWidth mu + 1) ^ (r2 - 1) +
      (totalWidth mu + 1) ^ (r2 - 1) ≤
      cl.getD r2 0 * (totalWidth mu + 1) ^ (r2 - 1) := by
    have h1 : (cols.getD r2 0 + 1) * (totalWidth mu + 1) ^ (r2 - 1) ≤
        cl.getD r2 0 * (totalWidth mu + 1) ^ (r2 - 1) :=
      Nat.mul_le_mul_right _ (by omega)
    have h2 : (cols.getD r2 0 + 1) * (totalWidth mu + 1) ^ (r2 - 1) =
        cols.getD r2 0 * (totalWidth mu + 1) ^ (r2 - 1) +
        (totalWidth mu + 1) ^ (r2 - 1) := by
      ring
    omega
  have hpow : 1 ≤ (totalWidth mu + 1) ^ (r2 - 1) := Nat.one_le_pow _ _ (by omega)
  omega

theorem iterRun_safe (mu : List (List Nat)) (hmu : IsPartitionTuple mu) :
    ∀ fuel tab cols, IterInv mu tab cols →
    (totalWidth mu + 1) ^ sizePT mu ≤ fuel + colsMeasure mu cols →
    ∃ outs, iterRun mu fuel tab cols = some outs := by
  intro fuel
  induction fuel with
  | zero =>
    intro tab cols hinv hbound
    have := colsMeasure_bound mu hmu tab cols hinv
    omega
  | succ fuel ih =>
    intro tab cols hinv hbound
    rcases iterStep_cases mu hmu tab cols hinv with hstop |
      ⟨tb, cl, r2, hnext, hinv2, h1, h2, h3, h4⟩
    · refine ⟨[], ?_⟩
      unfold iterRun
      rw [hstop]
    · have hinc := colsMeasure_inc mu hmu tab cols hinv cl r2 h1 h2 h3 h4
      obtain ⟨rest, hrest⟩ := ih tb cl hinv2 (by omega)
      refine ⟨tb :: rest, ?_⟩
      unfold iterRun
      rw [hnext]
      show (match iterRun mu fuel tb cl with
        | none => none
        | some rest => some (tb :: rest)) = some (tb :: rest)
      rw [hrest]

/-- C2: for every partition-tuple shape `mu` (including the empty shape),
iterating `StandardTableauTuples_shape(mu)` terminates and never fails
mid-stream.  In the embedding `iterStep` returns `StepRes.fail` exactly when
the helper `max_row_in_component` falls through every component without
finding a candidate (or the subsequent placement scan finds no spot), and
`iterRun` returns `none` when a step fails or the fuel runs out.  The theorem
states that with the explicit fuel `fuelBound mu = (totalWidth mu + 1) ^
sizePT mu + 1` the run always returns `some` list of tableaux: the
fall-through branch is unreachable and the loop terminates within a bounded
number of advance steps. -/
theorem stdShapeIter_safe (mu : List (List Nat)) (hmu : IsPartitionTuple mu) :
    ∃ outs, stdShapeIter mu (fuelBound mu) = some outs := by
  obtain ⟨rest, hrest⟩ := iterRun_safe mu hmu (fuelBound mu) (initTab mu)
    (colsInit mu) (initInv mu) (by unfold fuelBound; omega)
  refine ⟨(initTab mu :: rest).map (tableauFromList mu), ?_⟩
  unfold stdShapeIter
  rw [hrest]

theorem stdShapeIter_safe_witness :
    IsPartitionTuple [[2], [1]] ∧
    ∃ outs, stdShapeIter [[2], [1]] (fuelBound [[2], [1]]) = some outs :=
  ⟨by unfold IsPartitionTuple; decide,
   stdShapeIter_safe [[2], [1]] (by unfold IsPartitionTuple; decide)⟩

end TabTuple
